import Mathlib

/-!
# Binary Byzantine Agreement (`agreement/mod.rs`) — shallow embedding and verification

This file embeds the `Agreement` state machine of the hbbft binary agreement
module (`src/agreement/mod.rs`) in Lean and proves properties of it.

Conventions of the embedding:
* `NodeUid` is `Nat`; `BTreeMap`s become association lists with
  overwrite-on-insert (`insertMap`), `BTreeSet<bool>` becomes `BinValues`.
* The `u32` epoch counter is modelled as `Nat` (its overflow is unreachable
  within the scope of the verified properties).
* The whole mutually recursive call graph of `Agreement` is interpreted by a
  single fuel-indexed interpreter `exec` dispatching on a `Call` tag, one tag
  per Rust method; `none` means fuel exhaustion, never an error.
* `session_id`, `proposer_id` and the `Nonce` only feed the threshold
  cryptography of the common coin, which is outside the sources; they are
  dropped and the coin's pseudorandom boolean outcome is abstracted as a
  parameter `cv : Nat → Bool` giving the coin value of each epoch.
-/

namespace Hbbft

/-- Modelled from the spec: `BinValues` (`agreement/bin_values.rs` is not part
of the sources). A lattice element over the powerset of `{false, true}` with
`insert` (returning the new set and a change flag), `contains`, `is_subset`,
`definite`, `clear`, `from_bool` and union. -/
structure BinValues where
  hasF : Bool
  hasT : Bool
  deriving Repr, DecidableEq

namespace BinValues

/-- The empty set `BinValues::None`. -/
def none : BinValues := ⟨false, false⟩

/-- `BinValues::from_bool`. -/
def fromBool (b : Bool) : BinValues := if b then ⟨false, true⟩ else ⟨true, false⟩

/-- `BinValues::contains`. -/
def contains (v : BinValues) (b : Bool) : Bool := if b then v.hasT else v.hasF

/-- Set union (bitwise or). -/
def union (v w : BinValues) : BinValues := ⟨v.hasF || w.hasF, v.hasT || w.hasT⟩

/-- `BinValues::insert`: returns the updated set and whether it changed. -/
def insert (v : BinValues) (b : Bool) : BinValues × Bool :=
  (v.union (fromBool b), !(v.contains b))

/-- `BinValues::is_subset`. -/
def isSubset (v w : BinValues) : Bool :=
  (!v.hasF || w.hasF) && (!v.hasT || w.hasT)

/-- `BinValues::definite`: the sole element when the set is a singleton. -/
def definite (v : BinValues) : Option Bool :=
  match v.hasF, v.hasT with
  | true, false => some false
  | false, true => some true
  | _, _ => Option.none

/-- `BinValues::clear`. -/
def clear (_ : BinValues) : BinValues := none

end BinValues

/-- Association-list lookup (`BTreeMap::get`). -/
def lookupA {α : Type} (k : Nat) : List (Nat × α) → Option α
  | [] => Option.none
  | p :: rest => if p.1 = k then some p.2 else lookupA k rest

/-- Association-list insert with overwrite (`BTreeMap::insert`). -/
def insertMap {α : Type} (k : Nat) (v : α) : List (Nat × α) → List (Nat × α)
  | [] => [(k, v)]
  | p :: rest => if p.1 = k then (k, v) :: rest else p :: insertMap k v rest

/-- `received_bval.entry(k).or_insert_with(BTreeSet::new).insert(b)`:
add `b` to the value-set stored under `k`. -/
def insertBvalEntry (k : Nat) (b : Bool) : List (Nat × BinValues) → List (Nat × BinValues)
  | [] => [(k, BinValues.fromBool b)]
  | p :: rest =>
    if p.1 = k then (k, (p.2.insert b).1) :: rest else p :: insertBvalEntry k b rest

/-- Modelled from the spec: the read-only `NetworkInfo` collaborator
(`messaging.rs` is not part of the sources): `num_nodes`, `num_faulty`,
`is_validator`, `our_uid`. -/
structure NetworkInfo where
  numNodes : Nat
  numFaulty : Nat
  isValidator : Bool
  ourUid : Nat
  deriving Repr, DecidableEq

/-- The error kinds of the `error_chain!` block. -/
inductive AgrError where
  | unknownProposer
  | inputNotAccepted
  deriving Repr, DecidableEq

/-- `AgreementContent`: the five message variants. The coin sub-message is a
single abstract signature share, carrying no data in the model. -/
inductive AgreementContent where
  | bval (b : Bool)
  | aux (b : Bool)
  | conf (v : BinValues)
  | term (b : Bool)
  | coin
  deriving Repr, DecidableEq

/-- `AgreementMessage`: an epoch tag and a content. -/
structure AgreementMessage where
  epoch : Nat
  content : AgreementContent
  deriving Repr, DecidableEq

/-- `AgreementContent::with_epoch`. -/
def AgreementContent.withEpoch (c : AgreementContent) (e : Nat) : AgreementMessage :=
  ⟨e, c⟩

/-- Modelled from the spec: a message target (`messaging::Target`), either
broadcast to all or a single peer. -/
inductive Target where
  | all
  | node (uid : Nat)
  deriving Repr, DecidableEq

/-- Modelled from the spec: `messaging::Step` — an ordered batch of outbound
targeted messages plus a queue of outputs (the fault log carries no
information relevant to the verified properties and is omitted). -/
structure Step where
  messages : List (Target × AgreementMessage)
  output : List Bool
  deriving Repr, DecidableEq

/-- The empty step (`Step::default`). -/
def Step.empty : Step := ⟨[], []⟩

/-- `Step::extend`: append messages and outputs. -/
def Step.app (s t : Step) : Step := ⟨s.messages ++ t.messages, s.output ++ t.output⟩

/-- Modelled from the spec: the state of the consumed `CommonCoin` service —
whether `input` was already invoked, the set of peers whose (valid,
deterministic) signature shares were received, and whether the boolean output
was already produced (it is produced once, upon `f + 1` shares). -/
structure CommonCoin where
  hadInput : Bool
  receivedShares : List Nat
  outputProduced : Bool
  deriving Repr, DecidableEq

/-- A fresh coin instance (`CommonCoin::new`). -/
def CommonCoin.new : CommonCoin := ⟨false, [], false⟩

/-- Modelled from the spec: a step of the common coin — outbound share
broadcasts (payload-free in the model) and at most one boolean output. -/
structure CoinStep where
  shares : List Unit
  outputs : List Bool
  deriving Repr, DecidableEq

/-- Record a sender in the coin's share set (set semantics). -/
def CommonCoin.addShare (c : CommonCoin) (s : Nat) : CommonCoin :=
  if c.receivedShares.contains s then c
  else { c with receivedShares := s :: c.receivedShares }

/-- Modelled from the spec: the coin handles a (valid) share from `s`; when
`f + 1` shares are present and the output was not yet produced, it outputs
the boolean `v` (the abstracted pseudorandom outcome for this nonce). -/
def coinHandleShare (ni : NetworkInfo) (v : Bool) (s : Nat) (c : CommonCoin) :
    CoinStep × CommonCoin :=
  let c := c.addShare s
  if !c.outputProduced && decide (ni.numFaulty + 1 ≤ c.receivedShares.length) then
    (⟨[], [v]⟩, { c with outputProduced := true })
  else (⟨[], []⟩, c)

/-- Modelled from the spec: `CommonCoin::input(())`, invoked at most once per
instance (a repeated invocation is absorbed). A validator signs and
broadcasts its share and handles it locally; a non-validator cannot sign but
still checks whether the already-received shares produce the output. -/
def coinInput (ni : NetworkInfo) (v : Bool) (c : CommonCoin) : CoinStep × CommonCoin :=
  if c.hadInput then (⟨[], []⟩, c)
  else
    let c := { c with hadInput := true }
    if ni.isValidator then
      let (cs, c') := coinHandleShare ni v ni.ourUid c
      (⟨() :: cs.shares, cs.outputs⟩, c')
    else
      if !c.outputProduced && decide (ni.numFaulty + 1 ≤ c.receivedShares.length) then
        (⟨[], [v]⟩, { c with outputProduced := true })
      else (⟨[], []⟩, c)

/-- `CoinSchedule`: the common coin schedule of an epoch. -/
inductive CoinSchedule where
  | cFalse
  | cTrue
  | random
  deriving Repr, DecidableEq

/-- The `Agreement` state (one field per Rust struct field; `netinfo` is the
immutable shared network information; `session_id`, `proposer_id` and the
nonce inside the coin are dropped, see the module comment). -/
structure AgreementState where
  netinfo : NetworkInfo
  epoch : Nat
  binValues : BinValues
  receivedBval : List (Nat × BinValues)
  sentBval : BinValues
  receivedAux : List (Nat × Bool)
  receivedConf : List (Nat × BinValues)
  receivedTerm : List (Nat × Bool)
  estimated : Option Bool
  decision : Option Bool
  incomingQueue : List (Nat × AgreementMessage)
  terminated : Bool
  confRound : Bool
  commonCoin : CommonCoin
  coinSchedule : CoinSchedule
  deriving Repr, DecidableEq

/-- `Agreement::new` (the `UnknownProposer` membership check concerns only the
dropped `proposer_id` and is not modelled). -/
def initState (ni : NetworkInfo) : AgreementState where
  netinfo := ni
  epoch := 0
  binValues := BinValues.none
  receivedBval := []
  sentBval := BinValues.none
  receivedAux := []
  receivedConf := []
  receivedTerm := []
  estimated := Option.none
  decision := Option.none
  incomingQueue := []
  terminated := false
  confRound := false
  commonCoin := CommonCoin.new
  coinSchedule := CoinSchedule.cTrue

/-- `Agreement::accepts_input`. -/
def acceptsInput (st : AgreementState) : Bool :=
  decide (st.epoch = 0) && st.estimated.isNone

/-- `Agreement::coin_schedule`: `epoch % 3`: `0 → True`, `1 → False`,
`_ → Random`. -/
def coinScheduleOf (e : Nat) : CoinSchedule :=
  match e % 3 with
  | 0 => CoinSchedule.cTrue
  | 1 => CoinSchedule.cFalse
  | _ => CoinSchedule.random

/-- `Agreement::update_epoch`: clear the per-epoch buffers, increment the
epoch, construct a fresh coin and recompute the coin schedule. -/
def updateEpoch (st : AgreementState) : AgreementState :=
  { st with
    binValues := BinValues.none
    receivedBval := []
    sentBval := BinValues.none
    receivedAux := []
    receivedConf := []
    confRound := false
    epoch := st.epoch + 1
    commonCoin := CommonCoin.new
    coinSchedule := coinScheduleOf (st.epoch + 1) }

/-- The count of `received_bval` entries whose value-set contains `b`. -/
def countBval (l : List (Nat × BinValues)) (b : Bool) : Nat :=
  (l.filter (fun p => p.2.contains b)).length

/-- `Agreement::count_aux`: entries of `received_aux` and `received_term`
whose value lies in `bin_values`, keyed by peer with `Term` witnesses
overriding `Aux` ones, together with the union of the contributed values. -/
def countAux (st : AgreementState) : Nat × BinValues :=
  let aux := st.receivedAux.filter (fun p => st.binValues.contains p.2)
  let term := st.receivedTerm.filter (fun p => st.binValues.contains p.2)
  let combined := term.foldl (fun acc p => insertMap p.1 p.2 acc) aux
  (combined.length,
   combined.foldl (fun acc p => acc.union (BinValues.fromBool p.2)) BinValues.none)

/-- `Agreement::count_conf`: received `Conf` values that are subsets of
`bin_values`, with their union. -/
def countConf (st : AgreementState) : Nat × BinValues :=
  let vals := st.receivedConf.filter (fun p => p.2.isSubset st.binValues)
  (vals.length, vals.foldl (fun acc p => acc.union p.2) BinValues.none)

/-- `Agreement::decide`: output `b`, latch `decision`, broadcast `Term(b)` and
record the self-`Term` when a validator, set `terminated`; a no-op when
already terminated. -/
def decide (b : Bool) (st : AgreementState) : Step × AgreementState :=
  if st.terminated then (Step.empty, st)
  else if st.netinfo.isValidator then
    (⟨[(Target.all, ⟨st.epoch, AgreementContent.term b⟩)], [b]⟩,
     { st with
       decision := some b
       receivedTerm := insertMap st.netinfo.ourUid b st.receivedTerm
       terminated := true })
  else (⟨[], [b]⟩, { st with decision := some b, terminated := true })

/-- The count of `received_term` entries with value `b`. -/
def countTerm (l : List (Nat × Bool)) (b : Bool) : Nat :=
  (l.filter (fun p => p.2 = b)).length

/-- `Agreement::handle_term`: record the sender's value and expedite
termination on more than `num_faulty` matching `Term` entries. -/
def handleTerm (s : Nat) (b : Bool) (st : AgreementState) : Step × AgreementState :=
  let st := { st with receivedTerm := insertMap s b st.receivedTerm }
  if st.decision.isNone && Decidable.decide (st.netinfo.numFaulty < countTerm st.receivedTerm b) then
    Hbbft.decide b st
  else (Step.empty, st)

/-- One tag per method of the mutually recursive `Agreement` call graph
(`handle_term` and `decide` are non-recursive and stay pure functions;
`drain` is the queued-message replay loop inside `on_coin`). -/
inductive Call where
  | handleMessage (s : Nat) (m : AgreementMessage)
  | inputBody (b : Bool)
  | handleBval (s : Nat) (b : Bool)
  | onBinValuesChanged
  | sendBval (b : Bool)
  | sendConf
  | handleAux (s : Nat) (b : Bool)
  | handleConf (s : Nat) (v : BinValues)
  | handleCoin (s : Nat)
  | onCoinStep (cs : CoinStep)
  | onCoin (coin : Bool) (defBinValue : Option Bool)
  | tryFinishConfRound
  | sendAux (b : Bool)
  | drain (msgs : List (Nat × AgreementMessage))

/-- The body of one interpreter step: `rec` interprets the recursive calls
(one fuel unit lower). Each arm transcribes the corresponding Rust method. -/
def execBody (rec : Call → AgreementState → Option (Step × AgreementState))
    (cv : Nat → Bool) (c : Call) (st : AgreementState) :
    Option (Step × AgreementState) :=
  match c with
  | Call.handleMessage s m =>
    if st.terminated || Decidable.decide (m.epoch < st.epoch) then
      -- Message is obsolete: already in a later epoch or terminated.
      some (Step.empty, st)
    else if Decidable.decide (st.epoch < m.epoch) then
      -- Message for a later epoch: queue it.
      some (Step.empty, { st with incomingQueue := st.incomingQueue ++ [(s, m)] })
    else
      match m.content with
      | AgreementContent.bval b => rec (Call.handleBval s b) st
      | AgreementContent.aux b => rec (Call.handleAux s b) st
      | AgreementContent.conf v => rec (Call.handleConf s v) st
      | AgreementContent.term b => some (handleTerm s b st)
      | AgreementContent.coin => rec (Call.handleCoin s) st
  | Call.inputBody b =>
    -- `set_input` after the acceptance guard.
    if st.netinfo.numNodes = 1 then
      (rec (Call.sendBval b) st).bind fun r1 =>
      (rec (Call.sendAux b) r1.2).bind fun r2 =>
      let r3 := Hbbft.decide b r2.2
      some (((r1.1.app r2.1).app r3.1), r3.2)
    else
      let st := { st with estimated := some b }
      rec (Call.sendBval b) st
  | Call.handleBval s b =>
    let st := { st with receivedBval := insertBvalEntry s b st.receivedBval }
    let cnt := countBval st.receivedBval b
    -- upon 2f + 1 `BVal(b)`: bin_values := bin_values ∪ {b}
    (if cnt = 2 * st.netinfo.numFaulty + 1 then
      let prev := st.binValues
      let ins := st.binValues.insert b
      let st := { st with binValues := ins.1 }
      (if prev = BinValues.none then rec (Call.sendAux b) st
       else some (Step.empty, st)).bind fun r1 =>
      (if ins.2 then rec Call.onBinValuesChanged r1.2
       else some (Step.empty, r1.2)).bind fun r2 =>
      some (r1.1.app r2.1, r2.2)
    else some (Step.empty, st)).bind fun r =>
    -- upon f + 1 `BVal(b)`, if not yet sent, multicast `BVal(b)`
    if cnt = st.netinfo.numFaulty + 1 && !r.2.sentBval.contains b then
      (rec (Call.sendBval b) r.2).map fun r3 => (r.1.app r3.1, r3.2)
    else some r
  | Call.onBinValuesChanged =>
    match st.coinSchedule with
    | CoinSchedule.cFalse =>
      let ca := countAux st
      if st.netinfo.numNodes - st.netinfo.numFaulty ≤ ca.1 then
        rec (Call.onCoin false ca.2.definite) st
      else some (Step.empty, st)
    | CoinSchedule.cTrue =>
      let ca := countAux st
      if st.netinfo.numNodes - st.netinfo.numFaulty ≤ ca.1 then
        rec (Call.onCoin true ca.2.definite) st
      else some (Step.empty, st)
    | CoinSchedule.random => rec Call.tryFinishConfRound st
  | Call.sendBval b =>
    if !st.netinfo.isValidator then some (Step.empty, st)
    else
      let st := { st with sentBval := st.sentBval.union (BinValues.fromBool b) }
      let msg := (Target.all, AgreementMessage.mk st.epoch (AgreementContent.bval b))
      (rec (Call.handleBval st.netinfo.ourUid b) st).map fun r =>
        (Step.app ⟨[msg], []⟩ r.1, r.2)
  | Call.sendConf =>
    if st.confRound then some (Step.empty, st)
    else
      let st := { st with confRound := true }
      if !st.netinfo.isValidator then some (Step.empty, st)
      else
        let v := st.binValues
        let msg := (Target.all, AgreementMessage.mk st.epoch (AgreementContent.conf v))
        (rec (Call.handleConf st.netinfo.ourUid v) st).map fun r =>
          (Step.app ⟨[msg], []⟩ r.1, r.2)
  | Call.handleAux s b =>
    if st.confRound then some (Step.empty, st)
    else
      let st := { st with receivedAux := insertMap s b st.receivedAux }
      if st.binValues = BinValues.none then some (Step.empty, st)
      else
        let ca := countAux st
        if Decidable.decide (ca.1 < st.netinfo.numNodes - st.netinfo.numFaulty) then
          some (Step.empty, st)
        else
          match st.coinSchedule with
          | CoinSchedule.cFalse => rec (Call.onCoin false ca.2.definite) st
          | CoinSchedule.cTrue => rec (Call.onCoin true ca.2.definite) st
          | CoinSchedule.random => rec Call.sendConf st
  | Call.handleConf s v =>
    let st := { st with receivedConf := insertMap s v st.receivedConf }
    rec Call.tryFinishConfRound st
  | Call.handleCoin s =>
    let r := coinHandleShare st.netinfo (cv st.epoch) s st.commonCoin
    rec (Call.onCoinStep r.1) { st with commonCoin := r.2 }
  | Call.onCoinStep cs =>
    let wrapped := cs.shares.map fun _ =>
      (Target.all, AgreementMessage.mk st.epoch AgreementContent.coin)
    match cs.outputs with
    | [] => some (⟨wrapped, []⟩, st)
    | coin :: _ =>
      (rec (Call.onCoin coin (countConf st).2.definite) st).map fun r =>
        (Step.app ⟨wrapped, []⟩ r.1, r.2)
  | Call.onCoin coin defBinValue =>
    if st.terminated then some (Step.empty, st)
    else
      let d : Bool × (Step × AgreementState) :=
        match defBinValue with
        | some b =>
          if st.decision.isNone && (b == coin) then (b, Hbbft.decide b st)
          else (b, (Step.empty, st))
        | Option.none => (coin, (Step.empty, st))
      let b := d.1
      let st := updateEpoch d.2.2
      let st := { st with estimated := some b }
      (rec (Call.sendBval b) st).bind fun r1 =>
      let queued := r1.2.incomingQueue
      (rec (Call.drain queued) { r1.2 with incomingQueue := [] }).map fun r2 =>
        ((d.2.1.app r1.1).app r2.1, r2.2)
  | Call.tryFinishConfRound =>
    if st.confRound && Decidable.decide
        (st.netinfo.numNodes - st.netinfo.numFaulty ≤ (countConf st).1) then
      let r := coinInput st.netinfo (cv st.epoch) st.commonCoin
      rec (Call.onCoinStep r.1) { st with commonCoin := r.2 }
    else some (Step.empty, st)
  | Call.sendAux b =>
    if !st.netinfo.isValidator then some (Step.empty, st)
    else
      let msg := (Target.all, AgreementMessage.mk st.epoch (AgreementContent.aux b))
      (rec (Call.handleAux st.netinfo.ourUid b) st).map fun r =>
        (Step.app ⟨[msg], []⟩ r.1, r.2)
  | Call.drain msgs =>
    match msgs with
    | [] => some (Step.empty, st)
    | (s, m) :: rest =>
      (rec (Call.handleMessage s m) st).bind fun r1 =>
      if r1.2.terminated then some r1
      else (rec (Call.drain rest) r1.2).map fun r2 => (r1.1.app r2.1, r2.2)

/-- The fuel-indexed interpreter of the `Agreement` call graph; `cv` gives the
common coin's pseudorandom outcome per epoch, `none` means fuel exhaustion. -/
def exec (cv : Nat → Bool) : Nat → Call → AgreementState → Option (Step × AgreementState)
  | 0, _, _ => Option.none
  | Nat.succ f, c, st => execBody (exec cv f) cv c st

/-- `Agreement::set_input` (= `input` of `DistAlgorithm`): the acceptance
guard, then the input body. -/
def setInput (cv : Nat → Bool) (fuel : Nat) (b : Bool) (st : AgreementState) :
    Option (Except AgrError (Step × AgreementState)) :=
  if st.epoch ≠ 0 || st.estimated.isSome then some (Except.error AgrError.inputNotAccepted)
  else (exec cv fuel (Call.inputBody b) st).map Except.ok

/-- Whether a sent message is `BVal(b)` tagged with epoch `e`. -/
def isBvalMsg (e : Nat) (b : Bool) (p : Target × AgreementMessage) : Bool :=
  match p.2.content with
  | AgreementContent.bval b' => Decidable.decide (p.2.epoch = e) && (b' == b)
  | _ => false

/-- Whether a sent message is an `Aux` tagged with epoch `e`. -/
def isAuxMsg (e : Nat) (p : Target × AgreementMessage) : Bool :=
  match p.2.content with
  | AgreementContent.aux _ => Decidable.decide (p.2.epoch = e)
  | _ => false

/-- Whether a sent message is a `Conf` tagged with epoch `e`. -/
def isConfMsg (e : Nat) (p : Target × AgreementMessage) : Bool :=
  match p.2.content with
  | AgreementContent.conf _ => Decidable.decide (p.2.epoch = e)
  | _ => false

/-- The number of `BVal(b)` messages tagged `e` in a message batch. -/
def cntB (l : List (Target × AgreementMessage)) (e : Nat) (b : Bool) : Nat :=
  (l.filter (isBvalMsg e b)).length

/-- The number of `Aux` messages tagged `e` in a message batch. -/
def cntA (l : List (Target × AgreementMessage)) (e : Nat) : Nat :=
  (l.filter (isAuxMsg e)).length

/-- The number of `Conf` messages tagged `e` in a message batch. -/
def cntC (l : List (Target × AgreementMessage)) (e : Nat) : Nat :=
  (l.filter (isConfMsg e)).length

/-- The `BVal(b)`-at-epoch-`e` emission budget already used according to the
state: past epochs may have used their single shot; the current epoch's shot
is recorded in `sent_bval`; future epochs are untouched. -/
def phiB (st : AgreementState) (e : Nat) (b : Bool) : Nat :=
  if e < st.epoch then 1
  else if e = st.epoch then (if st.sentBval.contains b then 1 else 0)
  else 0

/-- The `Aux`-at-epoch-`e` emission budget already used: in the current epoch
an `Aux` has been sent iff `bin_values` became non-empty. -/
def phiA (st : AgreementState) (e : Nat) : Nat :=
  if e < st.epoch then 1
  else if e = st.epoch then (if st.binValues = BinValues.none then 0 else 1)
  else 0

/-- The `Conf`-at-epoch-`e` emission budget already used: recorded by
`conf_round` for the current epoch. -/
def phiC (st : AgreementState) (e : Nat) : Nat :=
  if e < st.epoch then 1
  else if e = st.epoch then (if st.confRound then 1 else 0)
  else 0

/-- A host-driven event: an `input` call or a `handle_message` delivery. -/
inductive Event where
  | input (b : Bool)
  | deliver (s : Nat) (m : AgreementMessage)

/-- Run a sequence of host events, concatenating all emitted steps. An
`input` rejected with `InputNotAccepted` contributes nothing (the error is
non-fatal and mutates nothing). -/
def runExec (cv : Nat → Bool) (fuel : Nat) :
    AgreementState → List Event → Option (Step × AgreementState)
  | st, [] => some (Step.empty, st)
  | st, e :: rest =>
    let r0 : Option (Step × AgreementState) :=
      match e with
      | Event.input b =>
        match setInput cv fuel b st with
        | some (Except.ok r) => some r
        | some (Except.error _) => some (Step.empty, st)
        | Option.none => Option.none
      | Event.deliver s m => exec cv fuel (Call.handleMessage s m) st
    r0.bind fun r1 =>
    (runExec cv fuel r1.2 rest).map fun r2 => (r1.1.app r2.1, r2.2)

/-! ## Basic lemmas about the data structures -/

theorem Step.empty_app (s : Step) : Step.empty.app s = s := by
  cases s; simp [Step.app, Step.empty]

theorem Step.app_empty (s : Step) : s.app Step.empty = s := by
  cases s; simp [Step.app, Step.empty]

theorem Step.output_app (s t : Step) : (s.app t).output = s.output ++ t.output := rfl

theorem Step.messages_app (s t : Step) : (s.app t).messages = s.messages ++ t.messages := rfl

namespace BinValues

theorem isSubset_refl (v : BinValues) : v.isSubset v = true := by
  obtain ⟨a, b⟩ := v
  cases a <;> cases b <;> decide

theorem isSubset_trans {u v w : BinValues} (h1 : u.isSubset v = true)
    (h2 : v.isSubset w = true) : u.isSubset w = true := by
  obtain ⟨a, b⟩ := u; obtain ⟨c, d⟩ := v; obtain ⟨e, f⟩ := w
  revert h1 h2
  cases a <;> cases b <;> cases c <;> cases d <;> cases e <;> cases f <;> decide

theorem isSubset_union_left (v w : BinValues) : v.isSubset (v.union w) = true := by
  obtain ⟨a, b⟩ := v; obtain ⟨c, d⟩ := w
  cases a <;> cases b <;> cases c <;> cases d <;> decide

theorem contains_of_subset {v w : BinValues} {b : Bool} (h : v.isSubset w = true)
    (hb : v.contains b = true) : w.contains b = true := by
  obtain ⟨p, q⟩ := v; obtain ⟨r, s⟩ := w
  revert h hb
  cases p <;> cases q <;> cases r <;> cases s <;> cases b <;> decide

theorem insert_subset (v : BinValues) (b : Bool) : v.isSubset (v.insert b).1 = true :=
  isSubset_union_left v (fromBool b)

theorem insert_contains_self (v : BinValues) (b : Bool) :
    ((v.insert b).1).contains b = true := by
  obtain ⟨p, q⟩ := v
  cases p <;> cases q <;> cases b <;> decide

theorem insert_of_contains {v : BinValues} {b : Bool} (h : v.contains b = true) :
    v.insert b = (v, false) := by
  obtain ⟨p, q⟩ := v
  revert h
  cases p <;> cases q <;> cases b <;> decide

theorem insert_ne_none (v : BinValues) (b : Bool) : (v.insert b).1 ≠ none := by
  obtain ⟨p, q⟩ := v
  cases p <;> cases q <;> cases b <;> decide

theorem contains_insert_other (v : BinValues) (b c : Bool) (h : v.contains c = true) :
    ((v.insert b).1).contains c = true :=
  contains_of_subset (insert_subset v b) h

theorem ne_none_of_contains {v : BinValues} {b : Bool} (h : v.contains b = true) :
    v ≠ none := by
  obtain ⟨p, q⟩ := v
  revert h
  cases p <;> cases q <;> cases b <;> decide

theorem none_contains (b : Bool) : none.contains b = false := by
  cases b <;> rfl

end BinValues

/-- Whether the value-set recorded for `k` contains `b`. -/
def bvalMem (k : Nat) (b : Bool) (l : List (Nat × BinValues)) : Bool :=
  ((lookupA k l).getD BinValues.none).contains b

theorem lookupA_insertMap_self {α : Type} (k : Nat) (v : α) (l : List (Nat × α)) :
    lookupA k (insertMap k v l) = some v := by
  induction l with
  | nil => simp [insertMap, lookupA]
  | cons p rest ih =>
    by_cases h : p.1 = k
    · simp [insertMap, h, lookupA]
    · simp [insertMap, h, lookupA, ih]

theorem lookupA_insertMap_ne {α : Type} {k k' : Nat} (h : k' ≠ k) (v : α)
    (l : List (Nat × α)) : lookupA k' (insertMap k v l) = lookupA k' l := by
  have hkk : ¬(k = k') := fun hh => h hh.symm
  induction l with
  | nil => simp [insertMap, lookupA, hkk]
  | cons p rest ih =>
    by_cases hp : p.1 = k
    · simp [insertMap, hp, lookupA, hkk]
    · by_cases hp' : p.1 = k'
      · simp [insertMap, hp, lookupA, hp', h]
      · simp [insertMap, hp, lookupA, hp', ih]

theorem insertMap_of_lookup {α : Type} {k : Nat} {v : α} {l : List (Nat × α)}
    (h : lookupA k l = some v) : insertMap k v l = l := by
  induction l with
  | nil => simp [lookupA] at h
  | cons p rest ih =>
    obtain ⟨p1, p2⟩ := p
    by_cases hp : p1 = k
    · simp only [lookupA, hp, if_pos] at h
      injection h with hv
      subst hv
      subst hp
      simp [insertMap]
    · simp only [lookupA, hp, if_neg, reduceIte] at h
      simp [insertMap, hp, ih h]

theorem lookupA_insertBvalEntry_ne {k k' : Nat} (h : k' ≠ k) (b : Bool)
    (l : List (Nat × BinValues)) :
    lookupA k' (insertBvalEntry k b l) = lookupA k' l := by
  have hkk : ¬(k = k') := fun hh => h hh.symm
  induction l with
  | nil => simp [insertBvalEntry, lookupA, hkk]
  | cons p rest ih =>
    by_cases hp : p.1 = k
    · simp [insertBvalEntry, hp, lookupA, hkk]
    · by_cases hp' : p.1 = k'
      · simp [insertBvalEntry, hp, lookupA, hp', h]
      · simp [insertBvalEntry, hp, lookupA, hp', ih]

theorem lookupA_insertBvalEntry_self (k : Nat) (b : Bool)
    (l : List (Nat × BinValues)) :
    lookupA k (insertBvalEntry k b l) =
      some ((((lookupA k l).getD BinValues.none).insert b).1) := by
  induction l with
  | nil =>
    simp only [insertBvalEntry, lookupA, if_pos, Option.getD]
    cases b <;> rfl
  | cons p rest ih =>
    by_cases hp : p.1 = k
    · simp [insertBvalEntry, hp, lookupA]
    · simp [insertBvalEntry, hp, lookupA, ih]

theorem bvalMem_insertBvalEntry_self (k : Nat) (b : Bool) (l : List (Nat × BinValues)) :
    bvalMem k b (insertBvalEntry k b l) = true := by
  simp [bvalMem, lookupA_insertBvalEntry_self, BinValues.insert_contains_self]

theorem bvalMem_insertBvalEntry_mono {k' : Nat} {b' : Bool} {l : List (Nat × BinValues)}
    (k : Nat) (b : Bool) (h : bvalMem k' b' l = true) :
    bvalMem k' b' (insertBvalEntry k b l) = true := by
  by_cases hk : k' = k
  · subst hk
    simp only [bvalMem, lookupA_insertBvalEntry_self]
    simp only [bvalMem] at h
    cases hl : lookupA k' l with
    | none =>
      rw [hl] at h
      simp only [Option.getD, BinValues.none_contains] at h
      exact absurd h (by simp)
    | some s =>
      rw [hl] at h
      simp only [Option.getD] at h ⊢
      exact BinValues.contains_insert_other _ _ _ h
  · simp only [bvalMem, lookupA_insertBvalEntry_ne hk]
    exact h

theorem insertBvalEntry_of_mem {k : Nat} {b : Bool} {l : List (Nat × BinValues)}
    (h : bvalMem k b l = true) : insertBvalEntry k b l = l := by
  induction l with
  | nil =>
    simp only [bvalMem, lookupA, Option.getD, BinValues.none_contains] at h
    exact absurd h (by simp)
  | cons p rest ih =>
    obtain ⟨p1, p2⟩ := p
    by_cases hp : p1 = k
    · simp only [bvalMem, lookupA, hp, if_pos, Option.getD] at h
      subst hp
      simp [insertBvalEntry, BinValues.insert_of_contains h]
    · simp only [bvalMem, lookupA, hp, if_neg, reduceIte] at h
      simp [insertBvalEntry, hp, ih h]

/-! ## The core Hoare relation of the interpreter -/

/-- The decision/termination invariant of reachable states: a latched decision
comes with the terminated flag. -/
def Inv (st : AgreementState) : Prop :=
  st.decision.isSome = true → st.terminated = true

/-- The call-independent postcondition of every interpreter step: frame of the
network information, monotone epoch, latching of `terminated` and `decision`,
output discipline, no messages from non-validators, and within-epoch
monotonicity of the per-epoch buffers. -/
structure CoreSpec (st : AgreementState) (step : Step) (st' : AgreementState) : Prop where
  netinfo_eq : st'.netinfo = st.netinfo
  epoch_le : st.epoch ≤ st'.epoch
  term_mono : st.terminated = true → st'.terminated = true
  dec_latch : ∀ v, st.decision = some v → st'.decision = some v
  term_dec : st'.terminated = true → st.terminated = true ∨ st'.decision.isSome = true
  dec_term : st'.decision.isSome = true → st.decision.isSome = true ∨ st'.terminated = true
  est_mono : st.estimated.isSome = true → st'.estimated.isSome = true
  out_nil : st.terminated = true → step.output = []
  out_len : step.output.length ≤ 1
  out_term : step.output ≠ [] → st'.terminated = true
  nonval : st.netinfo.isValidator = false → step.messages = []
  se_bin : st'.epoch = st.epoch → st.binValues.isSubset st'.binValues = true
  se_sent : st'.epoch = st.epoch → ∀ b, st.sentBval.contains b = true →
    st'.sentBval.contains b = true
  se_conf : st'.epoch = st.epoch → st.confRound = true → st'.confRound = true
  se_coin : st'.epoch = st.epoch → st.commonCoin.hadInput = true →
    st'.commonCoin.hadInput = true
  se_bval : st'.epoch = st.epoch → ∀ k b, bvalMem k b st.receivedBval = true →
    bvalMem k b st'.receivedBval = true

theorem CoreSpec.inv {st st' : AgreementState} {step : Step} (hI : Inv st)
    (h : CoreSpec st step st') : Inv st' := by
  intro hd
  rcases h.dec_term hd with h' | h'
  · exact h.term_mono (hI h')
  · exact h'

theorem CoreSpec.refl (st : AgreementState) : CoreSpec st Step.empty st where
  netinfo_eq := rfl
  epoch_le := Nat.le_refl _
  term_mono := fun h => h
  dec_latch := fun _ h => h
  term_dec := fun h => Or.inl h
  dec_term := fun h => Or.inl h
  est_mono := fun h => h
  out_nil := fun _ => rfl
  out_len := Nat.zero_le _
  out_term := fun h => absurd rfl h
  nonval := fun _ => rfl
  se_bin := fun _ => BinValues.isSubset_refl _
  se_sent := fun _ _ hb => hb
  se_conf := fun _ h => h
  se_coin := fun _ h => h
  se_bval := fun _ _ _ hb => hb

theorem CoreSpec.comp {st st₁ st' : AgreementState} {s1 s2 : Step}
    (h1 : CoreSpec st s1 st₁) (h2 : CoreSpec st₁ s2 st') :
    CoreSpec st (s1.app s2) st' := by
  have hee : st'.epoch = st.epoch → st₁.epoch = st.epoch ∧ st'.epoch = st₁.epoch := by
    intro h
    have := h1.epoch_le
    have := h2.epoch_le
    omega
  constructor
  · rw [h2.netinfo_eq, h1.netinfo_eq]
  · exact Nat.le_trans h1.epoch_le h2.epoch_le
  · exact fun h => h2.term_mono (h1.term_mono h)
  · exact fun v h => h2.dec_latch v (h1.dec_latch v h)
  · intro h
    rcases h2.term_dec h with h' | h'
    · rcases h1.term_dec h' with h'' | h''
      · exact Or.inl h''
      · refine Or.inr ?_
        rcases Option.isSome_iff_exists.mp h'' with ⟨v, hv⟩
        rw [h2.dec_latch v hv]
        rfl
    · exact Or.inr h'
  · intro h
    rcases h2.dec_term h with h' | h'
    · rcases h1.dec_term h' with h'' | h''
      · exact Or.inl h''
      · exact Or.inr (h2.term_mono h'')
    · exact Or.inr h'
  · exact fun h => h2.est_mono (h1.est_mono h)
  · intro h
    rw [Step.output_app, h1.out_nil h, h2.out_nil (h1.term_mono h)]
    rfl
  · rw [Step.output_app]
    by_cases h : s1.output = []
    · simpa [h] using h2.out_len
    · rw [h2.out_nil (h1.out_term h)]
      simpa using h1.out_len
  · intro h
    rw [Step.output_app] at h
    by_cases h' : s2.output = []
    · simp only [h', List.append_nil] at h
      exact h2.term_mono (h1.out_term h)
    · exact h2.out_term h'
  · intro h
    rw [Step.messages_app, h1.nonval h, h2.nonval (by rw [h1.netinfo_eq]; exact h)]
    rfl
  · intro h
    rcases hee h with ⟨ha, hb⟩
    exact BinValues.isSubset_trans (h1.se_bin ha) (h2.se_bin hb)
  · intro h b hb
    rcases hee h with ⟨ha, hb'⟩
    exact h2.se_sent hb' b (h1.se_sent ha b hb)
  · intro h hc
    rcases hee h with ⟨ha, hb⟩
    exact h2.se_conf hb (h1.se_conf ha hc)
  · intro h hc
    rcases hee h with ⟨ha, hb⟩
    exact h2.se_coin hb (h1.se_coin ha hc)
  · intro h k b hb
    rcases hee h with ⟨ha, hb'⟩
    exact h2.se_bval hb' k b (h1.se_bval ha k b hb)

theorem CoreSpec.comp_pure_left {st st₁ st' : AgreementState} {s : Step}
    (h1 : CoreSpec st Step.empty st₁) (h2 : CoreSpec st₁ s st') :
    CoreSpec st s st' := by
  have := h1.comp h2
  rwa [Step.empty_app] at this

theorem CoreSpec.comp_pure_right {st st₁ st' : AgreementState} {s : Step}
    (h1 : CoreSpec st s st₁) (h2 : CoreSpec st₁ Step.empty st') :
    CoreSpec st s st' := by
  have := h1.comp h2
  rwa [Step.app_empty] at this

/-- A pure, empty-step, same-epoch state update satisfies `CoreSpec` as soon
as the latched and monotone components behave. -/
theorem CoreSpec.pure {st st' : AgreementState}
    (hn : st'.netinfo = st.netinfo) (he : st'.epoch = st.epoch)
    (ht : st'.terminated = st.terminated) (hd : st'.decision = st.decision)
    (hest : st.estimated.isSome = true → st'.estimated.isSome = true)
    (hbin : st.binValues.isSubset st'.binValues = true)
    (hsent : ∀ b, st.sentBval.contains b = true → st'.sentBval.contains b = true)
    (hconf : st.confRound = true → st'.confRound = true)
    (hcoin : st.commonCoin.hadInput = true → st'.commonCoin.hadInput = true)
    (hbv : ∀ k b, bvalMem k b st.receivedBval = true →
      bvalMem k b st'.receivedBval = true) :
    CoreSpec st Step.empty st' where
  netinfo_eq := hn
  epoch_le := Nat.le_of_eq he.symm
  term_mono := fun h => by rw [ht]; exact h
  dec_latch := fun v h => by rw [hd]; exact h
  term_dec := fun h => Or.inl (by rw [← ht]; exact h)
  dec_term := fun h => Or.inl (by rw [← hd]; exact h)
  est_mono := hest
  out_nil := fun _ => rfl
  out_len := Nat.zero_le _
  out_term := fun h => absurd rfl h
  nonval := fun _ => rfl
  se_bin := fun _ => hbin
  se_sent := fun _ => hsent
  se_conf := fun _ => hconf
  se_coin := fun _ => hcoin
  se_bval := fun _ => hbv

/-- A validator may emit any batch of messages without outputs while leaving
the state unchanged. -/
theorem CoreSpec.broadcast {st : AgreementState} (hv : st.netinfo.isValidator = true)
    (msgs : List (Target × AgreementMessage)) : CoreSpec st ⟨msgs, []⟩ st where
  netinfo_eq := rfl
  epoch_le := Nat.le_refl _
  term_mono := fun h => h
  dec_latch := fun _ h => h
  term_dec := fun h => Or.inl h
  dec_term := fun h => Or.inl h
  est_mono := fun h => h
  out_nil := fun _ => rfl
  out_len := Nat.zero_le _
  out_term := fun h => absurd rfl h
  nonval := fun h => by rw [h] at hv; exact absurd hv (by simp)
  se_bin := fun _ => BinValues.isSubset_refl _
  se_sent := fun _ _ hb => hb
  se_conf := fun _ h => h
  se_coin := fun _ h => h
  se_bval := fun _ _ _ hb => hb

theorem updateEpoch_core (st : AgreementState) :
    CoreSpec st Step.empty (updateEpoch st) where
  netinfo_eq := rfl
  epoch_le := Nat.le_succ _
  term_mono := fun h => h
  dec_latch := fun _ h => h
  term_dec := fun h => Or.inl h
  dec_term := fun h => Or.inl h
  est_mono := fun h => h
  out_nil := fun _ => rfl
  out_len := Nat.zero_le _
  out_term := fun h => absurd rfl h
  nonval := fun _ => rfl
  se_bin := fun h => absurd h (by simp [updateEpoch])
  se_sent := fun h => absurd h (by simp [updateEpoch])
  se_conf := fun h => absurd h (by simp [updateEpoch])
  se_coin := fun h => absurd h (by simp [updateEpoch])
  se_bval := fun h => absurd h (by simp [updateEpoch])

theorem decide_core (b : Bool) (st : AgreementState) (hI : Inv st) :
    CoreSpec st (Hbbft.decide b st).1 (Hbbft.decide b st).2 := by
  unfold Hbbft.decide
  by_cases ht : st.terminated = true
  · simp only [ht, if_true]
    exact CoreSpec.refl st
  · rw [if_neg (by simp [ht])]
    by_cases hv : st.netinfo.isValidator = true
    · rw [if_pos (by simp [hv])]
      exact {
        netinfo_eq := rfl
        epoch_le := Nat.le_refl _
        term_mono := fun h => absurd h ht
        dec_latch := fun v hv' => absurd (hI (by rw [hv']; rfl)) ht
        term_dec := fun _ => Or.inr rfl
        dec_term := fun _ => Or.inr rfl
        est_mono := fun h => h
        out_nil := fun h => absurd h ht
        out_len := Nat.le_refl 1
        out_term := fun _ => rfl
        nonval := fun h => by rw [h] at hv; exact absurd hv (by simp)
        se_bin := fun _ => BinValues.isSubset_refl _
        se_sent := fun _ _ hb => hb
        se_conf := fun _ h => h
        se_coin := fun _ h => h
        se_bval := fun _ _ _ hb => hb }
    · rw [if_neg (by simp_all)]
      exact {
        netinfo_eq := rfl
        epoch_le := Nat.le_refl _
        term_mono := fun h => absurd h ht
        dec_latch := fun v hv' => absurd (hI (by rw [hv']; rfl)) ht
        term_dec := fun _ => Or.inr rfl
        dec_term := fun _ => Or.inr rfl
        est_mono := fun h => h
        out_nil := fun h => absurd h ht
        out_len := Nat.le_refl 1
        out_term := fun _ => rfl
        nonval := fun _ => rfl
        se_bin := fun _ => BinValues.isSubset_refl _
        se_sent := fun _ _ hb => hb
        se_conf := fun _ h => h
        se_coin := fun _ h => h
        se_bval := fun _ _ _ hb => hb }

theorem handleTerm_core (s : Nat) (b : Bool) (st : AgreementState) (hI : Inv st) :
    CoreSpec st (handleTerm s b st).1 (handleTerm s b st).2 := by
  simp only [handleTerm]
  have hpure : CoreSpec st Step.empty
      { st with receivedTerm := insertMap s b st.receivedTerm } :=
    CoreSpec.pure rfl rfl rfl rfl (fun h => h) (BinValues.isSubset_refl _)
      (fun _ h => h) (fun h => h) (fun h => h) (fun _ _ h => h)
  have hI' : Inv { st with receivedTerm := insertMap s b st.receivedTerm } := hI
  split
  · exact hpure.comp_pure_left (decide_core b _ hI')
  · exact hpure

theorem CommonCoin.addShare_hadInput (c : CommonCoin) (s : Nat) :
    (c.addShare s).hadInput = c.hadInput := by
  unfold CommonCoin.addShare
  split <;> rfl

theorem coinHandleShare_shares (ni : NetworkInfo) (v : Bool) (s : Nat) (c : CommonCoin) :
    (coinHandleShare ni v s c).1.shares = [] := by
  simp only [coinHandleShare]
  split <;> rfl

theorem coinHandleShare_hadInput (ni : NetworkInfo) (v : Bool) (s : Nat) (c : CommonCoin) :
    (coinHandleShare ni v s c).2.hadInput = c.hadInput := by
  simp only [coinHandleShare]
  split
  · exact CommonCoin.addShare_hadInput c s
  · exact CommonCoin.addShare_hadInput c s

theorem coinInput_hadInput (ni : NetworkInfo) (v : Bool) (c : CommonCoin) :
    (coinInput ni v c).2.hadInput = true := by
  simp only [coinInput]
  split
  · next hc => exact hc
  · split
    · rw [coinHandleShare_hadInput]
    · split <;> rfl

theorem coinInput_shares_nonval {ni : NetworkInfo} (hnv : ni.isValidator = false)
    (v : Bool) (c : CommonCoin) : (coinInput ni v c).1.shares = [] := by
  simp only [coinInput]
  split
  · rfl
  · rw [if_neg (by simp [hnv])]
    split <;> rfl

/-- Internal calls whose arguments could smuggle messages past the
non-validator check: an `onCoinStep` argument must be share-free on
non-validators. -/
def csOK : Call → Bool
  | Call.onCoinStep cs => cs.shares.isEmpty
  | _ => true

/-- A batch of messages with no outputs and unchanged state satisfies
`CoreSpec` provided non-validators emit none of them. -/
theorem CoreSpec.emit {st : AgreementState} {msgs : List (Target × AgreementMessage)}
    (hm : st.netinfo.isValidator = false → msgs = []) : CoreSpec st ⟨msgs, []⟩ st where
  netinfo_eq := rfl
  epoch_le := Nat.le_refl _
  term_mono := fun h => h
  dec_latch := fun _ h => h
  term_dec := fun h => Or.inl h
  dec_term := fun h => Or.inl h
  est_mono := fun h => h
  out_nil := fun _ => rfl
  out_len := Nat.zero_le _
  out_term := fun h => absurd rfl h
  nonval := hm
  se_bin := fun _ => BinValues.isSubset_refl _
  se_sent := fun _ _ hb => hb
  se_conf := fun _ h => h
  se_coin := fun _ h => h
  se_bval := fun _ _ _ hb => hb

/-- The body of the interpreter satisfies `CoreSpec`, assuming the recursive
interpreter does. -/
theorem coreBody (rec : Call → AgreementState → Option (Step × AgreementState))
    (cv : Nat → Bool)
    (IH : ∀ c st r, Inv st → rec c st = some r →
      (st.netinfo.isValidator = false → csOK c = true) → CoreSpec st r.1 r.2) :
    ∀ c st r, Inv st → execBody rec cv c st = some r →
      (st.netinfo.isValidator = false → csOK c = true) → CoreSpec st r.1 r.2 := by
  intro c st r hI h hP
  cases c with
  | handleMessage s m =>
    simp only [execBody] at h
    split at h
    · injection h with h
      subst h
      exact CoreSpec.refl st
    · split at h
      · injection h with h
        subst h
        exact CoreSpec.pure rfl rfl rfl rfl (fun x => x) (BinValues.isSubset_refl _)
          (fun _ x => x) (fun x => x) (fun x => x) (fun _ _ x => x)
      · split at h
        · exact IH _ _ _ hI h (fun _ => rfl)
        · exact IH _ _ _ hI h (fun _ => rfl)
        · exact IH _ _ _ hI h (fun _ => rfl)
        · injection h with h
          subst h
          exact handleTerm_core _ _ st hI
        · exact IH _ _ _ hI h (fun _ => rfl)
  | inputBody b =>
    simp only [execBody] at h
    split at h
    · cases hr1 : rec (Call.sendBval b) st with
      | none => rw [hr1] at h; exact absurd h (by simp)
      | some r1 =>
        rw [hr1, Option.some_bind] at h
        cases hr2 : rec (Call.sendAux b) r1.2 with
        | none => rw [hr2] at h; exact absurd h (by simp)
        | some r2 =>
          rw [hr2, Option.some_bind] at h
          injection h with h
          subst h
          have c1 := IH _ _ _ hI hr1 (fun _ => rfl)
          have c2 := IH _ _ _ (c1.inv hI) hr2 (fun _ => rfl)
          have c3 := decide_core b r2.2 (c2.inv (c1.inv hI))
          exact (c1.comp c2).comp c3
    · have hp : CoreSpec st Step.empty { st with estimated := some b } :=
        CoreSpec.pure rfl rfl rfl rfl (fun _ => rfl) (BinValues.isSubset_refl _)
          (fun _ x => x) (fun x => x) (fun x => x) (fun _ _ x => x)
      exact hp.comp_pure_left (IH _ _ _ (hp.inv hI) h (fun _ => rfl))
  | handleBval s b =>
    simp only [execBody] at h
    have hA : CoreSpec st Step.empty
        { st with receivedBval := insertBvalEntry s b st.receivedBval } :=
      CoreSpec.pure rfl rfl rfl rfl (fun x => x) (BinValues.isSubset_refl _)
        (fun _ x => x) (fun x => x) (fun x => x)
        (fun k bb hb => bvalMem_insertBvalEntry_mono s b hb)
    have hIA : Inv { st with receivedBval := insertBvalEntry s b st.receivedBval } := hI
    -- the first phase of the body, up to the amplification branch
    have main : ∀ r0, (if countBval (insertBvalEntry s b st.receivedBval) b =
          2 * st.netinfo.numFaulty + 1 then
          (if ({ st with receivedBval := insertBvalEntry s b st.receivedBval} :
                AgreementState).binValues = BinValues.none then
            rec (Call.sendAux b)
              { st with receivedBval := insertBvalEntry s b st.receivedBval
                        binValues := (st.binValues.insert b).1 }
          else some (Step.empty,
            { st with receivedBval := insertBvalEntry s b st.receivedBval
                      binValues := (st.binValues.insert b).1 })).bind (fun r1 =>
            (if (st.binValues.insert b).2 then rec Call.onBinValuesChanged r1.2
             else some (Step.empty, r1.2)).bind fun r2 =>
            some (r1.1.app r2.1, r2.2))
        else some (Step.empty,
          { st with receivedBval := insertBvalEntry s b st.receivedBval })) = some r0 →
        CoreSpec st r0.1 r0.2 := by
      intro r0 h0
      split at h0
      · have hB : CoreSpec st Step.empty
            { st with receivedBval := insertBvalEntry s b st.receivedBval
                      binValues := (st.binValues.insert b).1 } :=
          CoreSpec.pure rfl rfl rfl rfl (fun x => x) (BinValues.insert_subset _ _)
            (fun _ x => x) (fun x => x) (fun x => x)
            (fun k bb hb => bvalMem_insertBvalEntry_mono s b hb)
        have hIB : Inv { st with receivedBval := insertBvalEntry s b st.receivedBval
                                 binValues := (st.binValues.insert b).1 } := hI
        have step1 : ∀ r1, (if ({ st with
              receivedBval := insertBvalEntry s b st.receivedBval} :
                AgreementState).binValues = BinValues.none then
              rec (Call.sendAux b)
                { st with receivedBval := insertBvalEntry s b st.receivedBval
                          binValues := (st.binValues.insert b).1 }
            else some (Step.empty,
              { st with receivedBval := insertBvalEntry s b st.receivedBval
                        binValues := (st.binValues.insert b).1 })) = some r1 →
            CoreSpec st r1.1 r1.2 := by
          intro r1 h1
          split at h1
          · exact hB.comp_pure_left (IH _ _ _ hIB h1 (fun _ => rfl))
          · injection h1 with h1
            subst h1
            exact hB
        cases hr1 : (if ({ st with
              receivedBval := insertBvalEntry s b st.receivedBval} :
                AgreementState).binValues = BinValues.none then
              rec (Call.sendAux b)
                { st with receivedBval := insertBvalEntry s b st.receivedBval
                          binValues := (st.binValues.insert b).1 }
            else some (Step.empty,
              { st with receivedBval := insertBvalEntry s b st.receivedBval
                        binValues := (st.binValues.insert b).1 })) with
        | none => rw [hr1] at h0; exact absurd h0 (by simp)
        | some r1 =>
          rw [hr1, Option.some_bind] at h0
          have c1 := step1 r1 hr1
          cases hr2 : (if (st.binValues.insert b).2 then
              rec Call.onBinValuesChanged r1.2 else some (Step.empty, r1.2)) with
          | none => rw [hr2] at h0; exact absurd h0 (by simp)
          | some r2 =>
            rw [hr2, Option.some_bind] at h0
            injection h0 with h0
            subst h0
            have c2 : CoreSpec r1.2 r2.1 r2.2 := by
              revert hr2
              split
              · intro hr2
                exact IH _ _ _ (c1.inv hI) hr2 (fun _ => rfl)
              · intro hr2
                injection hr2 with hr2
                subst hr2
                exact CoreSpec.refl _
            exact c1.comp c2
      · injection h0 with h0
        subst h0
        exact hA
    cases hr : (if countBval (insertBvalEntry s b st.receivedBval) b =
          2 * st.netinfo.numFaulty + 1 then
          (if ({ st with receivedBval := insertBvalEntry s b st.receivedBval} :
                AgreementState).binValues = BinValues.none then
            rec (Call.sendAux b)
              { st with receivedBval := insertBvalEntry s b st.receivedBval
                        binValues := (st.binValues.insert b).1 }
          else some (Step.empty,
            { st with receivedBval := insertBvalEntry s b st.receivedBval
                      binValues := (st.binValues.insert b).1 })).bind (fun r1 =>
            (if (st.binValues.insert b).2 then rec Call.onBinValuesChanged r1.2
             else some (Step.empty, r1.2)).bind fun r2 =>
            some (r1.1.app r2.1, r2.2))
        else some (Step.empty,
          { st with receivedBval := insertBvalEntry s b st.receivedBval })) with
    | none => rw [hr] at h; exact absurd h (by simp)
    | some rm =>
      rw [hr, Option.some_bind] at h
      have cm := main rm hr
      split at h
      · cases hr3 : rec (Call.sendBval b) rm.2 with
        | none => rw [hr3] at h; exact absurd h (by simp)
        | some r3 =>
          rw [hr3, Option.map_some'] at h
          injection h with h
          subst h
          exact cm.comp (IH _ _ _ (cm.inv hI) hr3 (fun _ => rfl))
      · injection h with h
        subst h
        exact cm
  | onBinValuesChanged =>
    simp only [execBody] at h
    split at h
    · split at h
      · exact IH _ _ _ hI h (fun _ => rfl)
      · injection h with h
        subst h
        exact CoreSpec.refl st
    · split at h
      · exact IH _ _ _ hI h (fun _ => rfl)
      · injection h with h
        subst h
        exact CoreSpec.refl st
    · exact IH _ _ _ hI h (fun _ => rfl)
  | sendBval b =>
    simp only [execBody] at h
    split at h
    · injection h with h
      subst h
      exact CoreSpec.refl st
    · next hval =>
      have hv : st.netinfo.isValidator = true := by
        revert hval
        cases st.netinfo.isValidator <;> simp
      have hS : CoreSpec st Step.empty
          { st with sentBval := st.sentBval.union (BinValues.fromBool b) } :=
        CoreSpec.pure rfl rfl rfl rfl (fun x => x) (BinValues.isSubset_refl _)
          (fun c hc => BinValues.contains_of_subset (BinValues.isSubset_union_left _ _) hc)
          (fun x => x) (fun x => x) (fun _ _ x => x)
      cases hr1 : rec (Call.handleBval st.netinfo.ourUid b)
          { st with sentBval := st.sentBval.union (BinValues.fromBool b) } with
      | none => rw [hr1] at h; exact absurd h (by simp)
      | some r1 =>
        rw [hr1, Option.map_some'] at h
        injection h with h
        subst h
        exact hS.comp_pure_left ((CoreSpec.emit
          (fun hnv => by rw [hnv] at hv; exact absurd hv (by simp))).comp
          (IH _ _ _ hI hr1 (fun _ => rfl)))
  | sendConf =>
    simp only [execBody] at h
    split at h
    · injection h with h
      subst h
      exact CoreSpec.refl st
    · have hC : CoreSpec st Step.empty { st with confRound := true } :=
        CoreSpec.pure rfl rfl rfl rfl (fun x => x) (BinValues.isSubset_refl _)
          (fun _ x => x) (fun _ => rfl) (fun x => x) (fun _ _ x => x)
      split at h
      · injection h with h
        subst h
        exact hC
      · next hval =>
        have hv : st.netinfo.isValidator = true := by
          revert hval
          cases st.netinfo.isValidator <;> simp
        cases hr1 : rec (Call.handleConf st.netinfo.ourUid st.binValues)
            { st with confRound := true } with
        | none => rw [hr1] at h; exact absurd h (by simp)
        | some r1 =>
          rw [hr1, Option.map_some'] at h
          injection h with h
          subst h
          exact hC.comp_pure_left ((CoreSpec.emit
            (fun hnv => by rw [hnv] at hv; exact absurd hv (by simp))).comp
            (IH _ _ _ hI hr1 (fun _ => rfl)))
  | handleAux s b =>
    simp only [execBody] at h
    split at h
    · injection h with h
      subst h
      exact CoreSpec.refl st
    · have hA : CoreSpec st Step.empty
          { st with receivedAux := insertMap s b st.receivedAux } :=
        CoreSpec.pure rfl rfl rfl rfl (fun x => x) (BinValues.isSubset_refl _)
          (fun _ x => x) (fun x => x) (fun x => x) (fun _ _ x => x)
      split at h
      · injection h with h
        subst h
        exact hA
      · split at h
        · injection h with h
          subst h
          exact hA
        · split at h
          · exact hA.comp_pure_left (IH _ _ _ hI h (fun _ => rfl))
          · exact hA.comp_pure_left (IH _ _ _ hI h (fun _ => rfl))
          · exact hA.comp_pure_left (IH _ _ _ hI h (fun _ => rfl))
  | handleConf s v =>
    simp only [execBody] at h
    have hA : CoreSpec st Step.empty
        { st with receivedConf := insertMap s v st.receivedConf } :=
      CoreSpec.pure rfl rfl rfl rfl (fun x => x) (BinValues.isSubset_refl _)
        (fun _ x => x) (fun x => x) (fun x => x) (fun _ _ x => x)
    exact hA.comp_pure_left (IH _ _ _ hI h (fun _ => rfl))
  | handleCoin s =>
    simp only [execBody] at h
    have hC : CoreSpec st Step.empty
        { st with commonCoin := (coinHandleShare st.netinfo (cv st.epoch) s
            st.commonCoin).2 } :=
      CoreSpec.pure rfl rfl rfl rfl (fun x => x) (BinValues.isSubset_refl _)
        (fun _ x => x) (fun x => x)
        (fun x => by rw [coinHandleShare_hadInput]; exact x) (fun _ _ x => x)
    exact hC.comp_pure_left (IH _ _ _ hI
      h (fun _ => by simp [csOK, coinHandleShare_shares]))
  | onCoinStep cs =>
    simp only [execBody] at h
    have hw : st.netinfo.isValidator = false →
        (cs.shares.map fun _ =>
          (Target.all, AgreementMessage.mk st.epoch AgreementContent.coin)) = [] := by
      intro hnv
      have := hP hnv
      simp only [csOK, List.isEmpty_iff] at this
      rw [this]
      rfl
    split at h
    · injection h with h
      subst h
      exact CoreSpec.emit hw
    · cases hr1 : rec (Call.onCoin _ (countConf st).2.definite) st with
      | none => rw [hr1] at h; exact absurd h (by simp)
      | some r1 =>
        rw [hr1, Option.map_some'] at h
        injection h with h
        subst h
        exact (CoreSpec.emit hw).comp (IH _ _ _ hI hr1 (fun _ => rfl))
  | onCoin coin defB =>
    cases defB with
    | none =>
      simp only [execBody] at h
      split at h
      · injection h with h
        subst h
        exact CoreSpec.refl st
      · have hU : CoreSpec st Step.empty
            { updateEpoch st with estimated := some coin } :=
          (updateEpoch_core st).comp_pure_right
            (CoreSpec.pure rfl rfl rfl rfl (fun _ => rfl) (BinValues.isSubset_refl _)
              (fun _ x => x) (fun x => x) (fun x => x) (fun _ _ x => x))
        simp only [Option.bind_eq_some, Option.map_eq_some'] at h
        obtain ⟨r1, hr1, r2, hr2, heq⟩ := h
        subst heq
        have c1 := IH _ _ _ (hU.inv hI) hr1 (fun _ => rfl)
        have hQ : CoreSpec r1.2 Step.empty { r1.2 with incomingQueue := [] } :=
          CoreSpec.pure rfl rfl rfl rfl (fun x => x) (BinValues.isSubset_refl _)
            (fun _ x => x) (fun x => x) (fun x => x) (fun _ _ x => x)
        have c2 := IH _ _ _ (hQ.inv (c1.inv (hU.inv hI))) hr2 (fun _ => rfl)
        have A : CoreSpec st r1.1 r1.2 := hU.comp_pure_left c1
        have B : CoreSpec r1.2 r2.1 r2.2 := hQ.comp_pure_left c2
        have hAB := A.comp B
        show CoreSpec st ((Step.empty.app r1.1).app r2.1) r2.2
        rw [show Step.empty.app r1.1 = r1.1 from Step.empty_app r1.1]
        exact hAB
    | some bd =>
      simp only [execBody] at h
      split at h
      · injection h with h
        subst h
        exact CoreSpec.refl st
      · by_cases hdec : (st.decision.isNone && (bd == coin)) = true
        · simp only [hdec, if_true] at h
          have cD := decide_core bd st hI
          have hU : CoreSpec (Hbbft.decide bd st).2 Step.empty
              { updateEpoch (Hbbft.decide bd st).2 with estimated := some bd } :=
            (updateEpoch_core _).comp_pure_right
              (CoreSpec.pure rfl rfl rfl rfl (fun _ => rfl) (BinValues.isSubset_refl _)
                (fun _ x => x) (fun x => x) (fun x => x) (fun _ _ x => x))
          simp only [Option.bind_eq_some, Option.map_eq_some'] at h
          obtain ⟨r1, hr1, r2, hr2, heq⟩ := h
          subst heq
          have c1 := IH _ _ _ (hU.inv (cD.inv hI)) hr1 (fun _ => rfl)
          have hQ : CoreSpec r1.2 Step.empty { r1.2 with incomingQueue := [] } :=
            CoreSpec.pure rfl rfl rfl rfl (fun x => x) (BinValues.isSubset_refl _)
              (fun _ x => x) (fun x => x) (fun x => x) (fun _ _ x => x)
          have c2 := IH _ _ _ (hQ.inv (c1.inv (hU.inv (cD.inv hI)))) hr2 (fun _ => rfl)
          have A : CoreSpec (Hbbft.decide bd st).2 r1.1 r1.2 := hU.comp_pure_left c1
          have B : CoreSpec r1.2 r2.1 r2.2 := hQ.comp_pure_left c2
          exact (cD.comp A).comp B
        · simp only [hdec, if_false] at h
          have hU : CoreSpec st Step.empty
              { updateEpoch st with estimated := some bd } :=
            (updateEpoch_core st).comp_pure_right
              (CoreSpec.pure rfl rfl rfl rfl (fun _ => rfl) (BinValues.isSubset_refl _)
                (fun _ x => x) (fun x => x) (fun x => x) (fun _ _ x => x))
          simp only [Option.bind_eq_some, Option.map_eq_some'] at h
          obtain ⟨r1, hr1, r2, hr2, heq⟩ := h
          subst heq
          have c1 := IH _ _ _ (hU.inv hI) hr1 (fun _ => rfl)
          have hQ : CoreSpec r1.2 Step.empty { r1.2 with incomingQueue := [] } :=
            CoreSpec.pure rfl rfl rfl rfl (fun x => x) (BinValues.isSubset_refl _)
              (fun _ x => x) (fun x => x) (fun x => x) (fun _ _ x => x)
          have c2 := IH _ _ _ (hQ.inv (c1.inv (hU.inv hI))) hr2 (fun _ => rfl)
          have A : CoreSpec st r1.1 r1.2 := hU.comp_pure_left c1
          have B : CoreSpec r1.2 r2.1 r2.2 := hQ.comp_pure_left c2
          have hAB := A.comp B
          show CoreSpec st ((Step.empty.app r1.1).app r2.1) r2.2
          rw [show Step.empty.app r1.1 = r1.1 from Step.empty_app r1.1]
          exact hAB
  | tryFinishConfRound =>
    simp only [execBody] at h
    split at h
    · have hC : CoreSpec st Step.empty
          { st with commonCoin := (coinInput st.netinfo (cv st.epoch)
              st.commonCoin).2 } :=
        CoreSpec.pure rfl rfl rfl rfl (fun x => x) (BinValues.isSubset_refl _)
          (fun _ x => x) (fun x => x) (fun _ => coinInput_hadInput _ _ _)
          (fun _ _ x => x)
      exact hC.comp_pure_left (IH _ _ _ hI
        h (fun hnv => by simp [csOK, coinInput_shares_nonval hnv]))
    · injection h with h
      subst h
      exact CoreSpec.refl st
  | sendAux b =>
    simp only [execBody] at h
    split at h
    · injection h with h
      subst h
      exact CoreSpec.refl st
    · next hval =>
      have hv : st.netinfo.isValidator = true := by
        revert hval
        cases st.netinfo.isValidator <;> simp
      cases hr1 : rec (Call.handleAux st.netinfo.ourUid b) st with
      | none => rw [hr1] at h; exact absurd h (by simp)
      | some r1 =>
        rw [hr1, Option.map_some'] at h
        injection h with h
        subst h
        exact (CoreSpec.emit
          (fun hnv => by rw [hnv] at hv; exact absurd hv (by simp))).comp
          (IH _ _ _ hI hr1 (fun _ => rfl))
  | drain msgs =>
    cases msgs with
    | nil =>
      simp only [execBody] at h
      injection h with h
      subst h
      exact CoreSpec.refl st
    | cons p rest =>
      obtain ⟨s, m⟩ := p
      simp only [execBody] at h
      cases hr1 : rec (Call.handleMessage s m) st with
      | none => rw [hr1] at h; exact absurd h (by simp)
      | some r1 =>
        rw [hr1, Option.some_bind] at h
        have c1 := IH _ _ _ hI hr1 (fun _ => rfl)
        split at h
        · injection h with h
          subst h
          exact c1
        · cases hr2 : rec (Call.drain rest) r1.2 with
          | none => rw [hr2] at h; exact absurd h (by simp)
          | some r2 =>
            rw [hr2, Option.map_some'] at h
            injection h with h
            subst h
            exact c1.comp (IH _ _ _ (c1.inv hI) hr2 (fun _ => rfl))

/-- Every successful interpreter execution satisfies the core relation. -/
theorem exec_core (cv : Nat → Bool) :
    ∀ fuel c st r, Inv st → exec cv fuel c st = some r →
      (st.netinfo.isValidator = false → csOK c = true) → CoreSpec st r.1 r.2 := by
  intro fuel
  induction fuel with
  | zero =>
    intro c st r _ h _
    simp [exec] at h
  | succ f ih =>
    intro c st r hI h hP
    exact coreBody (exec cv f) cv (fun c st r hI h hP => ih c st r hI h hP)
      c st r hI h hP

theorem setInput_ok {cv : Nat → Bool} {fuel : Nat} {b : Bool} {st : AgreementState}
    {r : Step × AgreementState}
    (h : setInput cv fuel b st = some (Except.ok r)) :
    exec cv fuel (Call.inputBody b) st = some r := by
  unfold setInput at h
  split at h
  · exact absurd h (by simp)
  · obtain ⟨a, ha, he⟩ := Option.map_eq_some'.mp h
    injection he with he
    subst he
    exact ha

/-- A rejected `input` leaves everything unchanged: the guard fails before any
mutation. -/
theorem setInput_error {cv : Nat → Bool} {fuel : Nat} {b : Bool} {st : AgreementState}
    (h : st.epoch ≠ 0 ∨ st.estimated.isSome = true) :
    setInput cv fuel b st = some (Except.error AgrError.inputNotAccepted) := by
  unfold setInput
  rw [if_pos]
  rcases h with h | h
  · simp [h]
  · simp [h]

/-- Every successful run of host events satisfies the core relation. -/
theorem runExec_core (cv : Nat → Bool) (fuel : Nat) :
    ∀ es st r, Inv st → runExec cv fuel st es = some r → CoreSpec st r.1 r.2 := by
  intro es
  induction es with
  | nil =>
    intro st r hI h
    simp only [runExec] at h
    injection h with h
    subst h
    exact CoreSpec.refl st
  | cons e rest ih =>
    intro st r hI h
    simp only [runExec] at h
    simp only [Option.bind_eq_some, Option.map_eq_some'] at h
    obtain ⟨r1, hr1, r2, hr2, heq⟩ := h
    subst heq
    have c1 : CoreSpec st r1.1 r1.2 := by
      cases e with
      | input b =>
        dsimp only at hr1
        cases hs : setInput cv fuel b st with
        | none => rw [hs] at hr1; exact absurd hr1 (by simp)
        | some ex =>
          cases ex with
          | ok r' =>
            simp only [hs] at hr1
            injection hr1 with hr1
            subst hr1
            exact exec_core cv fuel _ _ _ hI (setInput_ok hs) (fun _ => rfl)
          | error err =>
            simp only [hs] at hr1
            injection hr1 with hr1
            subst hr1
            exact CoreSpec.refl st
      | deliver s m =>
        dsimp only at hr1
        exact exec_core cv fuel _ _ _ hI hr1 (fun _ => rfl)
    exact c1.comp (ih _ _ (c1.inv hI) hr2)

/-! ## Per-field frame conditions within an epoch -/

theorem exec_succ (cv : Nat → Bool) (fuel : Nat) (c : Call) (st : AgreementState) :
    exec cv (fuel + 1) c st = execBody (exec cv fuel) cv c st := rfl

theorem BinValues.contains_union_fromBool (v : BinValues) (b : Bool) :
    (v.union (BinValues.fromBool b)).contains b = true := by
  obtain ⟨p, q⟩ := v
  cases p <;> cases q <;> cases b <;> decide

theorem insertBvalEntry_idem (k : Nat) (b : Bool) (l : List (Nat × BinValues)) :
    insertBvalEntry k b (insertBvalEntry k b l) = insertBvalEntry k b l :=
  insertBvalEntry_of_mem (bvalMem_insertBvalEntry_self k b l)

/-- Which calls may modify `received_bval` without an epoch change. -/
def wBval : Call → Bool
  | Call.handleMessage _ _ => true
  | Call.inputBody _ => true
  | Call.handleBval _ _ => true
  | Call.sendBval _ => true
  | Call.drain _ => true
  | _ => false

/-- Which calls may modify `bin_values` without an epoch change. -/
def wBin : Call → Bool
  | Call.handleMessage _ _ => true
  | Call.inputBody _ => true
  | Call.handleBval _ _ => true
  | Call.sendBval _ => true
  | Call.drain _ => true
  | _ => false

/-- Which calls may modify `received_aux` without an epoch change. -/
def wAux : Call → Bool
  | Call.handleMessage _ _ => true
  | Call.inputBody _ => true
  | Call.handleBval _ _ => true
  | Call.sendBval _ => true
  | Call.drain _ => true
  | Call.sendAux _ => true
  | Call.handleAux _ _ => true
  | _ => false

/-- Which calls may modify `received_conf` without an epoch change. -/
def wConf : Call → Bool
  | Call.handleMessage _ _ => true
  | Call.inputBody _ => true
  | Call.handleBval _ _ => true
  | Call.sendBval _ => true
  | Call.drain _ => true
  | Call.sendAux _ => true
  | Call.handleAux _ _ => true
  | Call.sendConf => true
  | Call.handleConf _ _ => true
  | _ => false

/-- Which calls may modify `conf_round` without an epoch change. -/
def wConfR : Call → Bool
  | Call.handleMessage _ _ => true
  | Call.inputBody _ => true
  | Call.handleBval _ _ => true
  | Call.sendBval _ => true
  | Call.drain _ => true
  | Call.sendAux _ => true
  | Call.handleAux _ _ => true
  | Call.sendConf => true
  | _ => false

/-- Which calls may modify the embedded coin without an epoch change. -/
def wCoin : Call → Bool
  | Call.onCoinStep _ => false
  | Call.onCoin _ _ => false
  | _ => true

/-- The frame of a call that does not advance the epoch: fields it is not
marked as writing are untouched. -/
def FrameSpec (c : Call) (st st' : AgreementState) : Prop :=
  st'.epoch = st.epoch →
    ((wBval c = false → st'.receivedBval = st.receivedBval) ∧
     (wAux c = false → st'.receivedAux = st.receivedAux) ∧
     (wConf c = false → st'.receivedConf = st.receivedConf) ∧
     (wConfR c = false → st'.confRound = st.confRound) ∧
     (wBin c = false → st'.binValues = st.binValues) ∧
     (wCoin c = false → st'.commonCoin = st.commonCoin))

/-- Call-specific postconditions inside one epoch, feeding the replay
idempotence and first/last-write analyses. -/
def ExtraSpec (c : Call) (st st' : AgreementState) : Prop :=
  match c with
  | Call.handleBval s b =>
    st'.epoch = st.epoch →
      (bvalMem s b st'.receivedBval = true ∧
       (countBval st'.receivedBval b = 2 * st.netinfo.numFaulty + 1 →
         st'.binValues.contains b = true) ∧
       (st.netinfo.isValidator = true →
         countBval st'.receivedBval b = st.netinfo.numFaulty + 1 →
         st'.sentBval.contains b = true) ∧
       (st'.receivedBval = insertBvalEntry s b st.receivedBval ∨
        st'.receivedBval =
          insertBvalEntry st.netinfo.ourUid b (insertBvalEntry s b st.receivedBval)))
  | Call.sendBval b =>
    (st.netinfo.isValidator = false → st' = st) ∧
    (st'.epoch = st.epoch → st.netinfo.isValidator = true →
      (st'.sentBval.contains b = true ∧
       (countBval st'.receivedBval b = 2 * st.netinfo.numFaulty + 1 →
         st'.binValues.contains b = true) ∧
       st'.receivedBval = insertBvalEntry st.netinfo.ourUid b st.receivedBval))
  | Call.handleAux s b =>
    st'.epoch = st.epoch → st.confRound = false → lookupA s st'.receivedAux = some b
  | Call.handleConf s v =>
    st'.epoch = st.epoch → st'.receivedConf = insertMap s v st.receivedConf
  | Call.sendConf =>
    st'.epoch = st.epoch → st'.confRound = true
  | _ => True

theorem FrameSpec.ofWrites {c : Call} {st st' : AgreementState}
    (h1 : wBval c = true) (h2 : wAux c = true) (h3 : wConf c = true)
    (h4 : wConfR c = true) (h5 : wBin c = true) (h6 : wCoin c = true) :
    FrameSpec c st st' := by
  intro _
  refine ⟨?_, ?_, ?_, ?_, ?_, ?_⟩ <;> intro hw
  · rw [h1] at hw; exact Bool.noConfusion hw
  · rw [h2] at hw; exact Bool.noConfusion hw
  · rw [h3] at hw; exact Bool.noConfusion hw
  · rw [h4] at hw; exact Bool.noConfusion hw
  · rw [h5] at hw; exact Bool.noConfusion hw
  · rw [h6] at hw; exact Bool.noConfusion hw

theorem FrameSpec.ofEq {c : Call} {st st' : AgreementState} (h : st' = st) :
    FrameSpec c st st' := by
  subst h
  intro _
  exact ⟨fun _ => rfl, fun _ => rfl, fun _ => rfl, fun _ => rfl, fun _ => rfl, fun _ => rfl⟩

theorem Inv.queueClear {st : AgreementState} (h : Inv st) :
    Inv { st with incomingQueue := [] } := h

theorem decide_epoch (b : Bool) (st : AgreementState) :
    (Hbbft.decide b st).2.epoch = st.epoch := by
  unfold Hbbft.decide
  split
  · rfl
  · split <;> rfl

/-- `on_coin` on a non-terminated state advances the epoch by at least one. -/
theorem onCoin_advance {cv : Nat → Bool} {fuel : Nat} {coin : Bool}
    {defB : Option Bool} {st : AgreementState} {r : Step × AgreementState}
    (hI : Inv st) (ht : st.terminated = false)
    (h : exec cv (fuel + 1) (Call.onCoin coin defB) st = some r) :
    st.epoch + 1 ≤ r.2.epoch := by
  rw [exec_succ] at h
  simp only [execBody] at h
  rw [if_neg (by simp [ht])] at h
  cases defB with
  | none =>
    simp only [Option.bind_eq_some, Option.map_eq_some'] at h
    obtain ⟨r1, hr1, r2, hr2, heq⟩ := h
    subst heq
    have hIU : Inv { updateEpoch st with estimated := some coin } := hI
    have c1 := exec_core cv fuel _ _ _ hIU hr1 (fun _ => rfl)
    have c2 := exec_core cv fuel _ _ _ (Inv.queueClear (c1.inv hIU)) hr2 (fun _ => rfl)
    have e1 : st.epoch + 1 ≤ r1.2.epoch := c1.epoch_le
    have e2 : r1.2.epoch ≤ r2.2.epoch := c2.epoch_le
    show st.epoch + 1 ≤ r2.2.epoch
    omega
  | some bd =>
    by_cases hdec : (st.decision.isNone && (bd == coin)) = true
    · simp only [hdec, if_true] at h
      simp only [Option.bind_eq_some, Option.map_eq_some'] at h
      obtain ⟨r1, hr1, r2, hr2, heq⟩ := h
      subst heq
      have hID : Inv (Hbbft.decide bd st).2 := (decide_core bd st hI).inv hI
      have hIU : Inv { updateEpoch (Hbbft.decide bd st).2 with estimated := some bd } :=
        hID
      have c1 := exec_core cv fuel _ _ _ hIU hr1 (fun _ => rfl)
      have c2 := exec_core cv fuel _ _ _ (Inv.queueClear (c1.inv hIU)) hr2 (fun _ => rfl)
      have e1 : (Hbbft.decide bd st).2.epoch + 1 ≤ r1.2.epoch := c1.epoch_le
      rw [decide_epoch] at e1
      have e2 : r1.2.epoch ≤ r2.2.epoch := c2.epoch_le
      show st.epoch + 1 ≤ r2.2.epoch
      omega
    · simp only [hdec, if_false] at h
      simp only [Option.bind_eq_some, Option.map_eq_some'] at h
      obtain ⟨r1, hr1, r2, hr2, heq⟩ := h
      subst heq
      have hIU : Inv { updateEpoch st with estimated := some bd } := hI
      have c1 := exec_core cv fuel _ _ _ hIU hr1 (fun _ => rfl)
      have c2 := exec_core cv fuel _ _ _ (Inv.queueClear (c1.inv hIU)) hr2 (fun _ => rfl)
      have e1 : st.epoch + 1 ≤ r1.2.epoch := c1.epoch_le
      have e2 : r1.2.epoch ≤ r2.2.epoch := c2.epoch_le
      show st.epoch + 1 ≤ r2.2.epoch
      omega

/-- Every successful interpreter execution satisfies the per-field frame and
the call-specific extra postconditions. -/
theorem exec_frame (cv : Nat → Bool) :
    ∀ fuel c st r, Inv st → exec cv fuel c st = some r →
      FrameSpec c st r.2 ∧ ExtraSpec c st r.2 := by
  intro fuel
  induction fuel with
  | zero =>
    intro c st r _ h
    simp [exec] at h
  | succ fuel ih =>
    intro c st r hI h
    have horig := h
    rw [exec_succ] at h
    cases c with
    | handleMessage s m =>
      exact ⟨FrameSpec.ofWrites rfl rfl rfl rfl rfl rfl, trivial⟩
    | inputBody b =>
      exact ⟨FrameSpec.ofWrites rfl rfl rfl rfl rfl rfl, trivial⟩
    | drain msgs =>
      exact ⟨FrameSpec.ofWrites rfl rfl rfl rfl rfl rfl, trivial⟩
    | onBinValuesChanged =>
      simp only [execBody] at h
      have sub : ∀ c', (∀ st₁ r₁, exec cv fuel c' st₁ = some r₁ → Inv st₁ →
          FrameSpec c' st₁ r₁.2) := fun c' st₁ r₁ h₁ hI₁ => (ih c' st₁ r₁ hI₁ h₁).1
      split at h
      · split at h
        · obtain ⟨fsub, _⟩ := ih _ _ _ hI h
          refine ⟨fun hSE => ?_, trivial⟩
          obtain ⟨f1, f2, f3, f4, f5, f6⟩ := fsub hSE
          exact ⟨fun _ => f1 rfl, fun _ => f2 rfl, fun _ => f3 rfl, fun _ => f4 rfl,
            fun _ => f5 rfl, fun hw => Bool.noConfusion hw⟩
        · injection h with h
          subst h
          exact ⟨FrameSpec.ofEq rfl, trivial⟩
      · split at h
        · obtain ⟨fsub, _⟩ := ih _ _ _ hI h
          refine ⟨fun hSE => ?_, trivial⟩
          obtain ⟨f1, f2, f3, f4, f5, f6⟩ := fsub hSE
          exact ⟨fun _ => f1 rfl, fun _ => f2 rfl, fun _ => f3 rfl, fun _ => f4 rfl,
            fun _ => f5 rfl, fun hw => Bool.noConfusion hw⟩
        · injection h with h
          subst h
          exact ⟨FrameSpec.ofEq rfl, trivial⟩
      · obtain ⟨fsub, _⟩ := ih _ _ _ hI h
        refine ⟨fun hSE => ?_, trivial⟩
        obtain ⟨f1, f2, f3, f4, f5, f6⟩ := fsub hSE
        exact ⟨fun _ => f1 rfl, fun _ => f2 rfl, fun _ => f3 rfl, fun _ => f4 rfl,
          fun _ => f5 rfl, fun hw => Bool.noConfusion hw⟩
    | sendConf =>
      simp only [execBody] at h
      split at h
      · next hcr =>
        injection h with h
        subst h
        exact ⟨FrameSpec.ofEq rfl, fun _ => hcr⟩
      · split at h
        · injection h with h
          subst h
          refine ⟨fun _ => ?_, fun _ => rfl⟩
          exact ⟨fun _ => rfl, fun _ => rfl, fun hw => Bool.noConfusion hw,
            fun hw => Bool.noConfusion hw, fun _ => rfl, fun hw => Bool.noConfusion hw⟩
        · obtain ⟨r1, hr1, heq⟩ := Option.map_eq_some'.mp h
          subst heq
          have hIC : Inv { st with confRound := true } := hI
          obtain ⟨fsub, _⟩ := ih _ _ _ hIC hr1
          constructor
          · intro hSE
            obtain ⟨f1, f2, f3, f4, f5, f6⟩ := fsub hSE
            exact ⟨fun _ => f1 rfl, fun _ => f2 rfl, fun hw => Bool.noConfusion hw,
              fun hw => Bool.noConfusion hw, fun _ => f5 rfl,
              fun hw => Bool.noConfusion hw⟩
          · intro hSE
            obtain ⟨f1, f2, f3, f4, f5, f6⟩ := fsub hSE
            exact f4 rfl
    | handleAux s b =>
      simp only [execBody] at h
      split at h
      · next hcr =>
        injection h with h
        subst h
        refine ⟨FrameSpec.ofEq rfl, fun _ hcf => absurd hcr (by simp [hcf])⟩
      · next hcr =>
        split at h
        · injection h with h
          subst h
          refine ⟨fun _ => ⟨fun _ => rfl, fun hw => Bool.noConfusion hw,
            fun hw => Bool.noConfusion hw, fun hw => Bool.noConfusion hw,
            fun _ => rfl, fun hw => Bool.noConfusion hw⟩, ?_⟩
          intro _ _
          exact lookupA_insertMap_self s b st.receivedAux
        · split at h
          · injection h with h
            subst h
            refine ⟨fun _ => ⟨fun _ => rfl, fun hw => Bool.noConfusion hw,
              fun hw => Bool.noConfusion hw, fun hw => Bool.noConfusion hw,
              fun _ => rfl, fun hw => Bool.noConfusion hw⟩, ?_⟩
            intro _ _
            exact lookupA_insertMap_self s b st.receivedAux
          · have hIA : Inv { st with receivedAux := insertMap s b st.receivedAux } := hI
            have step : ∀ c',
                exec cv fuel c' { st with
                  receivedAux := insertMap s b st.receivedAux } = some r →
                wAux c' = false → wBval c' = false → wBin c' = false →
                FrameSpec (Call.handleAux s b) st r.2 ∧
                  ExtraSpec (Call.handleAux s b) st r.2 := by
              intro c' hsub hwa hwb hwbin
              obtain ⟨fsub, _⟩ := ih _ _ _ hIA hsub
              constructor
              · intro hSE
                obtain ⟨f1, f2, f3, f4, f5, f6⟩ := fsub hSE
                exact ⟨fun _ => f1 hwb, fun hw => Bool.noConfusion hw,
                  fun hw => Bool.noConfusion hw, fun hw => Bool.noConfusion hw,
                  fun _ => f5 hwbin, fun hw => Bool.noConfusion hw⟩
              · intro hSE _
                obtain ⟨f1, f2, f3, f4, f5, f6⟩ := fsub hSE
                rw [f2 hwa]
                exact lookupA_insertMap_self s b st.receivedAux
            split at h
            · exact step _ h rfl rfl rfl
            · exact step _ h rfl rfl rfl
            · exact step _ h rfl rfl rfl
    | handleConf s v =>
      simp only [execBody] at h
      have hIA : Inv { st with receivedConf := insertMap s v st.receivedConf } := hI
      obtain ⟨fsub, _⟩ := ih _ _ _ hIA h
      constructor
      · intro hSE
        obtain ⟨f1, f2, f3, f4, f5, f6⟩ := fsub hSE
        exact ⟨fun _ => f1 rfl, fun _ => f2 rfl, fun hw => Bool.noConfusion hw,
          fun _ => f4 rfl, fun _ => f5 rfl, fun hw => Bool.noConfusion hw⟩
      · intro hSE
        obtain ⟨f1, f2, f3, f4, f5, f6⟩ := fsub hSE
        exact f3 rfl
    | handleCoin s =>
      simp only [execBody] at h
      have hIC : Inv { st with commonCoin := (coinHandleShare st.netinfo (cv st.epoch)
          s st.commonCoin).2 } := hI
      obtain ⟨fsub, _⟩ := ih _ _ _ hIC h
      refine ⟨fun hSE => ?_, trivial⟩
      obtain ⟨f1, f2, f3, f4, f5, f6⟩ := fsub hSE
      exact ⟨fun _ => f1 rfl, fun _ => f2 rfl, fun _ => f3 rfl, fun _ => f4 rfl,
        fun _ => f5 rfl, fun hw => Bool.noConfusion hw⟩
    | onCoinStep cs =>
      simp only [execBody] at h
      split at h
      · injection h with h
        subst h
        exact ⟨FrameSpec.ofEq rfl, trivial⟩
      · obtain ⟨r1, hr1, heq⟩ := Option.map_eq_some'.mp h
        subst heq
        obtain ⟨fsub, _⟩ := ih _ _ _ hI hr1
        refine ⟨fun hSE => ?_, trivial⟩
        obtain ⟨f1, f2, f3, f4, f5, f6⟩ := fsub hSE
        exact ⟨fun _ => f1 rfl, fun _ => f2 rfl, fun _ => f3 rfl, fun _ => f4 rfl,
          fun _ => f5 rfl, fun _ => f6 rfl⟩
    | onCoin coin defB =>
      simp only [execBody] at h
      split at h
      · injection h with h
        subst h
        exact ⟨FrameSpec.ofEq rfl, trivial⟩
      · next hterm =>
        have ht : st.terminated = false := by
          revert hterm
          cases st.terminated <;> simp
        have hadv : st.epoch + 1 ≤ r.2.epoch :=
          onCoin_advance hI ht horig
        refine ⟨fun hSE => absurd hSE (by omega), trivial⟩
    | tryFinishConfRound =>
      simp only [execBody] at h
      split at h
      · have hIC : Inv { st with commonCoin := (coinInput st.netinfo (cv st.epoch)
            st.commonCoin).2 } := hI
        obtain ⟨fsub, _⟩ := ih _ _ _ hIC h
        refine ⟨fun hSE => ?_, trivial⟩
        obtain ⟨f1, f2, f3, f4, f5, f6⟩ := fsub hSE
        exact ⟨fun _ => f1 rfl, fun _ => f2 rfl, fun _ => f3 rfl, fun _ => f4 rfl,
          fun _ => f5 rfl, fun hw => Bool.noConfusion hw⟩
      · injection h with h
        subst h
        exact ⟨FrameSpec.ofEq rfl, trivial⟩
    | sendAux b =>
      simp only [execBody] at h
      split at h
      · injection h with h
        subst h
        exact ⟨FrameSpec.ofEq rfl, trivial⟩
      · obtain ⟨r1, hr1, heq⟩ := Option.map_eq_some'.mp h
        subst heq
        obtain ⟨fsub, _⟩ := ih _ _ _ hI hr1
        refine ⟨fun hSE => ?_, trivial⟩
        obtain ⟨f1, f2, f3, f4, f5, f6⟩ := fsub hSE
        exact ⟨fun _ => f1 rfl, fun hw => Bool.noConfusion hw,
          fun hw => Bool.noConfusion hw, fun hw => Bool.noConfusion hw,
          fun _ => f5 rfl, fun hw => Bool.noConfusion hw⟩
    | sendBval b =>
      simp only [execBody] at h
      split at h
      · next hnv =>
        injection h with h
        subst h
        have hnv' : st.netinfo.isValidator = false := by
          revert hnv
          cases st.netinfo.isValidator <;> simp
        refine ⟨FrameSpec.ofWrites rfl rfl rfl rfl rfl rfl, ?_, ?_⟩
        · intro _
          rfl
        · intro _ hval
          rw [hval] at hnv'
          exact Bool.noConfusion hnv'
      · next hval =>
        have hv : st.netinfo.isValidator = true := by
          revert hval
          cases st.netinfo.isValidator <;> simp
        obtain ⟨r1, hr1, heq⟩ := Option.map_eq_some'.mp h
        subst heq
        have hIS : Inv { st with
            sentBval := st.sentBval.union (BinValues.fromBool b) } := hI
        obtain ⟨_, esub⟩ := ih _ _ _ hIS hr1
        have csub := exec_core cv fuel _ _ _ hIS hr1 (fun _ => rfl)
        refine ⟨FrameSpec.ofWrites rfl rfl rfl rfl rfl rfl, ?_, ?_⟩
        · intro hnv
          rw [hnv] at hv
          exact Bool.noConfusion hv
        · intro hSE _
          obtain ⟨eA, eB, eC, eD⟩ := esub hSE
          refine ⟨?_, ?_, ?_⟩
          · exact csub.se_sent hSE b (BinValues.contains_union_fromBool st.sentBval b)
          · exact eB
          · rcases eD with eD | eD
            · exact eD
            · rw [eD]
              exact insertBvalEntry_idem _ _ _
    | handleBval s b =>
      simp only [execBody] at h
      refine ⟨FrameSpec.ofWrites rfl rfl rfl rfl rfl rfl, ?_⟩
      have hIA : Inv { st with receivedBval := insertBvalEntry s b st.receivedBval } := hI
      -- facts established by the first phase (thresholds and `bin_values`)
      have main : ∀ r0 : Step × AgreementState,
          (if countBval (insertBvalEntry s b st.receivedBval) b =
              2 * st.netinfo.numFaulty + 1 then
            (if ({ st with receivedBval := insertBvalEntry s b st.receivedBval} :
                  AgreementState).binValues = BinValues.none then
              exec cv fuel (Call.sendAux b)
                { st with receivedBval := insertBvalEntry s b st.receivedBval
                          binValues := (st.binValues.insert b).1 }
            else some (Step.empty,
              { st with receivedBval := insertBvalEntry s b st.receivedBval
                        binValues := (st.binValues.insert b).1 })).bind (fun r1 =>
              (if (st.binValues.insert b).2 then
                exec cv fuel Call.onBinValuesChanged r1.2
               else some (Step.empty, r1.2)).bind fun r2 =>
              some (r1.1.app r2.1, r2.2))
          else some (Step.empty,
            { st with receivedBval := insertBvalEntry s b st.receivedBval })) =
            some r0 →
          st.epoch ≤ r0.2.epoch ∧ r0.2.netinfo = st.netinfo ∧ Inv r0.2 ∧
          (r0.2.epoch = st.epoch →
            (r0.2.receivedBval = insertBvalEntry s b st.receivedBval ∧
             (countBval (insertBvalEntry s b st.receivedBval) b =
                2 * st.netinfo.numFaulty + 1 → r0.2.binValues.contains b = true))) := by
        intro r0 h0
        split at h0
        · next hcnt =>
          have hIB : Inv { st with receivedBval := insertBvalEntry s b st.receivedBval
                                   binValues := (st.binValues.insert b).1 } := hI
          have afterB : ∀ r1 : Step × AgreementState,
              (if ({ st with receivedBval := insertBvalEntry s b st.receivedBval} :
                    AgreementState).binValues = BinValues.none then
                exec cv fuel (Call.sendAux b)
                  { st with receivedBval := insertBvalEntry s b st.receivedBval
                            binValues := (st.binValues.insert b).1 }
              else some (Step.empty,
                { st with receivedBval := insertBvalEntry s b st.receivedBval
                          binValues := (st.binValues.insert b).1 })) = some r1 →
              (st.epoch ≤ r1.2.epoch ∧ r1.2.netinfo = st.netinfo ∧ Inv r1.2) ∧
              (r1.2.epoch = st.epoch →
                (r1.2.receivedBval = insertBvalEntry s b st.receivedBval ∧
                 r1.2.binValues = (st.binValues.insert b).1)) := by
            intro r1 h1
            split at h1
            · obtain ⟨fsub, _⟩ := ih _ _ _ hIB h1
              have csub := exec_core cv fuel _ _ _ hIB h1 (fun _ => rfl)
              refine ⟨⟨csub.epoch_le, csub.netinfo_eq, csub.inv hIB⟩, fun hSE => ?_⟩
              obtain ⟨f1, f2, f3, f4, f5, f6⟩ := fsub hSE
              exact ⟨f1 rfl, f5 rfl⟩
            · injection h1 with h1
              subst h1
              exact ⟨⟨Nat.le_refl _, rfl, hI⟩, fun _ => ⟨rfl, rfl⟩⟩
          simp only [Option.bind_eq_some] at h0
          obtain ⟨r1, hr1, r2, hr2, heq⟩ := h0
          injection heq with heq
          subst heq
          obtain ⟨⟨e1, n1, i1⟩, p1⟩ := afterB r1 hr1
          have after2 : st.epoch ≤ r2.2.epoch ∧ r2.2.netinfo = st.netinfo ∧ Inv r2.2 ∧
              (r2.2.epoch = st.epoch →
                (r2.2.receivedBval = insertBvalEntry s b st.receivedBval ∧
                 r2.2.binValues.contains b = true)) := by
            revert hr2
            split
            · intro hr2
              obtain ⟨fsub, _⟩ := ih _ _ _ i1 hr2
              have csub := exec_core cv fuel _ _ _ i1 hr2 (fun _ => rfl)
              refine ⟨Nat.le_trans e1 csub.epoch_le, csub.netinfo_eq.trans n1,
                csub.inv i1, fun hSE => ?_⟩
              have hSE1 : r1.2.epoch = st.epoch := by
                have := csub.epoch_le
                omega
              have hSE2 : r2.2.epoch = r1.2.epoch := by omega
              obtain ⟨f1, f2, f3, f4, f5, f6⟩ := fsub hSE2
              obtain ⟨q1, q2⟩ := p1 hSE1
              refine ⟨?_, ?_⟩
              · rw [f1 rfl, q1]
              · rw [f5 rfl, q2]
                exact BinValues.insert_contains_self _ _
            · intro hr2
              injection hr2 with hr2
              subst hr2
              refine ⟨e1, n1, i1, fun hSE => ?_⟩
              obtain ⟨q1, q2⟩ := p1 hSE
              refine ⟨q1, ?_⟩
              rw [q2]
              exact BinValues.insert_contains_self _ _
          exact ⟨after2.1, after2.2.1, after2.2.2.1,
            fun hSE => ⟨(after2.2.2.2 hSE).1, fun _ => (after2.2.2.2 hSE).2⟩⟩
        · next hcnt =>
          injection h0 with h0
          subst h0
          exact ⟨Nat.le_refl _, rfl, hI, fun _ => ⟨rfl, fun hc => absurd hc hcnt⟩⟩
      cases hr : (if countBval (insertBvalEntry s b st.receivedBval) b =
              2 * st.netinfo.numFaulty + 1 then
            (if ({ st with receivedBval := insertBvalEntry s b st.receivedBval} :
                  AgreementState).binValues = BinValues.none then
              exec cv fuel (Call.sendAux b)
                { st with receivedBval := insertBvalEntry s b st.receivedBval
                          binValues := (st.binValues.insert b).1 }
            else some (Step.empty,
              { st with receivedBval := insertBvalEntry s b st.receivedBval
                        binValues := (st.binValues.insert b).1 })).bind (fun r1 =>
              (if (st.binValues.insert b).2 then
                exec cv fuel Call.onBinValuesChanged r1.2
               else some (Step.empty, r1.2)).bind fun r2 =>
              some (r1.1.app r2.1, r2.2))
          else some (Step.empty,
            { st with receivedBval := insertBvalEntry s b st.receivedBval })) with
      | none =>
        rw [hr] at h
        exact absurd h (by simp)
      | some rm =>
        rw [hr, Option.some_bind] at h
        obtain ⟨hm0, hnet, hIm, hm1⟩ := main rm hr
        split at h
        · next hg =>
          obtain ⟨hgf, hgs⟩ : countBval (insertBvalEntry s b st.receivedBval) b =
              st.netinfo.numFaulty + 1 ∧ rm.2.sentBval.contains b = false := by
            revert hg
            cases hb : rm.2.sentBval.contains b <;> simp [hb]
          obtain ⟨r3, hr3, heq3⟩ := Option.map_eq_some'.mp h
          subst heq3
          obtain ⟨_, esub⟩ := ih _ _ _ hIm hr3
          have csub := exec_core cv fuel _ _ _ hIm hr3 (fun _ => rfl)
          show ExtraSpec (Call.handleBval s b) st r3.2
          intro hSE
          have hSE2 : r3.2.epoch = st.epoch := hSE
          have hle : rm.2.epoch ≤ r3.2.epoch := csub.epoch_le
          have hSEm : rm.2.epoch = st.epoch := by omega
          have hSEs : r3.2.epoch = rm.2.epoch := by omega
          obtain ⟨q1, q2⟩ := hm1 hSEm
          obtain ⟨eNonval, eVal⟩ := esub
          by_cases hval : st.netinfo.isValidator = true
          · have hvalm : rm.2.netinfo.isValidator = true := by rw [hnet]; exact hval
            obtain ⟨hsent, hB2, hrbeq⟩ := eVal hSEs hvalm
            rw [hnet] at hrbeq hB2
            refine ⟨?_, ?_, ?_, ?_⟩
            · rw [hrbeq, q1]
              exact bvalMem_insertBvalEntry_mono _ b
                (bvalMem_insertBvalEntry_self s b st.receivedBval)
            · intro hc
              exact hB2 hc
            · intro _ _
              exact hsent
            · refine Or.inr ?_
              rw [hrbeq, q1]
          · have hvf : st.netinfo.isValidator = false := by
              revert hval
              cases st.netinfo.isValidator <;> simp
            have hvfm : rm.2.netinfo.isValidator = false := by rw [hnet]; exact hvf
            have hid : r3.2 = rm.2 := by rw [eNonval hvfm]
            refine ⟨?_, ?_, ?_, ?_⟩
            · rw [hid, q1]
              exact bvalMem_insertBvalEntry_self s b st.receivedBval
            · intro hc
              rw [hid, q1] at hc
              rw [hid]
              exact q2 hc
            · intro hvv
              rw [hvv] at hvf
              exact absurd hvf (by simp)
            · refine Or.inl ?_
              rw [hid, q1]
        · next hg =>
          injection h with h
          subst h
          intro hSE
          obtain ⟨q1, q2⟩ := hm1 hSE
          have himp : countBval (insertBvalEntry s b st.receivedBval) b =
              st.netinfo.numFaulty + 1 → rm.2.sentBval.contains b = true := by
            intro hc
            revert hg
            cases hb : rm.2.sentBval.contains b <;> simp [hb, hc]
          refine ⟨?_, ?_, ?_, ?_⟩
          · rw [q1]
            exact bvalMem_insertBvalEntry_self s b st.receivedBval
          · intro hc
            rw [q1] at hc
            exact q2 hc
          · intro _ hc
            rw [q1] at hc
            exact himp hc
          · exact Or.inl q1

/-! ## Reachability and concrete fixtures -/

/-- States reachable through the host-facing API (`new`, `input`,
`handle_message`). -/
inductive Reachable (cv : Nat → Bool) : AgreementState → Prop where
  | init (ni : NetworkInfo) : Reachable cv (initState ni)
  | input (fuel : Nat) (b : Bool) (st : AgreementState) (r : Step × AgreementState) :
      Reachable cv st → setInput cv fuel b st = some (Except.ok r) → Reachable cv r.2
  | deliver (fuel s : Nat) (m : AgreementMessage) (st : AgreementState)
      (r : Step × AgreementState) : Reachable cv st →
      exec cv fuel (Call.handleMessage s m) st = some r → Reachable cv r.2

theorem Inv_init (ni : NetworkInfo) : Inv (initState ni) := fun h => Bool.noConfusion h

theorem Reachable.holdsInv {cv : Nat → Bool} {st : AgreementState} (h : Reachable cv st) :
    Inv st := by
  induction h with
  | init ni => exact Inv_init ni
  | input fuel b st r _ hs ih =>
    exact (exec_core cv fuel _ _ _ ih (setInput_ok hs) (fun _ => rfl)).inv ih
  | deliver fuel s m st r _ hs ih =>
    exact (exec_core cv fuel _ _ _ ih hs (fun _ => rfl)).inv ih

/-- A coin-outcome oracle for concrete runs. -/
def cvT : Nat → Bool := fun _ => true

/-- A 4-node network, 1 faulty, local node a validator. -/
def ni4v : NetworkInfo := ⟨4, 1, true, 0⟩

/-- A 4-node network, observed by a non-validator. -/
def ni4nv : NetworkInfo := ⟨4, 1, false, 9⟩

/-- A single-node network, the node being the only validator. -/
def ni1v : NetworkInfo := ⟨1, 0, true, 0⟩

/-- A single-node network observed by a non-validator. -/
def ni1nv : NetworkInfo := ⟨1, 0, false, 9⟩

/-- Run a list of host events from a fresh instance, with a default on fuel
exhaustion (used only to state concrete scenarios). -/
def runFrom (cv : Nat → Bool) (fuel : Nat) (ni : NetworkInfo) (es : List Event) :
    Step × AgreementState :=
  (runExec cv fuel (initState ni) es).getD (Step.empty, initState ni)

/-- Whether `input` returned `Ok`. -/
def isOkInput (r : Option (Except AgrError (Step × AgreementState))) : Bool :=
  match r with
  | some (Except.ok _) => true
  | _ => false

/-- The state produced by an `Ok` result of `input`, with a default. -/
def okStateOf (r : Option (Except AgrError (Step × AgreementState)))
    (d : AgreementState) : AgreementState :=
  match r with
  | some (Except.ok p) => p.2
  | _ => d

/-- Whether `input` returned `Ok` while emitting messages or mutating the
state. -/
def inputProcessed (r : Option (Except AgrError (Step × AgreementState)))
    (st : AgreementState) : Bool :=
  match r with
  | some (Except.ok p) => !p.1.messages.isEmpty && !(Decidable.decide (p.2 = st))
  | _ => false

/-! ## Claim C10 -/

/-- C10: at most one output ever — across the entire lifetime of an
`Agreement` instance, the concatenation of the output queues of all `Step`s
returned by `input` and `handle_message` contains at most one boolean. -/
theorem c10_at_most_one_output (cv : Nat → Bool) (fuel : Nat) (ni : NetworkInfo)
    (es : List Event) (r : Step × AgreementState)
    (h : runExec cv fuel (initState ni) es = some r) :
    r.1.output.length ≤ 1 :=
  (runExec_core cv fuel es (initState ni) r (Inv_init ni) h).out_len

theorem c10_at_most_one_output_witness :
    runExec cvT 20 (initState ni1v) [Event.input true] =
      some (runFrom cvT 20 ni1v [Event.input true]) ∧
    (runFrom cvT 20 ni1v [Event.input true]).1.output.length ≤ 1 :=
  ⟨rfl, c10_at_most_one_output cvT 20 ni1v [Event.input true] _ rfl⟩

/-! ## Claim C2 -/

/-- C2 (amended): once `terminated` is set, `handle_message` returns an empty
step and leaves the state unchanged; `input` fails with `InputNotAccepted`
(mutating nothing) whenever the acceptance guard `epoch = 0 ∧ estimated =
None` no longer holds — but it is not silently dropped in general: when
termination was reached at epoch 0 before any input (expedite termination),
a subsequent `input` is still accepted and processed (see the
counterexample). -/
theorem c2_termination_latch :
    (∀ (cv : Nat → Bool) (fuel s : Nat) (m : AgreementMessage) (st : AgreementState),
      st.terminated = true →
      exec cv (fuel + 1) (Call.handleMessage s m) st = some (Step.empty, st)) ∧
    (∀ (cv : Nat → Bool) (fuel : Nat) (b : Bool) (st : AgreementState),
      st.terminated = true → st.epoch ≠ 0 ∨ st.estimated.isSome = true →
      setInput cv fuel b st = some (Except.error AgrError.inputNotAccepted)) := by
  constructor
  · intro cv fuel s m st ht
    rw [exec_succ]
    simp only [execBody]
    rw [if_pos (by simp [ht])]
  · intro cv fuel b st _ hguard
    exact setInput_error hguard

theorem c2_termination_latch_witness :
    ({ initState ni4v with terminated := true } : AgreementState).terminated = true ∧
    exec cvT 4 (Call.handleMessage 3 ⟨0, AgreementContent.aux true⟩)
      { initState ni4v with terminated := true } =
      some (Step.empty, { initState ni4v with terminated := true }) ∧
    setInput cvT 4 true { initState ni4v with terminated := true, estimated := some true } =
      some (Except.error AgrError.inputNotAccepted) :=
  ⟨rfl,
   c2_termination_latch.1 cvT 3 3 ⟨0, AgreementContent.aux true⟩ _ (by decide),
   c2_termination_latch.2 cvT 4 true _ (by decide) (Or.inr (by decide))⟩

/-- C2, counterexample to the claim as stated: a node that expedite-terminates
at epoch 0 before any input (two `Term(true)` from distinct peers with `f =
1`) has `terminated = true`, yet a subsequent `input` is accepted: it returns
`Ok`, emits messages and changes the state — it is not silently dropped. -/
theorem c2_input_after_expedite_counterexample :
    (runFrom cvT 12 ni4v [Event.deliver 1 ⟨0, AgreementContent.term true⟩,
      Event.deliver 2 ⟨0, AgreementContent.term true⟩]).2.terminated = true ∧
    inputProcessed
      (setInput cvT 12 true
        (runFrom cvT 12 ni4v [Event.deliver 1 ⟨0, AgreementContent.term true⟩,
          Event.deliver 2 ⟨0, AgreementContent.term true⟩]).2)
      (runFrom cvT 12 ni4v [Event.deliver 1 ⟨0, AgreementContent.term true⟩,
        Event.deliver 2 ⟨0, AgreementContent.term true⟩]).2 = true := by
  constructor
  · rfl
  · rfl

/-! ## Claim C7 -/

/-- C7 (amended): for a non-validator, `send_bval` and `send_aux` emit no
messages and leave the entire state unchanged; `send_conf`, however, sets
`conf_round` to `true` before the validator check, so it emits nothing but
does modify the state when `conf_round` was `false`. -/
theorem c7_nonvalidator_sends :
    (∀ (cv : Nat → Bool) (fuel : Nat) (b : Bool) (st : AgreementState),
      st.netinfo.isValidator = false →
      exec cv (fuel + 1) (Call.sendBval b) st = some (Step.empty, st)) ∧
    (∀ (cv : Nat → Bool) (fuel : Nat) (b : Bool) (st : AgreementState),
      st.netinfo.isValidator = false →
      exec cv (fuel + 1) (Call.sendAux b) st = some (Step.empty, st)) ∧
    (∀ (cv : Nat → Bool) (fuel : Nat) (st : AgreementState),
      st.netinfo.isValidator = false →
      exec cv (fuel + 1) Call.sendConf st =
        some (Step.empty, if st.confRound then st else { st with confRound := true })) := by
  refine ⟨?_, ?_, ?_⟩
  · intro cv fuel b st hnv
    rw [exec_succ]
    simp only [execBody]
    rw [if_pos (by simp [hnv])]
  · intro cv fuel b st hnv
    rw [exec_succ]
    simp only [execBody]
    rw [if_pos (by simp [hnv])]
  · intro cv fuel st hnv
    rw [exec_succ]
    simp only [execBody]
    by_cases hc : st.confRound = true
    · rw [if_pos hc, if_pos hc]
    · rw [if_neg hc, if_neg hc, if_pos (by simp [hnv])]

theorem c7_nonvalidator_sends_witness :
    exec cvT 3 (Call.sendBval true) (initState ni4nv) =
      some (Step.empty, initState ni4nv) ∧
    exec cvT 3 (Call.sendAux true) (initState ni4nv) =
      some (Step.empty, initState ni4nv) ∧
    exec cvT 3 Call.sendConf (initState ni4nv) =
      some (Step.empty, if (initState ni4nv).confRound then initState ni4nv
        else { initState ni4nv with confRound := true }) :=
  ⟨c7_nonvalidator_sends.1 cvT 2 true _ (by decide),
   c7_nonvalidator_sends.2.1 cvT 2 true _ (by decide),
   c7_nonvalidator_sends.2.2 cvT 2 _ (by decide)⟩

/-! ## Claim C3 -/

theorem lookupA_insertMap_outer {α : Type} (u s : Nat) (b : α) (l : List (Nat × α)) :
    lookupA s (insertMap u b (insertMap s b l)) = some b := by
  by_cases h : s = u
  · subst h
    rw [lookupA_insertMap_self]
  · rw [lookupA_insertMap_ne h, lookupA_insertMap_self]

/-- C3 (amended): within an epoch, the *last* write wins, not the first:
while the `Aux` phase is open (`conf_round = false`), `handle_aux` stores the
received value over any previous one, so `received_aux[peer]` is the latest
accepted `Aux` value; once `conf_round` is set, further `Aux` messages are
ignored entirely. `handle_conf` likewise overwrites, so `received_conf[peer]`
is the latest received `Conf` value of the epoch. -/
theorem c3_last_write_wins :
    (∀ (cv : Nat → Bool) (fuel s : Nat) (b : Bool) (st : AgreementState)
        (r : Step × AgreementState), Inv st → st.confRound = false →
      exec cv fuel (Call.handleAux s b) st = some r → r.2.epoch = st.epoch →
      lookupA s r.2.receivedAux = some b) ∧
    (∀ (cv : Nat → Bool) (fuel s : Nat) (b : Bool) (st : AgreementState),
      st.confRound = true →
      exec cv (fuel + 1) (Call.handleAux s b) st = some (Step.empty, st)) ∧
    (∀ (cv : Nat → Bool) (fuel s : Nat) (v : BinValues) (st : AgreementState)
        (r : Step × AgreementState), Inv st →
      exec cv fuel (Call.handleConf s v) st = some r → r.2.epoch = st.epoch →
      r.2.receivedConf = insertMap s v st.receivedConf) := by
  refine ⟨?_, ?_, ?_⟩
  · intro cv fuel s b st r hI hcf h hep
    exact (exec_frame cv fuel _ st r hI h).2 hep hcf
  · intro cv fuel s b st hcf
    rw [exec_succ]
    simp only [execBody]
    rw [if_pos hcf]
  · intro cv fuel s v st r hI h hep
    exact (exec_frame cv fuel _ st r hI h).2 hep

theorem c3_last_write_wins_witness :
    lookupA 1 (((exec cvT 6 (Call.handleAux 1 false) (initState ni4v)).getD
      (Step.empty, initState ni4v)).2.receivedAux) = some false ∧
    exec cvT 6 (Call.handleAux 2 true)
      { initState ni4v with confRound := true } =
      some (Step.empty, { initState ni4v with confRound := true }) ∧
    ((exec cvT 6 (Call.handleConf 1 (BinValues.fromBool true))
      (initState ni4v)).getD (Step.empty, initState ni4v)).2.receivedConf =
      insertMap 1 (BinValues.fromBool true) (initState ni4v).receivedConf :=
  ⟨c3_last_write_wins.1 cvT 6 1 false (initState ni4v) _ (Inv_init ni4v)
      (by decide) rfl (by decide),
   c3_last_write_wins.2.1 cvT 5 2 true _ (by decide),
   c3_last_write_wins.2.2 cvT 6 1 (BinValues.fromBool true) (initState ni4v) _
      (Inv_init ni4v) rfl (by decide)⟩

/-- C3, counterexample to the claim as stated: with `f = 1` and an open `Aux`
phase, peer 1 first sends `Aux(false)` and then `Aux(true)` in the same
epoch; the second message *overwrites* the stored value — `received_aux[1]`
ends as `true`, not the first-received `false`. -/
theorem c3_first_write_counterexample :
    lookupA 1 ((runFrom cvT 9 ni4v
      [Event.deliver 1 ⟨0, AgreementContent.aux false⟩]).2.receivedAux) =
        some false ∧
    lookupA 1 ((runFrom cvT 9 ni4v
      [Event.deliver 1 ⟨0, AgreementContent.aux false⟩,
       Event.deliver 1 ⟨0, AgreementContent.aux true⟩]).2.receivedAux) =
        some true := by
  constructor
  · rfl
  · rfl

/-! ## Claim C4 -/

/-- C4: expedite termination — `handle_message` on a current-epoch `Term(b)`
from a non-terminated node records `received_term[sender] = b`; if no
decision was latched yet and strictly more than `num_faulty` recorded peers
hold `b`, the node decides `b`: it outputs `b`, latches the decision, sets
`terminated`, and—when a validator—broadcasts `Term(b)` and records its own
`Term`; no common coin interaction is involved. Otherwise only the record is
updated. -/
theorem c4_expedite_termination (cv : Nat → Bool) (fuel s : Nat) (b : Bool)
    (st : AgreementState) (r : Step × AgreementState)
    (ht : st.terminated = false)
    (h : exec cv (fuel + 1)
      (Call.handleMessage s ⟨st.epoch, AgreementContent.term b⟩) st = some r) :
    lookupA s r.2.receivedTerm = some b ∧
    (st.decision = Option.none →
      st.netinfo.numFaulty < countTerm (insertMap s b st.receivedTerm) b →
      (r.1.output = [b] ∧ r.2.decision = some b ∧ r.2.terminated = true ∧
       (st.netinfo.isValidator = true →
         (Target.all, (⟨st.epoch, AgreementContent.term b⟩ : AgreementMessage)) ∈
           r.1.messages ∧
         lookupA st.netinfo.ourUid r.2.receivedTerm = some b))) ∧
    (st.decision ≠ Option.none ∨
        countTerm (insertMap s b st.receivedTerm) b ≤ st.netinfo.numFaulty →
      r = (Step.empty, { st with receivedTerm := insertMap s b st.receivedTerm })) := by
  rw [exec_succ] at h
  simp only [execBody] at h
  rw [if_neg (by simp [ht]), if_neg (by simp)] at h
  injection h with h
  subst h
  simp only [handleTerm]
  by_cases hcond : (({ st with receivedTerm := insertMap s b st.receivedTerm} :
      AgreementState).decision.isNone &&
      Decidable.decide (st.netinfo.numFaulty <
        countTerm (insertMap s b st.receivedTerm) b)) = true
  · rw [if_pos hcond]
    obtain ⟨hdec, hcnt⟩ : st.decision.isNone = true ∧
        st.netinfo.numFaulty < countTerm (insertMap s b st.receivedTerm) b := by
      simpa [Bool.and_eq_true, decide_eq_true_eq] using hcond
    simp only [Hbbft.decide]
    rw [if_neg (by simp [ht])]
    by_cases hv : st.netinfo.isValidator = true
    · rw [if_pos hv]
      refine ⟨lookupA_insertMap_outer _ _ _ _, ?_, ?_⟩
      · intro _ _
        exact ⟨rfl, rfl, rfl, fun _ => ⟨List.mem_cons_self _ _,
          lookupA_insertMap_self _ _ _⟩⟩
      · intro hcontra
        rcases hcontra with hc | hc
        · exact absurd (Option.isNone_iff_eq_none.mp hdec) hc
        · omega
    · rw [if_neg hv]
      refine ⟨lookupA_insertMap_self _ _ _, ?_, ?_⟩
      · intro _ _
        refine ⟨rfl, rfl, rfl, fun hvv => absurd hvv hv⟩
      · intro hcontra
        rcases hcontra with hc | hc
        · exact absurd (Option.isNone_iff_eq_none.mp hdec) hc
        · omega
  · rw [if_neg hcond]
    refine ⟨lookupA_insertMap_self _ _ _, ?_, fun _ => rfl⟩
    intro hdec hcnt
    exact absurd (by simp [Bool.and_eq_true, decide_eq_true_eq, hdec, hcnt,
      Option.isNone_iff_eq_none]) hcond

theorem c4_expedite_termination_witness :
    ((runFrom cvT 9 ni4v [Event.deliver 1 ⟨0, AgreementContent.term true⟩]).2.decision =
      Option.none) ∧
    (((exec cvT 9 (Call.handleMessage 2 ⟨0, AgreementContent.term true⟩)
        (runFrom cvT 9 ni4v
          [Event.deliver 1 ⟨0, AgreementContent.term true⟩]).2).getD
        (Step.empty, initState ni4v)).1.output = [true] ∧
      ((exec cvT 9 (Call.handleMessage 2 ⟨0, AgreementContent.term true⟩)
        (runFrom cvT 9 ni4v
          [Event.deliver 1 ⟨0, AgreementContent.term true⟩]).2).getD
        (Step.empty, initState ni4v)).2.decision = some true ∧
      ((exec cvT 9 (Call.handleMessage 2 ⟨0, AgreementContent.term true⟩)
        (runFrom cvT 9 ni4v
          [Event.deliver 1 ⟨0, AgreementContent.term true⟩]).2).getD
        (Step.empty, initState ni4v)).2.terminated = true) := by
  refine ⟨by decide, ?_⟩
  have h := c4_expedite_termination cvT 8 2 true
    (runFrom cvT 9 ni4v [Event.deliver 1 ⟨0, AgreementContent.term true⟩]).2
    ((exec cvT 9 (Call.handleMessage 2 ⟨0, AgreementContent.term true⟩)
      (runFrom cvT 9 ni4v
        [Event.deliver 1 ⟨0, AgreementContent.term true⟩]).2).getD
      (Step.empty, initState ni4v))
    (by decide) rfl
  obtain ⟨h1, h2, h3⟩ := h
  obtain ⟨o1, o2, o3, _⟩ := h2 (by decide) (by decide)
  exact ⟨o1, o2, o3⟩

/-! ## Claim C6 -/

/-- C6 (amended): `input(b)` returns `Ok` exactly when `accepts_input()`
holds (`epoch = 0 ∧ estimated = None`) and fails with `InputNotAccepted`
otherwise; after a successful input, a second input fails with
`InputNotAccepted` whenever `N ≥ 2` (the first input latched `estimated`).
With `N = 1` this can fail to hold: the short-circuit path never sets
`estimated`, and e.g. a non-validator neither advances the epoch, so a second
input is accepted again (see the counterexample). -/
theorem c6_input_acceptance :
    (∀ (cv : Nat → Bool) (fuel : Nat) (b : Bool) (st : AgreementState),
      acceptsInput st = true →
      setInput cv fuel b st = (exec cv fuel (Call.inputBody b) st).map Except.ok) ∧
    (∀ (cv : Nat → Bool) (fuel : Nat) (b : Bool) (st : AgreementState),
      acceptsInput st = false →
      setInput cv fuel b st = some (Except.error AgrError.inputNotAccepted)) ∧
    (∀ (cv : Nat → Bool) (f1 f2 : Nat) (b b' : Bool) (st : AgreementState)
        (r : Step × AgreementState), Inv st → 2 ≤ st.netinfo.numNodes →
      setInput cv f1 b st = some (Except.ok r) →
      setInput cv f2 b' r.2 = some (Except.error AgrError.inputNotAccepted)) := by
  refine ⟨?_, ?_, ?_⟩
  · intro cv fuel b st ha
    obtain ⟨h0, h1⟩ : st.epoch = 0 ∧ st.estimated.isNone = true := by
      simpa [acceptsInput, Bool.and_eq_true, decide_eq_true_eq] using ha
    unfold setInput
    rw [if_neg]
    simp [h0, Option.isNone_iff_eq_none.mp h1]
  · intro cv fuel b st ha
    have hg : (Decidable.decide (st.epoch ≠ 0) || st.estimated.isSome) = true := by
      by_cases h0 : st.epoch = 0
      · simp only [acceptsInput] at ha
        rw [h0] at ha
        simp only [decide_eq_true_eq] at ha
        simp at ha
        cases hs : st.estimated with
        | none => rw [hs] at ha; simp at ha
        | some v => simp [hs]
      · simp [h0]
    unfold setInput
    rw [if_pos hg]
  · intro cv f1 f2 b b' st r hI hN h1
    have hbody := setInput_ok h1
    cases f1 with
    | zero => simp [exec] at hbody
    | succ f =>
      rw [exec_succ] at hbody
      simp only [execBody] at hbody
      rw [if_neg (by omega)] at hbody
      have hc := exec_core cv f _ _ _
        (show Inv { st with estimated := some b } from hI) hbody (fun _ => rfl)
      have hest : r.2.estimated.isSome = true := hc.est_mono rfl
      exact setInput_error (Or.inr hest)

theorem c6_input_acceptance_witness :
    setInput cvT 20 true (initState ni4v) =
      (exec cvT 20 (Call.inputBody true) (initState ni4v)).map Except.ok ∧
    setInput cvT 20 true { initState ni4v with estimated := some true } =
      some (Except.error AgrError.inputNotAccepted) ∧
    setInput cvT 20 false
      (okStateOf (setInput cvT 20 true (initState ni4v)) (initState ni4v)) =
      some (Except.error AgrError.inputNotAccepted) := by
  refine ⟨c6_input_acceptance.1 cvT 20 true _ (by decide),
    c6_input_acceptance.2.1 cvT 20 true _ (by decide), ?_⟩
  exact c6_input_acceptance.2.2 cvT 20 20 true false (initState ni4v)
    ((setInput cvT 20 true (initState ni4v)).getD
      (Except.error AgrError.inputNotAccepted) |>.toOption.getD
      (Step.empty, initState ni4v))
    (Inv_init ni4v) (by decide) rfl

/-- C6, counterexample to the claim as stated: with `N = 1` and a
non-validator node, the first `input(true)` is accepted (and terminates the
instance), yet `estimated` remains `None` and the epoch remains 0 — so a
*second* call to `input` is accepted again instead of failing with
`InputNotAccepted`. -/
theorem c6_second_input_counterexample :
    isOkInput (setInput cvT 9 true (initState ni1nv)) = true ∧
    isOkInput (setInput cvT 9 true
      (okStateOf (setInput cvT 9 true (initState ni1nv)) (initState ni1nv))) = true := by
  constructor
  · rfl
  · rfl

/-! ## Claim C8 -/

theorem decide_netinfo (b : Bool) (st : AgreementState) :
    (Hbbft.decide b st).2.netinfo = st.netinfo := by
  unfold Hbbft.decide
  split
  · rfl
  · split <;> rfl

/-- A validator's `send_bval` emits the `BVal` broadcast tagged with the
current epoch. -/
theorem sendBval_emits {cv : Nat → Bool} {fuel : Nat} {b : Bool}
    {st : AgreementState} {r : Step × AgreementState} (e : Nat)
    (hv : st.netinfo.isValidator = true) (he : st.epoch = e)
    (h : exec cv fuel (Call.sendBval b) st = some r) :
    (Target.all, (⟨e, AgreementContent.bval b⟩ : AgreementMessage)) ∈ r.1.messages := by
  subst he
  cases fuel with
  | zero => simp [exec] at h
  | succ f =>
    rw [exec_succ] at h
    simp only [execBody] at h
    rw [if_neg (by simp [hv])] at h
    obtain ⟨r1, hr1, heq⟩ := Option.map_eq_some'.mp h
    subst heq
    simp only [Step.messages_app, List.mem_append]
    exact Or.inl (List.mem_singleton.mpr rfl)

/-- C8: epoch-transition reset and frame — `update_epoch` empties every
per-epoch buffer (`bin_values`, `received_bval`, `sent_bval`, `received_aux`,
`received_conf`, `conf_round`) and increments the epoch by exactly 1, leaving
`received_term` and `decision` unchanged; a non-terminated `on_coin` advances
the epoch and only then seeds the new estimate via `send_bval` (witnessed by
the `BVal` broadcast tagged with the incremented epoch); the epoch starts at
0 and is non-decreasing over any run of host events. -/
theorem c8_epoch_transition :
    (∀ st : AgreementState,
      (updateEpoch st).binValues = BinValues.none ∧
      (updateEpoch st).receivedBval = [] ∧
      (updateEpoch st).sentBval = BinValues.none ∧
      (updateEpoch st).receivedAux = [] ∧
      (updateEpoch st).receivedConf = [] ∧
      (updateEpoch st).confRound = false ∧
      (updateEpoch st).epoch = st.epoch + 1 ∧
      (updateEpoch st).receivedTerm = st.receivedTerm ∧
      (updateEpoch st).decision = st.decision) ∧
    (∀ (cv : Nat → Bool) (fuel : Nat) (coin : Bool) (defB : Option Bool)
        (st : AgreementState) (r : Step × AgreementState), Inv st →
      st.terminated = false →
      exec cv (fuel + 1) (Call.onCoin coin defB) st = some r →
      st.epoch + 1 ≤ r.2.epoch ∧
      (st.netinfo.isValidator = true →
        (Target.all, (⟨st.epoch + 1, AgreementContent.bval (defB.getD coin)⟩ :
          AgreementMessage)) ∈ r.1.messages)) ∧
    (∀ ni : NetworkInfo, (initState ni).epoch = 0) ∧
    (∀ (cv : Nat → Bool) (fuel : Nat) (es : List Event) (st : AgreementState)
        (r : Step × AgreementState), Inv st → runExec cv fuel st es = some r →
      st.epoch ≤ r.2.epoch) := by
  refine ⟨?_, ?_, fun _ => rfl, ?_⟩
  · intro st
    exact ⟨rfl, rfl, rfl, rfl, rfl, rfl, rfl, rfl, rfl⟩
  · intro cv fuel coin defB st r hI ht h
    refine ⟨onCoin_advance hI ht h, ?_⟩
    intro hv
    rw [exec_succ] at h
    simp only [execBody] at h
    rw [if_neg (by simp [ht])] at h
    cases defB with
    | none =>
      simp only [Option.bind_eq_some, Option.map_eq_some'] at h
      obtain ⟨r1, hr1, r2, hr2, heq⟩ := h
      subst heq
      have hm := sendBval_emits (st.epoch + 1) (by exact hv) rfl hr1
      simp only [Step.messages_app, List.mem_append]
      exact Or.inl (Or.inr hm)
    | some bd =>
      by_cases hdec : (st.decision.isNone && (bd == coin)) = true
      · simp only [hdec, if_true] at h
        simp only [Option.bind_eq_some, Option.map_eq_some'] at h
        obtain ⟨r1, hr1, r2, hr2, heq⟩ := h
        subst heq
        have hvD : ({ updateEpoch (Hbbft.decide bd st).2 with
            estimated := some bd } : AgreementState).netinfo.isValidator = true := by
          show (Hbbft.decide bd st).2.netinfo.isValidator = true
          rw [decide_netinfo]
          exact hv
        have heD : ({ updateEpoch (Hbbft.decide bd st).2 with
            estimated := some bd } : AgreementState).epoch = st.epoch + 1 := by
          show (Hbbft.decide bd st).2.epoch + 1 = st.epoch + 1
          rw [decide_epoch]
        have hm := sendBval_emits (st.epoch + 1) hvD heD hr1
        simp only [Step.messages_app, List.mem_append]
        exact Or.inl (Or.inr hm)
      · simp only [hdec, if_false] at h
        simp only [Option.bind_eq_some, Option.map_eq_some'] at h
        obtain ⟨r1, hr1, r2, hr2, heq⟩ := h
        subst heq
        have hm := sendBval_emits (st.epoch + 1) (by exact hv) rfl hr1
        simp only [Step.messages_app, List.mem_append]
        exact Or.inl (Or.inr hm)
  · intro cv fuel es st r hI h
    exact (runExec_core cv fuel es st r hI h).epoch_le

theorem c8_epoch_transition_witness :
    (updateEpoch (initState ni4v)).epoch = 1 ∧
    ((exec cvT 9 (Call.onCoin true (some true)) (initState ni4v)).getD
        (Step.empty, initState ni4v)).2.epoch ≥ 1 ∧
    (Target.all, (⟨1, AgreementContent.bval true⟩ : AgreementMessage)) ∈
      ((exec cvT 9 (Call.onCoin true (some true)) (initState ni4v)).getD
        (Step.empty, initState ni4v)).1.messages ∧
    (initState ni4v).epoch ≤
      (runFrom cvT 20 ni4v [Event.input true]).2.epoch := by
  have h2 := (c8_epoch_transition.2.1) cvT 8 true (some true) (initState ni4v)
    ((exec cvT 9 (Call.onCoin true (some true)) (initState ni4v)).getD
      (Step.empty, initState ni4v)) (Inv_init ni4v) (by decide) rfl
  have h4 := (c8_epoch_transition.2.2.2) cvT 20 [Event.input true] (initState ni4v)
    (runFrom cvT 20 ni4v [Event.input true]) (Inv_init ni4v) rfl
  exact ⟨((c8_epoch_transition.1 (initState ni4v)).2.2.2.2.2.2.1 : _),
    h2.1, h2.2 (by decide), h4⟩

/-! ## Claim C1 -/

/-- On reachable states the terminated flag comes with a latched decision. -/
theorem Reachable.term_dec {cv : Nat → Bool} {st : AgreementState}
    (h : Reachable cv st) : st.terminated = true → st.decision.isSome = true := by
  induction h with
  | init ni => intro ht; exact Bool.noConfusion ht
  | input fuel b st r hst hs ih =>
    intro ht
    have hc := exec_core cv fuel _ _ _ hst.holdsInv (setInput_ok hs) (fun _ => rfl)
    rcases hc.term_dec ht with h' | h'
    · rcases Option.isSome_iff_exists.mp (ih h') with ⟨v, hv⟩
      rw [hc.dec_latch v hv]
      rfl
    · exact h'
  | deliver fuel s m st r hst hs ih =>
    intro ht
    have hc := exec_core cv fuel _ _ _ hst.holdsInv hs (fun _ => rfl)
    rcases hc.term_dec ht with h' | h'
    · rcases Option.isSome_iff_exists.mp (ih h') with ⟨v, hv⟩
      rw [hc.dec_latch v hv]
      rfl
    · exact h'

/-- C1: the decision latch is permanent — on every reachable state,
`terminated` implies a latched decision; a latched `decision = some v`
survives every `handle_message`, every `input` and every run of host events;
across every internal call, the only way `decision` or `terminated` change is
the `decide` shape (decision becomes `Some` and `terminated` is set in the
same call); and `decide` itself, on a non-terminated state, latches
`decision = some b` and sets `terminated` immediately. -/
theorem c1_decision_latch :
    (∀ (cv : Nat → Bool) (st : AgreementState), Reachable cv st →
      st.terminated = true → st.decision.isSome = true) ∧
    (∀ (cv : Nat → Bool) (fuel s : Nat) (m : AgreementMessage) (st : AgreementState)
        (r : Step × AgreementState) (v : Bool), Reachable cv st →
      exec cv fuel (Call.handleMessage s m) st = some r →
      st.decision = some v → r.2.decision = some v) ∧
    (∀ (cv : Nat → Bool) (fuel : Nat) (b : Bool) (st : AgreementState)
        (r : Step × AgreementState) (v : Bool), Reachable cv st →
      setInput cv fuel b st = some (Except.ok r) →
      st.decision = some v → r.2.decision = some v) ∧
    (∀ (cv : Nat → Bool) (fuel : Nat) (es : List Event) (st : AgreementState)
        (r : Step × AgreementState) (v : Bool), Inv st →
      runExec cv fuel st es = some r →
      st.decision = some v → r.2.decision = some v) ∧
    (∀ (cv : Nat → Bool) (fuel : Nat) (c : Call) (st : AgreementState)
        (r : Step × AgreementState), Inv st →
      (st.netinfo.isValidator = false → csOK c = true) →
      exec cv fuel c st = some r →
      (r.2.decision ≠ st.decision →
        r.2.decision.isSome = true ∧ r.2.terminated = true) ∧
      (r.2.terminated = true → st.terminated = true ∨ r.2.decision.isSome = true)) ∧
    (∀ (b : Bool) (st : AgreementState), st.terminated = false →
      (Hbbft.decide b st).2.decision = some b ∧
      (Hbbft.decide b st).2.terminated = true) := by
  refine ⟨?_, ?_, ?_, ?_, ?_, ?_⟩
  · intro cv st hr ht
    exact hr.term_dec ht
  · intro cv fuel s m st r v hr h hd
    exact (exec_core cv fuel _ _ _ hr.holdsInv h (fun _ => rfl)).dec_latch v hd
  · intro cv fuel b st r v hr h hd
    exact (exec_core cv fuel _ _ _ hr.holdsInv (setInput_ok h) (fun _ => rfl)).dec_latch v hd
  · intro cv fuel es st r v hI h hd
    exact (runExec_core cv fuel es st r hI h).dec_latch v hd
  · intro cv fuel c st r hI hP h
    have hc := exec_core cv fuel c st r hI h hP
    constructor
    · intro hne
      have hsome : r.2.decision.isSome = true := by
        cases hd : st.decision with
        | none =>
          cases hd' : r.2.decision with
          | none => rw [hd, hd'] at hne; exact absurd rfl hne
          | some v => rfl
        | some v => rw [hc.dec_latch v hd]; rfl
      refine ⟨hsome, ?_⟩
      rcases hc.dec_term hsome with h' | h'
      · exfalso
        rcases Option.isSome_iff_exists.mp h' with ⟨v, hv⟩
        rw [hv, hc.dec_latch v hv] at hne
        exact hne rfl
      · exact h'
    · exact hc.term_dec
  · intro b st ht
    unfold Hbbft.decide
    rw [if_neg (by simp [ht])]
    split <;> exact ⟨rfl, rfl⟩

theorem c1_decision_latch_witness :
    ((runFrom cvT 12 ni4v [Event.deliver 1 ⟨0, AgreementContent.term true⟩,
        Event.deliver 2 ⟨0, AgreementContent.term true⟩]).2.terminated = true →
      (runFrom cvT 12 ni4v [Event.deliver 1 ⟨0, AgreementContent.term true⟩,
        Event.deliver 2 ⟨0, AgreementContent.term true⟩]).2.decision.isSome = true) ∧
    (Hbbft.decide true (initState ni4v)).2.decision = some true ∧
    (Hbbft.decide true (initState ni4v)).2.terminated = true := by
  refine ⟨?_, ?_, ?_⟩
  · intro ht
    refine c1_decision_latch.1 cvT
      (runFrom cvT 12 ni4v [Event.deliver 1 ⟨0, AgreementContent.term true⟩,
        Event.deliver 2 ⟨0, AgreementContent.term true⟩]).2 ?_ ht
    have h1 : Reachable cvT
        ((exec cvT 12 (Call.handleMessage 1 ⟨0, AgreementContent.term true⟩)
          (initState ni4v)).getD (Step.empty, initState ni4v)).2 :=
      Reachable.deliver 12 1 ⟨0, AgreementContent.term true⟩ (initState ni4v) _
        (Reachable.init ni4v) rfl
    have h2 : Reachable cvT
        ((exec cvT 12 (Call.handleMessage 2 ⟨0, AgreementContent.term true⟩)
          ((exec cvT 12 (Call.handleMessage 1 ⟨0, AgreementContent.term true⟩)
            (initState ni4v)).getD (Step.empty, initState ni4v)).2).getD
          (Step.empty, initState ni4v)).2 :=
      Reachable.deliver 12 2 ⟨0, AgreementContent.term true⟩ _ _ h1 rfl
    exact h2
  · exact (c1_decision_latch.2.2.2.2.2 true (initState ni4v) (by decide)).1
  · exact (c1_decision_latch.2.2.2.2.2 true (initState ni4v) (by decide)).2

/-! ## Claim C5: single-shot send accounting -/

/-- Extra `BVal(b)` emission allowance of a call: `send_bval` (and the
`set_input` body, which invokes it unconditionally) may re-emit a `BVal`
already recorded in `sent_bval`. -/
def slackB (c : Call) (st : AgreementState) (e : Nat) (b : Bool) : Nat :=
  match c with
  | Call.sendBval b0 =>
    if e = st.epoch ∧ b = b0 ∧ st.sentBval.contains b0 = true then 1 else 0
  | Call.inputBody b0 =>
    if e = st.epoch ∧ b = b0 ∧ st.sentBval.contains b0 = true then 1 else 0
  | _ => 0

/-- Extra `Aux` emission allowance of a call: `send_aux` emits
unconditionally (its callers justify it by the `∅ → non-empty` transition of
`bin_values`), and the `N = 1` input path calls it a second time. -/
def slackA (c : Call) (st : AgreementState) (e : Nat) : Nat :=
  match c with
  | Call.sendAux _ => if e = st.epoch then 1 else 0
  | Call.inputBody _ => if st.netinfo.numNodes = 1 then 1 else 0
  | _ => 0

/-- The emission-budget relation of a call on a validator: messages of each
kind emitted by the step are covered by the growth of the corresponding
budget plus the call's slack. -/
def CntSpec (c : Call) (st : AgreementState) (step : Step)
    (st' : AgreementState) : Prop :=
  st.netinfo.isValidator = true →
    ((∀ e b, cntB step.messages e b + phiB st e b ≤ phiB st' e b + slackB c st e b) ∧
     (∀ e, cntA step.messages e + phiA st e ≤ phiA st' e + slackA c st e) ∧
     (∀ e, cntC step.messages e + phiC st e ≤ phiC st' e))

theorem cntB_append (l1 l2 : List (Target × AgreementMessage)) (e : Nat) (b : Bool) :
    cntB (l1 ++ l2) e b = cntB l1 e b + cntB l2 e b := by
  simp [cntB, List.filter_append]

theorem cntA_append (l1 l2 : List (Target × AgreementMessage)) (e : Nat) :
    cntA (l1 ++ l2) e = cntA l1 e + cntA l2 e := by
  simp [cntA, List.filter_append]

theorem cntC_append (l1 l2 : List (Target × AgreementMessage)) (e : Nat) :
    cntC (l1 ++ l2) e = cntC l1 e + cntC l2 e := by
  simp [cntC, List.filter_append]

theorem phiB_le_one (st : AgreementState) (e : Nat) (b : Bool) : phiB st e b ≤ 1 := by
  unfold phiB
  split_ifs <;> omega

theorem phiA_le_one (st : AgreementState) (e : Nat) : phiA st e ≤ 1 := by
  unfold phiA
  split_ifs <;> omega

theorem phiC_le_one (st : AgreementState) (e : Nat) : phiC st e ≤ 1 := by
  unfold phiC
  split_ifs <;> omega

theorem phiB_updateEpoch (st : AgreementState) (e : Nat) (b : Bool) :
    phiB st e b ≤ phiB (updateEpoch st) e b := by
  have h1 : (updateEpoch st).epoch = st.epoch + 1 := rfl
  have h2 : (updateEpoch st).sentBval = BinValues.none := rfl
  unfold phiB
  rw [h1, h2, BinValues.none_contains]
  split_ifs <;> omega

theorem phiA_updateEpoch (st : AgreementState) (e : Nat) :
    phiA st e ≤ phiA (updateEpoch st) e := by
  have h1 : (updateEpoch st).epoch = st.epoch + 1 := rfl
  have h2 : (updateEpoch st).binValues = BinValues.none := rfl
  unfold phiA
  rw [h1, h2]
  split_ifs <;> omega

theorem phiC_updateEpoch (st : AgreementState) (e : Nat) :
    phiC st e ≤ phiC (updateEpoch st) e := by
  have h1 : (updateEpoch st).epoch = st.epoch + 1 := rfl
  have h2 : (updateEpoch st).confRound = false := rfl
  unfold phiC
  rw [h1, h2]
  split_ifs <;> omega

theorem cntB_single_bval (t : Target) (E : Nat) (b0 : Bool) (e : Nat) (b : Bool) :
    cntB [(t, ⟨E, AgreementContent.bval b0⟩)] e b =
      if e = E ∧ b = b0 then 1 else 0 := by
  have h : isBvalMsg e b (t, ⟨E, AgreementContent.bval b0⟩)
      = (Decidable.decide (E = e) && (b0 == b)) := rfl
  rw [cntB, List.filter_singleton, h]
  by_cases h1 : E = e
  · subst h1
    by_cases h2 : b0 = b
    · subst h2
      simp
    · have h2' : ¬ b = b0 := fun hh => h2 hh.symm
      have hbb : (b0 == b) = false := by
        cases b0 <;> cases b <;> simp_all
      simp [hbb, h2']
  · have h1' : ¬ e = E := fun hh => h1 hh.symm
    have hd : Decidable.decide (E = e) = false := by simp [h1]
    simp [hd, h1']

theorem cntA_single_aux (t : Target) (E : Nat) (b0 : Bool) (e : Nat) :
    cntA [(t, ⟨E, AgreementContent.aux b0⟩)] e = if e = E then 1 else 0 := by
  have h : isAuxMsg e (t, ⟨E, AgreementContent.aux b0⟩)
      = Decidable.decide (E = e) := rfl
  rw [cntA, List.filter_singleton, h]
  by_cases h1 : E = e
  · subst h1
    simp
  · have h1' : ¬ e = E := fun hh => h1 hh.symm
    simp [h1, h1']

theorem cntC_single_conf (t : Target) (E : Nat) (v : BinValues) (e : Nat) :
    cntC [(t, ⟨E, AgreementContent.conf v⟩)] e = if e = E then 1 else 0 := by
  have h : isConfMsg e (t, ⟨E, AgreementContent.conf v⟩)
      = Decidable.decide (E = e) := rfl
  rw [cntC, List.filter_singleton, h]
  by_cases h1 : E = e
  · subst h1
    simp
  · have h1' : ¬ e = E := fun hh => h1 hh.symm
    simp [h1, h1']

theorem cnts_wrapped_coin (l : List Unit) (E e : Nat) (b : Bool) :
    cntB (l.map fun _ => (Target.all, AgreementMessage.mk E AgreementContent.coin)) e b
      = 0 ∧
    cntA (l.map fun _ => (Target.all, AgreementMessage.mk E AgreementContent.coin)) e
      = 0 ∧
    cntC (l.map fun _ => (Target.all, AgreementMessage.mk E AgreementContent.coin)) e
      = 0 := by
  induction l with
  | nil => exact ⟨rfl, rfl, rfl⟩
  | cons hd tl ih => exact ih

/-- `decide` emits no `BVal`, `Aux` or `Conf` message and leaves every
emission budget unchanged. -/
theorem decide_cnts (b : Bool) (st : AgreementState) :
    (∀ e b', cntB (Hbbft.decide b st).1.messages e b' = 0) ∧
    (∀ e, cntA (Hbbft.decide b st).1.messages e = 0) ∧
    (∀ e, cntC (Hbbft.decide b st).1.messages e = 0) ∧
    (∀ e b', phiB (Hbbft.decide b st).2 e b' = phiB st e b') ∧
    (∀ e, phiA (Hbbft.decide b st).2 e = phiA st e) ∧
    (∀ e, phiC (Hbbft.decide b st).2 e = phiC st e) := by
  unfold Hbbft.decide
  split
  · exact ⟨fun _ _ => rfl, fun _ => rfl, fun _ => rfl, fun _ _ => rfl,
      fun _ => rfl, fun _ => rfl⟩
  · split <;> exact ⟨fun _ _ => rfl, fun _ => rfl, fun _ => rfl, fun _ _ => rfl,
      fun _ => rfl, fun _ => rfl⟩

/-- `handle_term` emits no `BVal`, `Aux` or `Conf` message and leaves every
emission budget unchanged. -/
theorem handleTerm_cnts (s : Nat) (b : Bool) (st : AgreementState) :
    (∀ e b', cntB (handleTerm s b st).1.messages e b' = 0) ∧
    (∀ e, cntA (handleTerm s b st).1.messages e = 0) ∧
    (∀ e, cntC (handleTerm s b st).1.messages e = 0) ∧
    (∀ e b', phiB (handleTerm s b st).2 e b' = phiB st e b') ∧
    (∀ e, phiA (handleTerm s b st).2 e = phiA st e) ∧
    (∀ e, phiC (handleTerm s b st).2 e = phiC st e) := by
  simp only [handleTerm]
  split
  · exact decide_cnts b _
  · exact ⟨fun _ _ => rfl, fun _ => rfl, fun _ => rfl, fun _ _ => rfl,
      fun _ => rfl, fun _ => rfl⟩

theorem contains_union_fromBool_other (v : BinValues) (b b' : Bool) (h : b' ≠ b) :
    (v.union (BinValues.fromBool b)).contains b' = v.contains b' := by
  obtain ⟨p, q⟩ := v
  revert h
  cases p <;> cases q <;> cases b <;> cases b' <;> decide

theorem insertMap_idem {α : Type} (k : Nat) (v : α) (l : List (Nat × α)) :
    insertMap k v (insertMap k v l) = insertMap k v l := by
  induction l with
  | nil => simp [insertMap]
  | cons hd tl ih =>
    by_cases h : hd.1 = k
    · simp [insertMap, h]
    · simp [insertMap, h, ih]

theorem valCsOK {st : AgreementState} (hv : st.netinfo.isValidator = true) (c : Call) :
    st.netinfo.isValidator = false → csOK c = true := by
  intro hnv
  rw [hv] at hnv
  exact Bool.noConfusion hnv

/-- An empty step with non-decreasing budgets satisfies the emission-budget
relation of any call. -/
theorem CntSpec.ofPure {c : Call} {st st' : AgreementState}
    (hB : ∀ e b, phiB st e b ≤ phiB st' e b)
    (hA : ∀ e, phiA st e ≤ phiA st' e)
    (hC : ∀ e, phiC st e ≤ phiC st' e) :
    CntSpec c st Step.empty st' := by
  intro _
  refine ⟨fun e b => ?_, fun e => ?_, fun e => ?_⟩
  · have h0 : cntB Step.empty.messages e b = 0 := rfl
    have h1 := hB e b
    omega
  · have h0 : cntA Step.empty.messages e = 0 := rfl
    have h1 := hA e
    omega
  · have h0 : cntC Step.empty.messages e = 0 := rfl
    have h1 := hC e
    omega

/-- Transfer the emission-budget relation between calls whose base states
agree on validator status and budgets, with larger slack on the target. -/
theorem CntSpec.retarget {c c' : Call} {st st2 : AgreementState} {step : Step}
    {st' : AgreementState}
    (h : CntSpec c' st2 step st')
    (hn : st2.netinfo.isValidator = st.netinfo.isValidator)
    (hB : ∀ e b, phiB st2 e b = phiB st e b)
    (hA : ∀ e, phiA st2 e = phiA st e)
    (hC : ∀ e, phiC st2 e = phiC st e)
    (sB : ∀ e b, slackB c' st2 e b ≤ slackB c st e b)
    (sA : ∀ e, slackA c' st2 e ≤ slackA c st e) : CntSpec c st step st' := by
  intro hv
  obtain ⟨kB, kA, kC⟩ := h (by rw [hn]; exact hv)
  refine ⟨fun e b => ?_, fun e => ?_, fun e => ?_⟩
  · have h1 := kB e b
    have h2 := hB e b
    have h3 := sB e b
    omega
  · have h1 := kA e
    have h2 := hA e
    have h3 := sA e
    omega
  · have h1 := kC e
    have h2 := hC e
    omega

/-- The first phase of `handle_bval` at the `2f + 1` threshold (record the
vote, insert into `bin_values`, send `Aux` when `bin_values` was empty):
the emitted `Aux` is absorbed by the `∅ → non-empty` jump of the `Aux`
budget. -/
theorem cnt_bval_branch1 (rec : Call → AgreementState → Option (Step × AgreementState))
    (IH : ∀ c st r, Inv st → rec c st = some r → CntSpec c st r.1 r.2)
    (IHcore : ∀ c st r, Inv st → rec c st = some r →
      (st.netinfo.isValidator = false → csOK c = true) → CoreSpec st r.1 r.2)
    (s : Nat) (b : Bool) (st : AgreementState) (r1 : Step × AgreementState)
    (hI : Inv st) (hv : st.netinfo.isValidator = true)
    (h1 : (if ({ st with receivedBval := insertBvalEntry s b st.receivedBval} :
            AgreementState).binValues = BinValues.none then
          rec (Call.sendAux b)
            { st with receivedBval := insertBvalEntry s b st.receivedBval
                      binValues := (st.binValues.insert b).1 }
        else some (Step.empty,
          { st with receivedBval := insertBvalEntry s b st.receivedBval
                    binValues := (st.binValues.insert b).1 })) = some r1) :
    r1.2.netinfo = st.netinfo ∧ Inv r1.2 ∧
    (∀ e b', cntB r1.1.messages e b' + phiB st e b' ≤ phiB r1.2 e b') ∧
    (∀ e, cntA r1.1.messages e + phiA st e ≤ phiA r1.2 e) ∧
    (∀ e, cntC r1.1.messages e + phiC st e ≤ phiC r1.2 e) := by
  split at h1
  · next hp =>
    have hp' : st.binValues = BinValues.none := hp
    have hIB : Inv { st with receivedBval := insertBvalEntry s b st.receivedBval
                             binValues := (st.binValues.insert b).1 } := hI
    have hvB : ({ st with receivedBval := insertBvalEntry s b st.receivedBval
                          binValues := (st.binValues.insert b).1 } :
        AgreementState).netinfo.isValidator = true := hv
    have csub := IHcore _ _ _ hIB h1 (valCsOK hvB _)
    obtain ⟨kB, kA, kC⟩ := IH _ _ _ hIB h1 hvB
    refine ⟨csub.netinfo_eq, csub.inv hIB, fun e b' => ?_, fun e => ?_, fun e => ?_⟩
    · have k := kB e b'
      have hs : slackB (Call.sendAux b)
          { st with receivedBval := insertBvalEntry s b st.receivedBval
                    binValues := (st.binValues.insert b).1 } e b' = 0 := rfl
      have hφ : phiB { st with receivedBval := insertBvalEntry s b st.receivedBval
                               binValues := (st.binValues.insert b).1 } e b'
          = phiB st e b' := rfl
      omega
    · have k := kA e
      have hsl : slackA (Call.sendAux b)
          { st with receivedBval := insertBvalEntry s b st.receivedBval
                    binValues := (st.binValues.insert b).1 } e
          = if e = st.epoch then 1 else 0 := rfl
      have hφB : phiA { st with receivedBval := insertBvalEntry s b st.receivedBval
                                binValues := (st.binValues.insert b).1 } e
          = (if e < st.epoch then 1 else if e = st.epoch then
              (if (st.binValues.insert b).1 = BinValues.none then 0 else 1) else 0) := rfl
    -- the base state's budget, in the same canonical shape
      have hφS : phiA st e = (if e < st.epoch then 1 else if e = st.epoch then
          (if st.binValues = BinValues.none then 0 else 1) else 0) := rfl
      by_cases he : e = st.epoch
      · rw [if_neg (by omega), if_pos he, if_neg (BinValues.insert_ne_none st.binValues b)]
          at hφB
        rw [if_neg (by omega), if_pos he, if_pos hp'] at hφS
        rw [if_pos he] at hsl
        omega
      · by_cases hlt : e < st.epoch
        · rw [if_pos hlt] at hφB
          rw [if_pos hlt] at hφS
          rw [if_neg he] at hsl
          omega
        · rw [if_neg hlt, if_neg he] at hφB
          rw [if_neg hlt, if_neg he] at hφS
          rw [if_neg he] at hsl
          omega
    · have k := kC e
      have hφ : phiC { st with receivedBval := insertBvalEntry s b st.receivedBval
                               binValues := (st.binValues.insert b).1 } e
          = phiC st e := rfl
      omega
  · next hp =>
    injection h1 with h1
    subst h1
    have hp' : ¬ st.binValues = BinValues.none := hp
    refine ⟨rfl, hI, fun e b' => ?_, fun e => ?_, fun e => ?_⟩
    · have h0 : cntB (Step.empty,
          { st with receivedBval := insertBvalEntry s b st.receivedBval
                    binValues := (st.binValues.insert b).1 }).1.messages e b' = 0 := rfl
      have hφ : phiB (Step.empty,
          { st with receivedBval := insertBvalEntry s b st.receivedBval
                    binValues := (st.binValues.insert b).1 }).2 e b'
          = phiB st e b' := rfl
      omega
    · have h0 : cntA (Step.empty,
          { st with receivedBval := insertBvalEntry s b st.receivedBval
                    binValues := (st.binValues.insert b).1 }).1.messages e = 0 := rfl
      have hφB : phiA (Step.empty,
          { st with receivedBval := insertBvalEntry s b st.receivedBval
                    binValues := (st.binValues.insert b).1 }).2 e
          = (if e < st.epoch then 1 else if e = st.epoch then
              (if (st.binValues.insert b).1 = BinValues.none then 0 else 1) else 0) := rfl
      have hφS : phiA st e = (if e < st.epoch then 1 else if e = st.epoch then
          (if st.binValues = BinValues.none then 0 else 1) else 0) := rfl
      by_cases he : e = st.epoch
      · rw [if_neg (by omega), if_pos he, if_neg (BinValues.insert_ne_none st.binValues b)]
          at hφB
        rw [if_neg (by omega), if_pos he, if_neg hp'] at hφS
        omega
      · by_cases hlt : e < st.epoch
        · rw [if_pos hlt] at hφB
          rw [if_pos hlt] at hφS
          omega
        · rw [if_neg hlt, if_neg he] at hφB
          rw [if_neg hlt, if_neg he] at hφS
          omega
    · have h0 : cntC (Step.empty,
          { st with receivedBval := insertBvalEntry s b st.receivedBval
                    binValues := (st.binValues.insert b).1 }).1.messages e = 0 := rfl
      have hφ : phiC (Step.empty,
          { st with receivedBval := insertBvalEntry s b st.receivedBval
                    binValues := (st.binValues.insert b).1 }).2 e
          = phiC st e := rfl
      omega

/-- The tail of `on_coin`: advance the epoch, seed the new estimate via
`send_bval` (whose slack vanishes because `update_epoch` cleared
`sent_bval`), then drain the queue. All budgets grow across the epoch
boundary. -/
theorem cnt_onCoin_tail (rec : Call → AgreementState → Option (Step × AgreementState))
    (IH : ∀ c st r, Inv st → rec c st = some r → CntSpec c st r.1 r.2)
    (IHcore : ∀ c st r, Inv st → rec c st = some r →
      (st.netinfo.isValidator = false → csOK c = true) → CoreSpec st r.1 r.2)
    (s0 : Step) (bS : Bool) (dst : AgreementState) (r : Step × AgreementState)
    (hI : Inv dst) (hv : dst.netinfo.isValidator = true)
    (h : ((rec (Call.sendBval bS) { updateEpoch dst with estimated := some bS }).bind
      fun a => Option.map (fun r2 => ((s0.app a.1).app r2.1, r2.2))
        (rec (Call.drain a.2.incomingQueue) { a.2 with incomingQueue := [] })) = some r) :
    (∀ e b, cntB r.1.messages e b + phiB dst e b
        ≤ cntB s0.messages e b + phiB r.2 e b) ∧
    (∀ e, cntA r.1.messages e + phiA dst e ≤ cntA s0.messages e + phiA r.2 e) ∧
    (∀ e, cntC r.1.messages e + phiC dst e ≤ cntC s0.messages e + phiC r.2 e) := by
  simp only [Option.bind_eq_some, Option.map_eq_some'] at h
  obtain ⟨r1, hr1, r2, hr2, heq⟩ := h
  subst heq
  dsimp only
  have hIE : Inv { updateEpoch dst with estimated := some bS } := hI
  have hvE : ({ updateEpoch dst with estimated := some bS } :
      AgreementState).netinfo.isValidator = true := hv
  have c1 := IHcore _ _ _ hIE hr1 (valCsOK hvE _)
  obtain ⟨k1B, k1A, k1C⟩ := IH _ _ _ hIE hr1 hvE
  have hI1 : Inv r1.2 := c1.inv hIE
  have hIQ : Inv { r1.2 with incomingQueue := [] } := hI1
  have hvQ : ({ r1.2 with incomingQueue := [] } :
      AgreementState).netinfo.isValidator = true := by
    show r1.2.netinfo.isValidator = true
    rw [c1.netinfo_eq]
    exact hv
  obtain ⟨k2B, k2A, k2C⟩ := IH _ _ _ hIQ hr2 hvQ
  refine ⟨fun e b => ?_, fun e => ?_, fun e => ?_⟩
  · have hm : cntB ((s0.app r1.1).app r2.1).messages e b
        = cntB s0.messages e b + cntB r1.1.messages e b + cntB r2.1.messages e b := by
      rw [Step.messages_app, Step.messages_app, cntB_append, cntB_append]
    have h1 := k1B e b
    have h2 := k2B e b
    have hsl1 : slackB (Call.sendBval bS) { updateEpoch dst with estimated := some bS }
        e b = 0 := by
      have hc : (updateEpoch dst).sentBval = BinValues.none := rfl
      simp [slackB, hc, BinValues.none_contains]
    have hsl2 : slackB (Call.drain r1.2.incomingQueue)
        { r1.2 with incomingQueue := [] } e b = 0 := rfl
    have hφ0 : phiB dst e b ≤ phiB { updateEpoch dst with estimated := some bS } e b := by
      have h3 := phiB_updateEpoch dst e b
      have h4 : phiB { updateEpoch dst with estimated := some bS } e b
          = phiB (updateEpoch dst) e b := rfl
      omega
    have hφQ : phiB { r1.2 with incomingQueue := [] } e b = phiB r1.2 e b := rfl
    rw [hm]
    omega
  · have hm : cntA ((s0.app r1.1).app r2.1).messages e
        = cntA s0.messages e + cntA r1.1.messages e + cntA r2.1.messages e := by
      rw [Step.messages_app, Step.messages_app, cntA_append, cntA_append]
    have h1 := k1A e
    have h2 := k2A e
    have hsl1 : slackA (Call.sendBval bS) { updateEpoch dst with estimated := some bS }
        e = 0 := rfl
    have hsl2 : slackA (Call.drain r1.2.incomingQueue)
        { r1.2 with incomingQueue := [] } e = 0 := rfl
    have hφ0 : phiA dst e ≤ phiA { updateEpoch dst with estimated := some bS } e := by
      have h3 := phiA_updateEpoch dst e
      have h4 : phiA { updateEpoch dst with estimated := some bS } e
          = phiA (updateEpoch dst) e := rfl
      omega
    have hφQ : phiA { r1.2 with incomingQueue := [] } e = phiA r1.2 e := rfl
    rw [hm]
    omega
  · have hm : cntC ((s0.app r1.1).app r2.1).messages e
        = cntC s0.messages e + cntC r1.1.messages e + cntC r2.1.messages e := by
      rw [Step.messages_app, Step.messages_app, cntC_append, cntC_append]
    have h1 := k1C e
    have h2 := k2C e
    have hφ0 : phiC dst e ≤ phiC { updateEpoch dst with estimated := some bS } e := by
      have h3 := phiC_updateEpoch dst e
      have h4 : phiC { updateEpoch dst with estimated := some bS } e
          = phiC (updateEpoch dst) e := rfl
      omega
    have hφQ : phiC { r1.2 with incomingQueue := [] } e = phiC r1.2 e := rfl
    rw [hm]
    omega

/-- The body of the interpreter satisfies the emission-budget relation,
assuming the recursive interpreter does (and satisfies `CoreSpec`). -/
theorem cntBody (rec : Call → AgreementState → Option (Step × AgreementState))
    (cv : Nat → Bool)
    (IH : ∀ c st r, Inv st → rec c st = some r → CntSpec c st r.1 r.2)
    (IHcore : ∀ c st r, Inv st → rec c st = some r →
      (st.netinfo.isValidator = false → csOK c = true) → CoreSpec st r.1 r.2) :
    ∀ c st r, Inv st → execBody rec cv c st = some r → CntSpec c st r.1 r.2 := by
  intro c st r hI h
  cases c with
  | handleMessage s m =>
    simp only [execBody] at h
    split at h
    · injection h with h
      subst h
      exact CntSpec.ofPure (fun _ _ => Nat.le_refl _) (fun _ => Nat.le_refl _)
        (fun _ => Nat.le_refl _)
    · split at h
      · injection h with h
        subst h
        exact CntSpec.ofPure (fun _ _ => Nat.le_refl _) (fun _ => Nat.le_refl _)
          (fun _ => Nat.le_refl _)
      · split at h
        · exact CntSpec.retarget (IH _ _ _ hI h) rfl (fun _ _ => rfl)
            (fun _ => rfl) (fun _ => rfl) (fun _ _ => Nat.zero_le _) (fun _ => Nat.zero_le _)
        · exact CntSpec.retarget (IH _ _ _ hI h) rfl (fun _ _ => rfl)
            (fun _ => rfl) (fun _ => rfl) (fun _ _ => Nat.zero_le _) (fun _ => Nat.zero_le _)
        · exact CntSpec.retarget (IH _ _ _ hI h) rfl (fun _ _ => rfl)
            (fun _ => rfl) (fun _ => rfl) (fun _ _ => Nat.zero_le _) (fun _ => Nat.zero_le _)
        · next b hmc =>
          injection h with h
          subst h
          intro _
          obtain ⟨t1, t2, t3, t4, t5, t6⟩ := handleTerm_cnts s b st
          refine ⟨fun e b' => ?_, fun e => ?_, fun e => ?_⟩
          · have h1 := t1 e b'
            have h2 := t4 e b'
            omega
          · have h1 := t2 e
            have h2 := t5 e
            omega
          · have h1 := t3 e
            have h2 := t6 e
            omega
        · exact CntSpec.retarget (IH _ _ _ hI h) rfl (fun _ _ => rfl)
            (fun _ => rfl) (fun _ => rfl) (fun _ _ => Nat.zero_le _) (fun _ => Nat.zero_le _)
  | inputBody b =>
    simp only [execBody] at h
    split at h
    · next hN1 =>
      simp only [Option.bind_eq_some] at h
      obtain ⟨r1, hr1, r2, hr2, heq⟩ := h
      injection heq with heq
      subst heq
      dsimp only
      intro hv
      have c1 := IHcore _ _ _ hI hr1 (valCsOK hv _)
      have hI1 : Inv r1.2 := c1.inv hI
      have hv1 : r1.2.netinfo.isValidator = true := by rw [c1.netinfo_eq]; exact hv
      obtain ⟨k1B, k1A, k1C⟩ := IH _ _ _ hI hr1 hv
      obtain ⟨k2B, k2A, k2C⟩ := IH _ _ _ hI1 hr2 hv1
      obtain ⟨d1, d2, d3, d4, d5, d6⟩ := decide_cnts b r2.2
      refine ⟨fun e b' => ?_, fun e => ?_, fun e => ?_⟩
      · rw [Step.messages_app, Step.messages_app, cntB_append, cntB_append]
        have h1 := k1B e b'
        have h2 := k2B e b'
        have hd := d1 e b'
        have hφ := d4 e b'
        have hs1 : slackB (Call.sendBval b) st e b'
            = slackB (Call.inputBody b) st e b' := rfl
        have hs2 : slackB (Call.sendAux b) r1.2 e b' = 0 := rfl
        omega
      · rw [Step.messages_app, Step.messages_app, cntA_append, cntA_append]
        have h1 := k1A e
        have h2 := k2A e
        have hd := d2 e
        have hφ := d5 e
        have hs1 : slackA (Call.sendBval b) st e = 0 := rfl
        have hs2 : slackA (Call.sendAux b) r1.2 e = if e = r1.2.epoch then 1 else 0 := rfl
        have hsg : slackA (Call.inputBody b) st e
            = if st.netinfo.numNodes = 1 then 1 else 0 := rfl
        rw [if_pos hN1] at hsg
        by_cases he : e = r1.2.epoch
        · rw [if_pos he] at hs2
          omega
        · rw [if_neg he] at hs2
          omega
      · rw [Step.messages_app, Step.messages_app, cntC_append, cntC_append]
        have h1 := k1C e
        have h2 := k2C e
        have hd := d3 e
        have hφ := d6 e
        omega
    · intro hv
      have hIE : Inv { st with estimated := some b } := hI
      obtain ⟨kB, kA, kC⟩ := IH _ _ _ hIE h hv
      refine ⟨fun e b' => ?_, fun e => ?_, fun e => ?_⟩
      · have k := kB e b'
        have hφ : phiB { st with estimated := some b } e b' = phiB st e b' := rfl
        have hs : slackB (Call.sendBval b) { st with estimated := some b } e b'
            = slackB (Call.inputBody b) st e b' := rfl
        omega
      · have k := kA e
        have hφ : phiA { st with estimated := some b } e = phiA st e := rfl
        have hs : slackA (Call.sendBval b) { st with estimated := some b } e = 0 := rfl
        omega
      · have k := kC e
        have hφ : phiC { st with estimated := some b } e = phiC st e := rfl
        omega
  | handleBval s b =>
    simp only [execBody] at h
    intro hv
    have main : ∀ rm : Step × AgreementState,
        (if countBval (insertBvalEntry s b st.receivedBval) b =
            2 * st.netinfo.numFaulty + 1 then
          (if ({ st with receivedBval := insertBvalEntry s b st.receivedBval} :
                AgreementState).binValues = BinValues.none then
            rec (Call.sendAux b)
              { st with receivedBval := insertBvalEntry s b st.receivedBval
                        binValues := (st.binValues.insert b).1 }
          else some (Step.empty,
            { st with receivedBval := insertBvalEntry s b st.receivedBval
                      binValues := (st.binValues.insert b).1 })).bind (fun r1 =>
            (if (st.binValues.insert b).2 then
              rec Call.onBinValuesChanged r1.2
             else some (Step.empty, r1.2)).bind fun r2 =>
            some (r1.1.app r2.1, r2.2))
        else some (Step.empty,
          { st with receivedBval := insertBvalEntry s b st.receivedBval })) =
          some rm →
        rm.2.netinfo = st.netinfo ∧ Inv rm.2 ∧
        (∀ e b', cntB rm.1.messages e b' + phiB st e b' ≤ phiB rm.2 e b') ∧
        (∀ e, cntA rm.1.messages e + phiA st e ≤ phiA rm.2 e) ∧
        (∀ e, cntC rm.1.messages e + phiC st e ≤ phiC rm.2 e) := by
      intro rm h0
      split at h0
      · simp only [Option.bind_eq_some] at h0
        obtain ⟨r1, hr1, r2, hr2, heq⟩ := h0
        injection heq with heq
        subst heq
        dsimp only
        obtain ⟨n1, i1, b1B, b1A, b1C⟩ :=
          cnt_bval_branch1 rec IH IHcore s b st r1 hI hv hr1
        have seg2 : r2.2.netinfo = r1.2.netinfo ∧ Inv r2.2 ∧
            (∀ e b', cntB r2.1.messages e b' + phiB r1.2 e b' ≤ phiB r2.2 e b') ∧
            (∀ e, cntA r2.1.messages e + phiA r1.2 e ≤ phiA r2.2 e) ∧
            (∀ e, cntC r2.1.messages e + phiC r1.2 e ≤ phiC r2.2 e) := by
          revert hr2
          split
          · intro hr2
            have hv1 : r1.2.netinfo.isValidator = true := by rw [n1]; exact hv
            have csub := IHcore _ _ _ i1 hr2 (valCsOK hv1 _)
            obtain ⟨kB, kA, kC⟩ := IH _ _ _ i1 hr2 hv1
            refine ⟨csub.netinfo_eq, csub.inv i1,
              fun e b' => ?_, fun e => ?_, fun e => ?_⟩
            · have k := kB e b'
              have hs : slackB Call.onBinValuesChanged r1.2 e b' = 0 := rfl
              omega
            · have k := kA e
              have hs : slackA Call.onBinValuesChanged r1.2 e = 0 := rfl
              omega
            · exact kC e
          · intro hr2
            injection hr2 with hr2
            subst hr2
            refine ⟨rfl, i1, fun e b' => ?_, fun e => ?_, fun e => ?_⟩
            · have h0' : cntB (Step.empty, r1.2).1.messages e b' = 0 := rfl
              have hφ : phiB (Step.empty, r1.2).2 e b' = phiB r1.2 e b' := rfl
              omega
            · have h0' : cntA (Step.empty, r1.2).1.messages e = 0 := rfl
              have hφ : phiA (Step.empty, r1.2).2 e = phiA r1.2 e := rfl
              omega
            · have h0' : cntC (Step.empty, r1.2).1.messages e = 0 := rfl
              have hφ : phiC (Step.empty, r1.2).2 e = phiC r1.2 e := rfl
              omega
        obtain ⟨n2, i2, s2B, s2A, s2C⟩ := seg2
        refine ⟨n2.trans n1, i2, fun e b' => ?_, fun e => ?_, fun e => ?_⟩
        · rw [Step.messages_app, cntB_append]
          have k1 := b1B e b'
          have k2 := s2B e b'
          omega
        · rw [Step.messages_app, cntA_append]
          have k1 := b1A e
          have k2 := s2A e
          omega
        · rw [Step.messages_app, cntC_append]
          have k1 := b1C e
          have k2 := s2C e
          omega
      · injection h0 with h0
        subst h0
        refine ⟨rfl, hI, fun e b' => ?_, fun e => ?_, fun e => ?_⟩
        · have h0' : cntB (Step.empty,
              { st with receivedBval := insertBvalEntry s b st.receivedBval }).1.messages
              e b' = 0 := rfl
          have hφ : phiB (Step.empty,
              { st with receivedBval := insertBvalEntry s b st.receivedBval }).2 e b'
              = phiB st e b' := rfl
          omega
        · have h0' : cntA (Step.empty,
              { st with receivedBval := insertBvalEntry s b st.receivedBval }).1.messages
              e = 0 := rfl
          have hφ : phiA (Step.empty,
              { st with receivedBval := insertBvalEntry s b st.receivedBval }).2 e
              = phiA st e := rfl
          omega
        · have h0' : cntC (Step.empty,
              { st with receivedBval := insertBvalEntry s b st.receivedBval }).1.messages
              e = 0 := rfl
          have hφ : phiC (Step.empty,
              { st with receivedBval := insertBvalEntry s b st.receivedBval }).2 e
              = phiC st e := rfl
          omega
    cases hr : (if countBval (insertBvalEntry s b st.receivedBval) b =
            2 * st.netinfo.numFaulty + 1 then
          (if ({ st with receivedBval := insertBvalEntry s b st.receivedBval} :
                AgreementState).binValues = BinValues.none then
            rec (Call.sendAux b)
              { st with receivedBval := insertBvalEntry s b st.receivedBval
                        binValues := (st.binValues.insert b).1 }
          else some (Step.empty,
            { st with receivedBval := insertBvalEntry s b st.receivedBval
                      binValues := (st.binValues.insert b).1 })).bind (fun r1 =>
            (if (st.binValues.insert b).2 then
              rec Call.onBinValuesChanged r1.2
             else some (Step.empty, r1.2)).bind fun r2 =>
            some (r1.1.app r2.1, r2.2))
        else some (Step.empty,
          { st with receivedBval := insertBvalEntry s b st.receivedBval })) with
    | none =>
      rw [hr] at h
      exact absurd h (by simp)
    | some rm =>
      rw [hr, Option.some_bind] at h
      obtain ⟨hnet, hIm, mB, mA, mC⟩ := main rm hr
      split at h
      · next hg =>
        have hgs : rm.2.sentBval.contains b = false := by
          revert hg
          cases hb : rm.2.sentBval.contains b <;> simp [hb]
        obtain ⟨r3, hr3, heq3⟩ := Option.map_eq_some'.mp h
        subst heq3
        dsimp only
        have hvm : rm.2.netinfo.isValidator = true := by rw [hnet]; exact hv
        obtain ⟨kB, kA, kC⟩ := IH _ _ _ hIm hr3 hvm
        refine ⟨fun e b' => ?_, fun e => ?_, fun e => ?_⟩
        · rw [Step.messages_app, cntB_append]
          have k1 := mB e b'
          have k3 := kB e b'
          have hs3 : slackB (Call.sendBval b) rm.2 e b' = 0 := by
            simp [slackB, hgs]
          omega
        · rw [Step.messages_app, cntA_append]
          have k1 := mA e
          have k3 := kA e
          have hs3 : slackA (Call.sendBval b) rm.2 e = 0 := rfl
          omega
        · rw [Step.messages_app, cntC_append]
          have k1 := mC e
          have k3 := kC e
          omega
      · injection h with h
        subst h
        refine ⟨fun e b' => ?_, fun e => ?_, fun e => ?_⟩
        · have k1 := mB e b'
          omega
        · have k1 := mA e
          omega
        · exact mC e
  | onBinValuesChanged =>
    simp only [execBody] at h
    split at h
    · split at h
      · exact CntSpec.retarget (IH _ _ _ hI h) rfl (fun _ _ => rfl)
          (fun _ => rfl) (fun _ => rfl) (fun _ _ => Nat.zero_le _) (fun _ => Nat.zero_le _)
      · injection h with h
        subst h
        exact CntSpec.ofPure (fun _ _ => Nat.le_refl _) (fun _ => Nat.le_refl _)
          (fun _ => Nat.le_refl _)
    · split at h
      · exact CntSpec.retarget (IH _ _ _ hI h) rfl (fun _ _ => rfl)
          (fun _ => rfl) (fun _ => rfl) (fun _ _ => Nat.zero_le _) (fun _ => Nat.zero_le _)
      · injection h with h
        subst h
        exact CntSpec.ofPure (fun _ _ => Nat.le_refl _) (fun _ => Nat.le_refl _)
          (fun _ => Nat.le_refl _)
    · exact CntSpec.retarget (IH _ _ _ hI h) rfl (fun _ _ => rfl)
        (fun _ => rfl) (fun _ => rfl) (fun _ _ => Nat.zero_le _) (fun _ => Nat.zero_le _)
  | sendBval b =>
    simp only [execBody] at h
    split at h
    · next hnv =>
      injection h with h
      subst h
      intro hv
      have hnv' : st.netinfo.isValidator = false := by
        revert hnv
        cases st.netinfo.isValidator <;> simp
      rw [hv] at hnv'
      exact absurd hnv' (by simp)
    · obtain ⟨r1, hr1, heq⟩ := Option.map_eq_some'.mp h
      subst heq
      dsimp only
      intro hv
      have hIS : Inv { st with
          sentBval := st.sentBval.union (BinValues.fromBool b) } := hI
      have hvS : ({ st with sentBval := st.sentBval.union (BinValues.fromBool b) } :
          AgreementState).netinfo.isValidator = true := hv
      obtain ⟨kB, kA, kC⟩ := IH _ _ _ hIS hr1 hvS
      refine ⟨fun e b' => ?_, fun e => ?_, fun e => ?_⟩
      · rw [Step.messages_app, cntB_append]
        have h1v : cntB (Step.mk
            [(Target.all, AgreementMessage.mk st.epoch (AgreementContent.bval b))]
            []).messages e b'
            = if e = st.epoch ∧ b' = b then 1 else 0 :=
          cntB_single_bval Target.all st.epoch b e b'
        have k := kB e b'
        have hs0 : slackB (Call.handleBval st.netinfo.ourUid b)
            { st with sentBval := st.sentBval.union (BinValues.fromBool b) } e b'
            = 0 := rfl
        have hφS : phiB { st with sentBval := st.sentBval.union (BinValues.fromBool b) }
            e b' = (if e < st.epoch then 1 else if e = st.epoch then
              (if (st.sentBval.union (BinValues.fromBool b)).contains b' then 1 else 0)
              else 0) := rfl
        have hφ0 : phiB st e b' = (if e < st.epoch then 1 else if e = st.epoch then
            (if st.sentBval.contains b' then 1 else 0) else 0) := rfl
        have hsl : slackB (Call.sendBval b) st e b'
            = (if e = st.epoch ∧ b' = b ∧ st.sentBval.contains b = true then 1 else 0) :=
          rfl
        by_cases he : e = st.epoch
        · by_cases hb : b' = b
          · rw [if_pos ⟨he, hb⟩] at h1v
            rw [if_neg (by omega), if_pos he] at hφS hφ0
            have hcu : (st.sentBval.union (BinValues.fromBool b)).contains b' = true := by
              rw [hb]
              exact BinValues.contains_union_fromBool st.sentBval b
            rw [if_pos hcu] at hφS
            by_cases hsent : st.sentBval.contains b = true
            · rw [if_pos ⟨he, hb, hsent⟩] at hsl
              rw [if_pos (hb.symm ▸ hsent)] at hφ0
              omega
            · have hsent' : st.sentBval.contains b = false := by
                revert hsent
                cases st.sentBval.contains b <;> simp
              rw [if_neg (by simp [hsent'])] at hsl
              rw [if_neg (by rw [hb, hsent']; simp)] at hφ0
              omega
          · rw [if_neg (fun hh => hb hh.2)] at h1v
            have hcu : (st.sentBval.union (BinValues.fromBool b)).contains b'
                = st.sentBval.contains b' := contains_union_fromBool_other st.sentBval b b' hb
            rw [if_neg (by omega), if_pos he, hcu] at hφS
            rw [if_neg (by omega), if_pos he] at hφ0
            omega
        · rw [if_neg (fun hh => he hh.1)] at h1v
          by_cases hlt : e < st.epoch
          · rw [if_pos hlt] at hφS hφ0
            omega
          · rw [if_neg hlt, if_neg he] at hφS hφ0
            omega
      · rw [Step.messages_app, cntA_append]
        have h1v : cntA (Step.mk
            [(Target.all, AgreementMessage.mk st.epoch (AgreementContent.bval b))]
            []).messages e = 0 := rfl
        have k := kA e
        have hs0 : slackA (Call.handleBval st.netinfo.ourUid b)
            { st with sentBval := st.sentBval.union (BinValues.fromBool b) } e = 0 := rfl
        have hφS : phiA { st with sentBval := st.sentBval.union (BinValues.fromBool b) } e
            = phiA st e := rfl
        omega
      · rw [Step.messages_app, cntC_append]
        have h1v : cntC (Step.mk
            [(Target.all, AgreementMessage.mk st.epoch (AgreementContent.bval b))]
            []).messages e = 0 := rfl
        have k := kC e
        have hφS : phiC { st with sentBval := st.sentBval.union (BinValues.fromBool b) } e
            = phiC st e := rfl
        omega
  | sendConf =>
    simp only [execBody] at h
    split at h
    · injection h with h
      subst h
      exact CntSpec.ofPure (fun _ _ => Nat.le_refl _) (fun _ => Nat.le_refl _)
        (fun _ => Nat.le_refl _)
    · next hcr =>
      have hcr' : st.confRound = false := by
        revert hcr
        cases st.confRound <;> simp
      split at h
      · next hnv =>
        injection h with h
        subst h
        intro _
        refine ⟨fun e b' => ?_, fun e => ?_, fun e => ?_⟩
        · have h0' : cntB (Step.empty,
              { st with confRound := true }).1.messages e b' = 0 := rfl
          have hφ : phiB (Step.empty, { st with confRound := true }).2 e b'
              = phiB st e b' := rfl
          omega
        · have h0' : cntA (Step.empty,
              { st with confRound := true }).1.messages e = 0 := rfl
          have hφ : phiA (Step.empty, { st with confRound := true }).2 e
              = phiA st e := rfl
          omega
        · have h0' : cntC (Step.empty,
              { st with confRound := true }).1.messages e = 0 := rfl
          have hφS : phiC (Step.empty, { st with confRound := true }).2 e
              = (if e < st.epoch then 1 else if e = st.epoch then 1 else 0) := rfl
          have hφ0 : phiC st e = (if e < st.epoch then 1 else if e = st.epoch then
              (if st.confRound then 1 else 0) else 0) := rfl
          by_cases hlt : e < st.epoch
          · rw [if_pos hlt] at hφS hφ0
            omega
          · by_cases he : e = st.epoch
            · rw [if_neg hlt, if_pos he] at hφS hφ0
              rw [hcr'] at hφ0
              simp only [Bool.false_eq_true, if_false] at hφ0
              omega
            · rw [if_neg hlt, if_neg he] at hφS hφ0
              omega
      · obtain ⟨r1, hr1, heq⟩ := Option.map_eq_some'.mp h
        subst heq
        dsimp only
        intro hv
        have hIC : Inv { st with confRound := true } := hI
        have hvC : ({ st with confRound := true } :
            AgreementState).netinfo.isValidator = true := hv
        obtain ⟨kB, kA, kC⟩ := IH _ _ _ hIC hr1 hvC
        refine ⟨fun e b' => ?_, fun e => ?_, fun e => ?_⟩
        · rw [Step.messages_app, cntB_append]
          have h1v : cntB (Step.mk
              [(Target.all, AgreementMessage.mk st.epoch
                (AgreementContent.conf st.binValues))] []).messages e b' = 0 := rfl
          have k := kB e b'
          have hs0 : slackB (Call.handleConf st.netinfo.ourUid st.binValues)
              { st with confRound := true } e b' = 0 := rfl
          have hφ : phiB { st with confRound := true } e b' = phiB st e b' := rfl
          omega
        · rw [Step.messages_app, cntA_append]
          have h1v : cntA (Step.mk
              [(Target.all, AgreementMessage.mk st.epoch
                (AgreementContent.conf st.binValues))] []).messages e = 0 := rfl
          have k := kA e
          have hs0 : slackA (Call.handleConf st.netinfo.ourUid st.binValues)
              { st with confRound := true } e = 0 := rfl
          have hφ : phiA { st with confRound := true } e = phiA st e := rfl
          omega
        · rw [Step.messages_app, cntC_append]
          have h1v : cntC (Step.mk
              [(Target.all, AgreementMessage.mk st.epoch
                (AgreementContent.conf st.binValues))] []).messages e
              = if e = st.epoch then 1 else 0 :=
            cntC_single_conf Target.all st.epoch st.binValues e
          have k := kC e
          have hφS : phiC { st with confRound := true } e
              = (if e < st.epoch then 1 else if e = st.epoch then 1 else 0) := rfl
          have hφ0 : phiC st e = (if e < st.epoch then 1 else if e = st.epoch then
              (if st.confRound then 1 else 0) else 0) := rfl
          by_cases he : e = st.epoch
          · rw [if_pos he] at h1v
            rw [if_neg (by omega), if_pos he] at hφS hφ0
            rw [hcr'] at hφ0
            simp only [Bool.false_eq_true, if_false] at hφ0
            omega
          · rw [if_neg he] at h1v
            by_cases hlt : e < st.epoch
            · rw [if_pos hlt] at hφS hφ0
              omega
            · rw [if_neg hlt, if_neg he] at hφS hφ0
              omega
  | handleAux s b =>
    simp only [execBody] at h
    split at h
    · injection h with h
      subst h
      exact CntSpec.ofPure (fun _ _ => Nat.le_refl _) (fun _ => Nat.le_refl _)
        (fun _ => Nat.le_refl _)
    · split at h
      · injection h with h
        subst h
        exact CntSpec.ofPure (fun _ _ => Nat.le_refl _) (fun _ => Nat.le_refl _)
          (fun _ => Nat.le_refl _)
      · split at h
        · injection h with h
          subst h
          exact CntSpec.ofPure (fun _ _ => Nat.le_refl _) (fun _ => Nat.le_refl _)
            (fun _ => Nat.le_refl _)
        · have hIA : Inv { st with receivedAux := insertMap s b st.receivedAux } := hI
          split at h
          · exact CntSpec.retarget (IH _ _ _ hIA h) rfl (fun _ _ => rfl)
              (fun _ => rfl) (fun _ => rfl) (fun _ _ => Nat.zero_le _) (fun _ => Nat.zero_le _)
          · exact CntSpec.retarget (IH _ _ _ hIA h) rfl (fun _ _ => rfl)
              (fun _ => rfl) (fun _ => rfl) (fun _ _ => Nat.zero_le _) (fun _ => Nat.zero_le _)
          · exact CntSpec.retarget (IH _ _ _ hIA h) rfl (fun _ _ => rfl)
              (fun _ => rfl) (fun _ => rfl) (fun _ _ => Nat.zero_le _) (fun _ => Nat.zero_le _)
  | handleConf s v =>
    simp only [execBody] at h
    have hIA : Inv { st with receivedConf := insertMap s v st.receivedConf } := hI
    exact CntSpec.retarget (IH _ _ _ hIA h) rfl (fun _ _ => rfl)
      (fun _ => rfl) (fun _ => rfl) (fun _ _ => Nat.zero_le _) (fun _ => Nat.zero_le _)
  | handleCoin s =>
    simp only [execBody] at h
    have hIA : Inv { st with commonCoin :=
        (coinHandleShare st.netinfo (cv st.epoch) s st.commonCoin).2 } := hI
    exact CntSpec.retarget (IH _ _ _ hIA h) rfl (fun _ _ => rfl)
      (fun _ => rfl) (fun _ => rfl) (fun _ _ => Nat.zero_le _) (fun _ => Nat.zero_le _)
  | onCoinStep cs =>
    simp only [execBody] at h
    split at h
    · injection h with h
      subst h
      dsimp only
      intro _
      refine ⟨fun e b' => ?_, fun e => ?_, fun e => ?_⟩
      · obtain ⟨w1, w2, w3⟩ := cnts_wrapped_coin cs.shares st.epoch e b'
        have hred : cntB (Step.mk (cs.shares.map fun _ =>
            (Target.all, AgreementMessage.mk st.epoch AgreementContent.coin))
            []).messages e b'
            = cntB (cs.shares.map fun _ =>
              (Target.all, AgreementMessage.mk st.epoch AgreementContent.coin)) e b' := rfl
        omega
      · obtain ⟨w1, w2, w3⟩ := cnts_wrapped_coin cs.shares st.epoch e true
        have hred : cntA (Step.mk (cs.shares.map fun _ =>
            (Target.all, AgreementMessage.mk st.epoch AgreementContent.coin))
            []).messages e
            = cntA (cs.shares.map fun _ =>
              (Target.all, AgreementMessage.mk st.epoch AgreementContent.coin)) e := rfl
        omega
      · obtain ⟨w1, w2, w3⟩ := cnts_wrapped_coin cs.shares st.epoch e true
        have hred : cntC (Step.mk (cs.shares.map fun _ =>
            (Target.all, AgreementMessage.mk st.epoch AgreementContent.coin))
            []).messages e
            = cntC (cs.shares.map fun _ =>
              (Target.all, AgreementMessage.mk st.epoch AgreementContent.coin)) e := rfl
        omega
    · next coin tail hout =>
      obtain ⟨r1, hr1, heq⟩ := Option.map_eq_some'.mp h
      subst heq
      dsimp only
      intro hv
      obtain ⟨kB, kA, kC⟩ := IH _ _ _ hI hr1 hv
      refine ⟨fun e b' => ?_, fun e => ?_, fun e => ?_⟩
      · rw [Step.messages_app, cntB_append]
        obtain ⟨w1, w2, w3⟩ := cnts_wrapped_coin cs.shares st.epoch e b'
        have hred : cntB (Step.mk (cs.shares.map fun _ =>
            (Target.all, AgreementMessage.mk st.epoch AgreementContent.coin))
            []).messages e b'
            = cntB (cs.shares.map fun _ =>
              (Target.all, AgreementMessage.mk st.epoch AgreementContent.coin)) e b' := rfl
        have k := kB e b'
        have hs0 : slackB (Call.onCoin coin (countConf st).2.definite) st e b' = 0 := rfl
        omega
      · rw [Step.messages_app, cntA_append]
        obtain ⟨w1, w2, w3⟩ := cnts_wrapped_coin cs.shares st.epoch e true
        have hred : cntA (Step.mk (cs.shares.map fun _ =>
            (Target.all, AgreementMessage.mk st.epoch AgreementContent.coin))
            []).messages e
            = cntA (cs.shares.map fun _ =>
              (Target.all, AgreementMessage.mk st.epoch AgreementContent.coin)) e := rfl
        have k := kA e
        have hs0 : slackA (Call.onCoin coin (countConf st).2.definite) st e = 0 := rfl
        omega
      · rw [Step.messages_app, cntC_append]
        obtain ⟨w1, w2, w3⟩ := cnts_wrapped_coin cs.shares st.epoch e true
        have hred : cntC (Step.mk (cs.shares.map fun _ =>
            (Target.all, AgreementMessage.mk st.epoch AgreementContent.coin))
            []).messages e
            = cntC (cs.shares.map fun _ =>
              (Target.all, AgreementMessage.mk st.epoch AgreementContent.coin)) e := rfl
        have k := kC e
        omega
  | onCoin coin defB =>
    simp only [execBody] at h
    split at h
    · injection h with h
      subst h
      exact CntSpec.ofPure (fun _ _ => Nat.le_refl _) (fun _ => Nat.le_refl _)
        (fun _ => Nat.le_refl _)
    · intro hv
      cases defB with
      | none =>
        obtain ⟨tB, tA, tC⟩ := cnt_onCoin_tail rec IH IHcore Step.empty coin st r hI hv h
        refine ⟨fun e b' => ?_, fun e => ?_, fun e => ?_⟩
        · have h1 := tB e b'
          have h0 : cntB Step.empty.messages e b' = 0 := rfl
          omega
        · have h1 := tA e
          have h0 : cntA Step.empty.messages e = 0 := rfl
          omega
        · have h1 := tC e
          have h0 : cntC Step.empty.messages e = 0 := rfl
          omega
      | some bd =>
        by_cases hdec : (st.decision.isNone && (bd == coin)) = true
        · simp only [hdec, if_true] at h
          have hID : Inv (Hbbft.decide bd st).2 := (decide_core bd st hI).inv hI
          have hvD : (Hbbft.decide bd st).2.netinfo.isValidator = true := by
            rw [decide_netinfo]
            exact hv
          obtain ⟨tB, tA, tC⟩ := cnt_onCoin_tail rec IH IHcore (Hbbft.decide bd st).1 bd
            (Hbbft.decide bd st).2 r hID hvD h
          obtain ⟨d1, d2, d3, d4, d5, d6⟩ := decide_cnts bd st
          refine ⟨fun e b' => ?_, fun e => ?_, fun e => ?_⟩
          · have h1 := tB e b'
            have h2 := d1 e b'
            have h3 := d4 e b'
            omega
          · have h1 := tA e
            have h2 := d2 e
            have h3 := d5 e
            omega
          · have h1 := tC e
            have h2 := d3 e
            have h3 := d6 e
            omega
        · simp only [hdec, if_false] at h
          obtain ⟨tB, tA, tC⟩ := cnt_onCoin_tail rec IH IHcore Step.empty bd st r hI hv h
          refine ⟨fun e b' => ?_, fun e => ?_, fun e => ?_⟩
          · have h1 := tB e b'
            have h0 : cntB Step.empty.messages e b' = 0 := rfl
            omega
          · have h1 := tA e
            have h0 : cntA Step.empty.messages e = 0 := rfl
            omega
          · have h1 := tC e
            have h0 : cntC Step.empty.messages e = 0 := rfl
            omega
  | tryFinishConfRound =>
    simp only [execBody] at h
    split at h
    · have hIA : Inv { st with commonCoin :=
          (coinInput st.netinfo (cv st.epoch) st.commonCoin).2 } := hI
      exact CntSpec.retarget (IH _ _ _ hIA h) rfl (fun _ _ => rfl)
        (fun _ => rfl) (fun _ => rfl) (fun _ _ => Nat.zero_le _) (fun _ => Nat.zero_le _)
    · injection h with h
      subst h
      exact CntSpec.ofPure (fun _ _ => Nat.le_refl _) (fun _ => Nat.le_refl _)
        (fun _ => Nat.le_refl _)
  | sendAux b =>
    simp only [execBody] at h
    split at h
    · next hnv =>
      injection h with h
      subst h
      intro hv
      have hnv' : st.netinfo.isValidator = false := by
        revert hnv
        cases st.netinfo.isValidator <;> simp
      rw [hv] at hnv'
      exact absurd hnv' (by simp)
    · obtain ⟨r1, hr1, heq⟩ := Option.map_eq_some'.mp h
      subst heq
      dsimp only
      intro hv
      obtain ⟨kB, kA, kC⟩ := IH _ _ _ hI hr1 hv
      refine ⟨fun e b' => ?_, fun e => ?_, fun e => ?_⟩
      · rw [Step.messages_app, cntB_append]
        have h1v : cntB (Step.mk
            [(Target.all, AgreementMessage.mk st.epoch (AgreementContent.aux b))]
            []).messages e b' = 0 := rfl
        have k := kB e b'
        have hs0 : slackB (Call.handleAux st.netinfo.ourUid b) st e b' = 0 := rfl
        have hsg : slackB (Call.sendAux b) st e b' = 0 := rfl
        omega
      · rw [Step.messages_app, cntA_append]
        have h1v : cntA (Step.mk
            [(Target.all, AgreementMessage.mk st.epoch (AgreementContent.aux b))]
            []).messages e = if e = st.epoch then 1 else 0 :=
          cntA_single_aux Target.all st.epoch b e
        have k := kA e
        have hs0 : slackA (Call.handleAux st.netinfo.ourUid b) st e = 0 := rfl
        have hsg : slackA (Call.sendAux b) st e = if e = st.epoch then 1 else 0 := rfl
        by_cases he : e = st.epoch
        · rw [if_pos he] at h1v hsg
          omega
        · rw [if_neg he] at h1v hsg
          omega
      · rw [Step.messages_app, cntC_append]
        have h1v : cntC (Step.mk
            [(Target.all, AgreementMessage.mk st.epoch (AgreementContent.aux b))]
            []).messages e = 0 := rfl
        have k := kC e
        omega
  | drain msgs =>
    simp only [execBody] at h
    split at h
    · injection h with h
      subst h
      exact CntSpec.ofPure (fun _ _ => Nat.le_refl _) (fun _ => Nat.le_refl _)
        (fun _ => Nat.le_refl _)
    · next s1 m1 rest =>
      simp only [Option.bind_eq_some] at h
      obtain ⟨r1, hr1, h2⟩ := h
      intro hv
      have c1 := IHcore _ _ _ hI hr1 (valCsOK hv _)
      obtain ⟨k1B, k1A, k1C⟩ := IH _ _ _ hI hr1 hv
      have hI1 : Inv r1.2 := c1.inv hI
      have hv1 : r1.2.netinfo.isValidator = true := by rw [c1.netinfo_eq]; exact hv
      split at h2
      · injection h2 with h2
        subst h2
        refine ⟨fun e b' => ?_, fun e => ?_, fun e => ?_⟩
        · have k := k1B e b'
          have hs0 : slackB (Call.handleMessage s1 m1) st e b' = 0 := rfl
          omega
        · have k := k1A e
          have hs0 : slackA (Call.handleMessage s1 m1) st e = 0 := rfl
          omega
        · exact k1C e
      · obtain ⟨r2, hr2, heq⟩ := Option.map_eq_some'.mp h2
        subst heq
        dsimp only
        obtain ⟨k2B, k2A, k2C⟩ := IH _ _ _ hI1 hr2 hv1
        refine ⟨fun e b' => ?_, fun e => ?_, fun e => ?_⟩
        · rw [Step.messages_app, cntB_append]
          have k1 := k1B e b'
          have k2 := k2B e b'
          have hs1 : slackB (Call.handleMessage s1 m1) st e b' = 0 := rfl
          have hs2 : slackB (Call.drain rest) r1.2 e b' = 0 := rfl
          omega
        · rw [Step.messages_app, cntA_append]
          have k1 := k1A e
          have k2 := k2A e
          have hs1 : slackA (Call.handleMessage s1 m1) st e = 0 := rfl
          have hs2 : slackA (Call.drain rest) r1.2 e = 0 := rfl
          omega
        · rw [Step.messages_app, cntC]
          rw [List.filter_append, List.length_append]
          have k1 := k1C e
          have k2 := k2C e
          have e1 : (List.filter (isConfMsg e) r1.1.messages).length = cntC r1.1.messages e := rfl
          have e2 : (List.filter (isConfMsg e) r2.1.messages).length = cntC r2.1.messages e := rfl
          omega

/-- The interpreter satisfies the emission-budget relation. -/
theorem exec_cnt (cv : Nat → Bool) :
    ∀ fuel c st r, Inv st → exec cv fuel c st = some r → CntSpec c st r.1 r.2 := by
  intro fuel
  induction fuel with
  | zero =>
    intro c st r _ h
    simp [exec] at h
  | succ f ih =>
    intro c st r hI h
    exact cntBody (exec cv f) cv (fun c st r hI h => ih c st r hI h)
      (fun c st r hI h hP => exec_core cv f c st r hI h hP) c st r hI h

/-- The number of `input` events in a host-event sequence. -/
def countInputs : List Event → Nat
  | [] => 0
  | Event.input _ :: rest => countInputs rest + 1
  | Event.deliver _ _ :: rest => countInputs rest

theorem slackB_le_one (c : Call) (st : AgreementState) (e : Nat) (b : Bool) :
    slackB c st e b ≤ 1 := by
  cases c <;> simp only [slackB] <;> (try split) <;> omega

theorem slackA_le_one (c : Call) (st : AgreementState) (e : Nat) :
    slackA c st e ≤ 1 := by
  cases c <;> simp only [slackA] <;> (try split) <;> omega

/-- Run-level emission accounting on a validator: every `input` event buys at
most one extra `BVal` (per epoch and value) and one extra `Aux` (per epoch);
`Conf` messages have no slack at all. -/
theorem runExec_cnt (cv : Nat → Bool) (fuel : Nat) :
    ∀ es st r, Inv st → st.netinfo.isValidator = true →
      runExec cv fuel st es = some r →
      (∀ e b, cntB r.1.messages e b + phiB st e b ≤ phiB r.2 e b + countInputs es) ∧
      (∀ e, cntA r.1.messages e + phiA st e ≤ phiA r.2 e + countInputs es) ∧
      (∀ e, cntC r.1.messages e + phiC st e ≤ phiC r.2 e) := by
  intro es
  induction es with
  | nil =>
    intro st r hI hv h
    simp only [runExec] at h
    injection h with h
    subst h
    refine ⟨fun e b => ?_, fun e => ?_, fun e => ?_⟩
    · have h0 : cntB (Step.empty, st).1.messages e b = 0 := rfl
      have hφ : phiB (Step.empty, st).2 e b = phiB st e b := rfl
      omega
    · have h0 : cntA (Step.empty, st).1.messages e = 0 := rfl
      have hφ : phiA (Step.empty, st).2 e = phiA st e := rfl
      omega
    · have h0 : cntC (Step.empty, st).1.messages e = 0 := rfl
      have hφ : phiC (Step.empty, st).2 e = phiC st e := rfl
      omega
  | cons ev rest ih =>
    intro st r hI hv h
    simp only [runExec] at h
    simp only [Option.bind_eq_some, Option.map_eq_some'] at h
    obtain ⟨r1, hr1, r2, hr2, heq⟩ := h
    subst heq
    dsimp only
    cases ev with
    | input b =>
      dsimp only at hr1
      cases hs : setInput cv fuel b st with
      | none =>
        rw [hs] at hr1
        exact absurd hr1 (by simp)
      | some ex =>
        cases ex with
        | ok rv =>
          simp only [hs] at hr1
          injection hr1 with hr1
          subst hr1
          have hx := setInput_ok hs
          have core := exec_core cv fuel _ _ _ hI hx (fun _ => rfl)
          obtain ⟨kB, kA, kC⟩ := exec_cnt cv fuel _ _ _ hI hx hv
          obtain ⟨iB, iA, iC⟩ := ih _ _ (core.inv hI)
            (by rw [core.netinfo_eq]; exact hv) hr2
          refine ⟨fun e b' => ?_, fun e => ?_, fun e => ?_⟩
          · rw [Step.messages_app, cntB_append]
            have k := kB e b'
            have i := iB e b'
            have hsl := slackB_le_one (Call.inputBody b) st e b'
            have hci : countInputs (Event.input b :: rest) = countInputs rest + 1 := rfl
            omega
          · rw [Step.messages_app, cntA_append]
            have k := kA e
            have i := iA e
            have hsl := slackA_le_one (Call.inputBody b) st e
            have hci : countInputs (Event.input b :: rest) = countInputs rest + 1 := rfl
            omega
          · rw [Step.messages_app, cntC_append]
            have k := kC e
            have i := iC e
            omega
        | error err =>
          simp only [hs] at hr1
          injection hr1 with hr1
          subst hr1
          obtain ⟨iB, iA, iC⟩ := ih _ _ hI hv hr2
          refine ⟨fun e b' => ?_, fun e => ?_, fun e => ?_⟩
          · rw [Step.messages_app, cntB_append]
            have h0 : cntB (Step.empty, st).1.messages e b' = 0 := rfl
            have i := iB e b'
            have hci : countInputs (Event.input b :: rest) = countInputs rest + 1 := rfl
            omega
          · rw [Step.messages_app, cntA_append]
            have h0 : cntA (Step.empty, st).1.messages e = 0 := rfl
            have i := iA e
            have hci : countInputs (Event.input b :: rest) = countInputs rest + 1 := rfl
            omega
          · rw [Step.messages_app, cntC_append]
            have h0 : cntC (Step.empty, st).1.messages e = 0 := rfl
            have i := iC e
            omega
    | deliver s m =>
      dsimp only at hr1
      have core := exec_core cv fuel _ _ _ hI hr1 (fun _ => rfl)
      obtain ⟨kB, kA, kC⟩ := exec_cnt cv fuel _ _ _ hI hr1 hv
      obtain ⟨iB, iA, iC⟩ := ih _ _ (core.inv hI)
        (by rw [core.netinfo_eq]; exact hv) hr2
      refine ⟨fun e b' => ?_, fun e => ?_, fun e => ?_⟩
      · rw [Step.messages_app, cntB_append]
        have k := kB e b'
        have i := iB e b'
        have hs0 : slackB (Call.handleMessage s m) st e b' = 0 := rfl
        have hci : countInputs (Event.deliver s m :: rest) = countInputs rest := rfl
        omega
      · rw [Step.messages_app, cntA_append]
        have k := kA e
        have i := iA e
        have hs0 : slackA (Call.handleMessage s m) st e = 0 := rfl
        have hci : countInputs (Event.deliver s m :: rest) = countInputs rest := rfl
        omega
      · rw [Step.messages_app, cntC_append]
        have k := kC e
        have i := iC e
        omega

/-- The fresh instance has all emission budgets at zero. -/
theorem phi_init (ni : NetworkInfo) (e : Nat) (b : Bool) :
    phiB (initState ni) e b = 0 ∧ phiA (initState ni) e = 0 ∧
    phiC (initState ni) e = 0 := by
  refine ⟨?_, ?_, ?_⟩
  · have h : phiB (initState ni) e b = (if e < 0 then 1 else if e = 0 then
        (if BinValues.none.contains b then 1 else 0) else 0) := rfl
    rw [BinValues.none_contains] at h
    simp only [Bool.false_eq_true, if_false] at h
    rw [if_neg (Nat.not_lt_zero e)] at h
    by_cases he : e = 0
    · rw [if_pos he] at h
      exact h
    · rw [if_neg he] at h
      exact h
  · have h : phiA (initState ni) e = (if e < 0 then 1 else if e = 0 then
        (if BinValues.none = BinValues.none then 0 else 1) else 0) := rfl
    rw [if_pos rfl, if_neg (Nat.not_lt_zero e)] at h
    by_cases he : e = 0
    · rw [if_pos he] at h
      exact h
    · rw [if_neg he] at h
      exact h
  · have h : phiC (initState ni) e = (if e < 0 then 1 else if e = 0 then
        (if (false : Bool) then 1 else 0) else 0) := rfl
    simp only [Bool.false_eq_true, if_false] at h
    rw [if_neg (Nat.not_lt_zero e)] at h
    by_cases he : e = 0
    · rw [if_pos he] at h
      exact h
    · rw [if_neg he] at h
      exact h

/-! ## Replay idempotence (claim C9) -/

theorem addShare_contains_self (c : CommonCoin) (s : Nat) :
    (c.addShare s).receivedShares.contains s = true := by
  unfold CommonCoin.addShare
  split
  · next hc => exact hc
  · simp

theorem addShare_of_contains {c : CommonCoin} {s : Nat}
    (h : c.receivedShares.contains s = true) : c.addShare s = c := by
  unfold CommonCoin.addShare
  rw [if_pos h]

/-- A repeated `CommonCoin::input` is absorbed by the `hadInput` latch. -/
theorem coinInput_of_hadInput (ni : NetworkInfo) (v : Bool) {c : CommonCoin}
    (h : c.hadInput = true) : coinInput ni v c = (CoinStep.mk [] [], c) := by
  unfold coinInput
  rw [if_pos h]

/-- A share handled without producing an output leaves the guard false and
only records the sender. -/
theorem coinHandleShare_no_output {ni : NetworkInfo} {v : Bool} {s : Nat}
    {c : CommonCoin} (h : (coinHandleShare ni v s c).1.outputs = []) :
    coinHandleShare ni v s c = (CoinStep.mk [] [], c.addShare s) ∧
    (!(c.addShare s).outputProduced &&
      Decidable.decide (ni.numFaulty + 1 ≤ (c.addShare s).receivedShares.length))
      = false := by
  revert h
  simp only [coinHandleShare]
  split
  · intro h
    exact absurd h (by simp)
  · next hg =>
    intro _
    refine ⟨rfl, ?_⟩
    revert hg
    cases (!(c.addShare s).outputProduced &&
      Decidable.decide (ni.numFaulty + 1 ≤ (c.addShare s).receivedShares.length)) <;>
      simp

/-- Handling a share from a sender already recorded, when the output guard is
false, is a complete no-op. -/
theorem coinHandleShare_replay {ni : NetworkInfo} {v : Bool} {s : Nat}
    {c : CommonCoin} (hc : c.receivedShares.contains s = true)
    (hg : (!c.outputProduced &&
      Decidable.decide (ni.numFaulty + 1 ≤ c.receivedShares.length)) = false) :
    coinHandleShare ni v s c = (CoinStep.mk [] [], c) := by
  simp only [coinHandleShare, addShare_of_contains hc]
  rw [if_neg]
  rw [hg]
  exact Bool.noConfusion

/-- Replaying a `Term` message that did not decide is a no-op on the state. -/
theorem handleTerm_replay (s : Nat) (b : Bool) (st : AgreementState)
    (hT : st.terminated = false)
    (h : (handleTerm s b st).2.terminated = false) :
    (handleTerm s b (handleTerm s b st).2).2 = (handleTerm s b st).2 := by
  by_cases hc : (st.decision.isNone && Decidable.decide (st.netinfo.numFaulty <
        countTerm (insertMap s b st.receivedTerm) b)) = true
  · exfalso
    have hterm : (Hbbft.decide b
        { st with receivedTerm := insertMap s b st.receivedTerm }).2.terminated
        = true := by
      unfold Hbbft.decide
      rw [if_neg (fun hh : ({ st with receivedTerm := insertMap s b st.receivedTerm } :
        AgreementState).terminated = true => by
          rw [show ({ st with receivedTerm := insertMap s b st.receivedTerm } :
            AgreementState).terminated = st.terminated from rfl, hT] at hh
          exact Bool.noConfusion hh)]
      split <;> rfl
    have h1 : handleTerm s b st =
        Hbbft.decide b { st with receivedTerm := insertMap s b st.receivedTerm } := by
      simp only [handleTerm]
      rw [if_pos hc]
    rw [h1, hterm] at h
    exact Bool.noConfusion h
  · have h1 : handleTerm s b st = (Step.empty,
        { st with receivedTerm := insertMap s b st.receivedTerm }) := by
      simp only [handleTerm]
      rw [if_neg hc]
    rw [h1]
    have hidem : insertMap s b (insertMap s b st.receivedTerm)
        = insertMap s b st.receivedTerm := insertMap_idem s b st.receivedTerm
    simp only [handleTerm]
    rw [hidem]
    rw [if_neg hc]

/-- Replaying a same-epoch `BVal` message is a no-op on the state: the vote
set is unchanged, the `2f + 1` branch re-runs without growing `bin_values`
(and without a second `Aux`), and the `f + 1` relay is blocked by `sent_bval`
on a validator and by the validator check otherwise. -/
theorem replay_bval (cv : Nat → Bool) (f1 f2 s : Nat) (b : Bool)
    (st : AgreementState) (r1 r2 : Step × AgreementState)
    (hI : Inv st)
    (h1 : exec cv f1 (Call.handleBval s b) st = some r1)
    (h2 : exec cv f2 (Call.handleBval s b) r1.2 = some r2)
    (hE : r1.2.epoch = st.epoch) : r2.2 = r1.2 := by
  have core1 := exec_core cv f1 _ _ _ hI h1 (fun _ => rfl)
  have hI1 : Inv r1.2 := core1.inv hI
  obtain ⟨_, esub⟩ := exec_frame cv f1 _ _ _ hI h1
  obtain ⟨eMem, eBin, eSent, _⟩ := esub hE
  cases f2 with
  | zero => simp [exec] at h2
  | succ f2 =>
    rw [exec_succ] at h2
    simp only [execBody] at h2
    have hins : insertBvalEntry s b r1.2.receivedBval = r1.2.receivedBval :=
      insertBvalEntry_of_mem eMem
    rw [hins] at h2
    by_cases hcnt2 : countBval r1.2.receivedBval b = 2 * r1.2.netinfo.numFaulty + 1
    · rw [if_pos hcnt2] at h2
      have hcnt2a : countBval r1.2.receivedBval b = 2 * st.netinfo.numFaulty + 1 := by
        rw [← core1.netinfo_eq]
        exact hcnt2
      have hbin : r1.2.binValues.contains b = true := eBin hcnt2a
      have hnn : ¬ (r1.2.binValues = BinValues.none) :=
        BinValues.ne_none_of_contains hbin
      rw [if_neg hnn] at h2
      have hinsv : r1.2.binValues.insert b = (r1.2.binValues, false) :=
        BinValues.insert_of_contains hbin
      rw [hinsv] at h2
      simp only [Bool.false_eq_true, if_false, Option.some_bind] at h2
      by_cases hg : (Decidable.decide (countBval r1.2.receivedBval b
          = r1.2.netinfo.numFaulty + 1) && !r1.2.sentBval.contains b) = true
      · rw [if_pos hg] at h2
        have hguard : countBval r1.2.receivedBval b = r1.2.netinfo.numFaulty + 1 ∧
            r1.2.sentBval.contains b = false := by
          revert hg
          cases hcc : r1.2.sentBval.contains b <;> simp [hcc]
        obtain ⟨r3, hr3, heq3⟩ := Option.map_eq_some'.mp h2
        by_cases hval : st.netinfo.isValidator = true
        · exfalso
          have hcnt1a : countBval r1.2.receivedBval b = st.netinfo.numFaulty + 1 := by
            rw [← core1.netinfo_eq]
            exact hguard.1
          have hsent := eSent hval hcnt1a
          rw [hguard.2] at hsent
          exact Bool.noConfusion hsent
        · have hvf : st.netinfo.isValidator = false := by
            revert hval
            cases st.netinfo.isValidator <;> simp
          have hvf1 : r1.2.netinfo.isValidator = false := by
            rw [core1.netinfo_eq]
            exact hvf
          obtain ⟨_, esub3⟩ := exec_frame cv f2 _ _ _ hI1 hr3
          have hid := esub3.1 hvf1
          rw [← heq3]
          exact hid.trans rfl
      · rw [if_neg hg] at h2
        injection h2 with h2
        rw [← h2]
    · rw [if_neg hcnt2] at h2
      simp only [Option.some_bind] at h2
      by_cases hg : (Decidable.decide (countBval r1.2.receivedBval b
          = r1.2.netinfo.numFaulty + 1) && !r1.2.sentBval.contains b) = true
      · rw [if_pos hg] at h2
        have hguard : countBval r1.2.receivedBval b = r1.2.netinfo.numFaulty + 1 ∧
            r1.2.sentBval.contains b = false := by
          revert hg
          cases hcc : r1.2.sentBval.contains b <;> simp [hcc]
        obtain ⟨r3, hr3, heq3⟩ := Option.map_eq_some'.mp h2
        by_cases hval : st.netinfo.isValidator = true
        · exfalso
          have hcnt1a : countBval r1.2.receivedBval b = st.netinfo.numFaulty + 1 := by
            rw [← core1.netinfo_eq]
            exact hguard.1
          have hsent := eSent hval hcnt1a
          rw [hguard.2] at hsent
          exact Bool.noConfusion hsent
        · have hvf : st.netinfo.isValidator = false := by
            revert hval
            cases st.netinfo.isValidator <;> simp
          have hvf1 : r1.2.netinfo.isValidator = false := by
            rw [core1.netinfo_eq]
            exact hvf
          obtain ⟨_, esub3⟩ := exec_frame cv f2 _ _ _ hI1 hr3
          have hid := esub3.1 hvf1
          rw [← heq3]
          exact hid.trans rfl
      · rw [if_neg hg] at h2
        injection h2 with h2
        rw [← h2]

/-- Replaying a same-epoch `Aux` message is a no-op on the state: either the
confirmation round has started (the message is ignored), or the recorded
vote is overwritten with itself and every follow-up branch of the first
delivery either advanced the epoch (excluded here) or left a state whose
guards block re-execution. -/
theorem replay_aux (cv : Nat → Bool) (f1 f2 s : Nat) (b : Bool)
    (st : AgreementState) (r1 r2 : Step × AgreementState)
    (hI : Inv st) (ht : st.terminated = false)
    (h1 : exec cv f1 (Call.handleAux s b) st = some r1)
    (h2 : exec cv f2 (Call.handleAux s b) r1.2 = some r2)
    (hE : r1.2.epoch = st.epoch) : r2.2 = r1.2 := by
  cases f1 with
  | zero => simp [exec] at h1
  | succ f1 =>
    rw [exec_succ] at h1
    simp only [execBody] at h1
    cases f2 with
    | zero => simp [exec] at h2
    | succ f2 =>
      rw [exec_succ] at h2
      simp only [execBody] at h2
      split at h1
      · next hcr0T =>
        injection h1 with h1
        have hr1 : r1.2 = st := by rw [← h1]
        rw [hr1] at h2 ⊢
        rw [if_pos hcr0T] at h2
        injection h2 with h2
        rw [← h2]
      · next hcr0F =>
        have hcr0 : st.confRound = false := by
          revert hcr0F
          cases st.confRound <;> simp
        split at h1
        · next hbv0 =>
          injection h1 with h1
          have hr1 : r1.2 = ({ st with
              receivedAux := insertMap s b st.receivedAux } : AgreementState) := by
            rw [← h1]
          rw [hr1] at h2 ⊢
          dsimp only at h2
          rw [if_neg (fun hh : st.confRound = true => by
            rw [hcr0] at hh
            exact Bool.noConfusion hh)] at h2
          rw [insertMap_idem] at h2
          rw [if_pos hbv0] at h2
          injection h2 with h2
          rw [← h2]
        · next hbv0F =>
          split at h1
          · next hca0 =>
            injection h1 with h1
            have hr1 : r1.2 = ({ st with
                receivedAux := insertMap s b st.receivedAux } : AgreementState) := by
              rw [← h1]
            rw [hr1] at h2 ⊢
            dsimp only at h2
            rw [if_neg (fun hh : st.confRound = true => by
              rw [hcr0] at hh
              exact Bool.noConfusion hh)] at h2
            rw [insertMap_idem] at h2
            rw [if_neg hbv0F] at h2
            rw [if_pos hca0] at h2
            injection h2 with h2
            rw [← h2]
          · next hca0F =>
            split at h1
            · next hsched =>
              exfalso
              cases f1 with
              | zero => simp [exec] at h1
              | succ f1b =>
                have hIA : Inv ({ st with
                    receivedAux := insertMap s b st.receivedAux } :
                    AgreementState) := hI
                have htA : ({ st with
                    receivedAux := insertMap s b st.receivedAux } :
                    AgreementState).terminated = false := ht
                have hadv := onCoin_advance hIA htA h1
                have h5 : st.epoch + 1 ≤ r1.2.epoch := hadv
                omega
            · next hsched =>
              exfalso
              cases f1 with
              | zero => simp [exec] at h1
              | succ f1b =>
                have hIA : Inv ({ st with
                    receivedAux := insertMap s b st.receivedAux } :
                    AgreementState) := hI
                have htA : ({ st with
                    receivedAux := insertMap s b st.receivedAux } :
                    AgreementState).terminated = false := ht
                have hadv := onCoin_advance hIA htA h1
                have h5 : st.epoch + 1 ≤ r1.2.epoch := hadv
                omega
            · next hsched =>
              have hIA : Inv ({ st with
                  receivedAux := insertMap s b st.receivedAux } :
                  AgreementState) := hI
              obtain ⟨_, esubC⟩ := exec_frame cv f1 _ _ _ hIA h1
              have hconf : r1.2.confRound = true := esubC hE
              rw [if_pos hconf] at h2
              injection h2 with h2
              rw [← h2]

/-- Replaying a same-epoch `Conf` message is a no-op on the state: the stored
value is overwritten with itself, and when the `N − f` threshold fired on the
first delivery the `CommonCoin` input latch absorbs the repeated
`try_finish_conf_round`. -/
theorem replay_conf (cv : Nat → Bool) (f1 f2 s : Nat) (v : BinValues)
    (st : AgreementState) (r1 r2 : Step × AgreementState)
    (hI : Inv st) (ht : st.terminated = false)
    (h1 : exec cv f1 (Call.handleConf s v) st = some r1)
    (h2 : exec cv f2 (Call.handleConf s v) r1.2 = some r2)
    (hE : r1.2.epoch = st.epoch) : r2.2 = r1.2 := by
  cases f1 with
  | zero => simp [exec] at h1
  | succ f1 =>
    rw [exec_succ] at h1
    simp only [execBody] at h1
    cases f2 with
    | zero => simp [exec] at h2
    | succ f2 =>
      rw [exec_succ] at h2
      simp only [execBody] at h2
      cases f1 with
      | zero => simp [exec] at h1
      | succ f1b =>
        rw [exec_succ] at h1
        simp only [execBody] at h1
        split at h1
        · next hg1 =>
          cases f1b with
          | zero => simp [exec] at h1
          | succ f1c =>
            rw [exec_succ] at h1
            simp only [execBody] at h1
            split at h1
            · next houts =>
              injection h1 with h1
              have hr1 : r1.2 = ({ { st with
                  receivedConf := insertMap s v st.receivedConf } with
                  commonCoin := (coinInput st.netinfo (cv st.epoch)
                    st.commonCoin).2 } : AgreementState) := by
                rw [← h1]
              rw [hr1] at h2 ⊢
              dsimp only at h2
              rw [insertMap_idem] at h2
              cases f2 with
              | zero => simp [exec] at h2
              | succ f2b =>
                rw [exec_succ] at h2
                simp only [execBody] at h2
                split at h2
                · next hg2 =>
                  rw [coinInput_of_hadInput st.netinfo (cv st.epoch)
                    (coinInput_hadInput st.netinfo (cv st.epoch) st.commonCoin)] at h2
                  dsimp only at h2
                  cases f2b with
                  | zero => simp [exec] at h2
                  | succ f2c =>
                    rw [exec_succ] at h2
                    simp only [execBody] at h2
                    injection h2 with h2
                    rw [← h2]
                · next hg2 =>
                  injection h2 with h2
                  rw [← h2]
            · next coin tail houts =>
              exfalso
              obtain ⟨rx, hrx, heqx⟩ := Option.map_eq_some'.mp h1
              have hIL : Inv ({ { st with
                  receivedConf := insertMap s v st.receivedConf } with
                  commonCoin := (coinInput st.netinfo (cv st.epoch)
                    st.commonCoin).2 } : AgreementState) := hI
              have htL : ({ { st with
                  receivedConf := insertMap s v st.receivedConf } with
                  commonCoin := (coinInput st.netinfo (cv st.epoch)
                    st.commonCoin).2 } : AgreementState).terminated = false := ht
              cases f1c with
              | zero => simp [exec] at hrx
              | succ f1d =>
                have hadv := onCoin_advance hIL htL hrx
                have h5 : st.epoch + 1 ≤ rx.2.epoch := hadv
                have h6 : r1.2.epoch = rx.2.epoch := by rw [← heqx]
                omega
        · next hg1F =>
          injection h1 with h1
          have hr1 : r1.2 = ({ st with
              receivedConf := insertMap s v st.receivedConf } : AgreementState) := by
            rw [← h1]
          rw [hr1] at h2 ⊢
          dsimp only at h2
          rw [insertMap_idem] at h2
          cases f2 with
          | zero => simp [exec] at h2
          | succ f2b =>
            rw [exec_succ] at h2
            simp only [execBody] at h2
            rw [if_neg hg1F] at h2
            injection h2 with h2
            rw [← h2]

/-- Replaying a same-epoch `Coin` message is a no-op on the state: the share
set already contains the sender, and the output guard that was false on the
first delivery is false again. -/
theorem replay_coin (cv : Nat → Bool) (f1 f2 s : Nat)
    (st : AgreementState) (r1 r2 : Step × AgreementState)
    (hI : Inv st) (ht : st.terminated = false)
    (h1 : exec cv f1 (Call.handleCoin s) st = some r1)
    (h2 : exec cv f2 (Call.handleCoin s) r1.2 = some r2)
    (hE : r1.2.epoch = st.epoch) : r2.2 = r1.2 := by
  cases f1 with
  | zero => simp [exec] at h1
  | succ f1 =>
    rw [exec_succ] at h1
    simp only [execBody] at h1
    cases f1 with
    | zero => simp [exec] at h1
    | succ f1b =>
      rw [exec_succ] at h1
      simp only [execBody] at h1
      split at h1
      · next houts =>
        injection h1 with h1
        have hr1 : r1.2 = ({ st with
            commonCoin := (coinHandleShare st.netinfo (cv st.epoch) s
              st.commonCoin).2 } : AgreementState) := by
          rw [← h1]
        obtain ⟨hch, hgf⟩ := coinHandleShare_no_output houts
        rw [hr1] at h2 ⊢
        rw [hch] at h2 ⊢
        cases f2 with
        | zero => simp [exec] at h2
        | succ f2b =>
          rw [exec_succ] at h2
          simp only [execBody] at h2
          rw [coinHandleShare_replay (addShare_contains_self st.commonCoin s) hgf]
            at h2
          dsimp only at h2
          cases f2b with
          | zero => simp [exec] at h2
          | succ f2c =>
            rw [exec_succ] at h2
            simp only [execBody] at h2
            injection h2 with h2
            rw [← h2]
      · next coin tail houts =>
        exfalso
        obtain ⟨rx, hrx, heqx⟩ := Option.map_eq_some'.mp h1
        have hIL : Inv ({ st with
            commonCoin := (coinHandleShare st.netinfo (cv st.epoch) s
              st.commonCoin).2 } : AgreementState) := hI
        have htL : ({ st with
            commonCoin := (coinHandleShare st.netinfo (cv st.epoch) s
              st.commonCoin).2 } : AgreementState).terminated = false := ht
        cases f1b with
        | zero => simp [exec] at hrx
        | succ f1c =>
          have hadv := onCoin_advance hIL htL hrx
          have h5 : st.epoch + 1 ≤ rx.2.epoch := hadv
          have h6 : r1.2.epoch = rx.2.epoch := by rw [← heqx]
          omega

/-- C7, counterexample to the claim as stated: `send_conf` on a non-validator
with `conf_round = false` modifies the state — it sets `conf_round` to
`true` (the flag is set before the validator membership check). -/
theorem c7_sendconf_mutates_counterexample :
    (initState ni4nv).confRound = false ∧
    ((exec cvT 3 Call.sendConf (initState ni4nv)).getD
      (Step.empty, initState ni4nv)).2.confRound = true := by
  constructor
  · rfl
  · rfl

/-- C5: single-shot sends, corrected. In every run of a fresh validator
instance, at most one `Conf` is emitted per epoch unconditionally; the
`BVal(b)`-per-epoch and `Aux`-per-epoch counts are bounded by one plus the
number of `input` events (not by one, as claimed); and when a single `input`
is the first event and `N ≥ 2`, the original single-shot bound does hold for
`BVal` and `Aux` as well. -/
theorem c5_single_shot_sends (ni : NetworkInfo) (cv : Nat → Bool) (fuel : Nat)
    (es : List Event) (r : Step × AgreementState)
    (hv : ni.isValidator = true)
    (h : runExec cv fuel (initState ni) es = some r) :
    (∀ e, cntC r.1.messages e ≤ 1) ∧
    (∀ e b, cntB r.1.messages e b ≤ 1 + countInputs es) ∧
    (∀ e, cntA r.1.messages e ≤ 1 + countInputs es) ∧
    (∀ b0 rest, es = Event.input b0 :: rest → countInputs rest = 0 →
      2 ≤ ni.numNodes →
      (∀ e b, cntB r.1.messages e b ≤ 1) ∧ (∀ e, cntA r.1.messages e ≤ 1)) := by
  have hIi : Inv (initState ni) := Inv_init ni
  have hvi : (initState ni).netinfo.isValidator = true := hv
  obtain ⟨rB, rA, rC⟩ := runExec_cnt cv fuel es _ _ hIi hvi h
  refine ⟨fun e => ?_, fun e b => ?_, fun e => ?_, ?_⟩
  · have h1 := rC e
    obtain ⟨p1, p2, p3⟩ := phi_init ni e true
    have h2 := phiC_le_one r.2 e
    omega
  · have h1 := rB e b
    obtain ⟨p1, p2, p3⟩ := phi_init ni e b
    have h2 := phiB_le_one r.2 e b
    omega
  · have h1 := rA e
    obtain ⟨p1, p2, p3⟩ := phi_init ni e true
    have h2 := phiA_le_one r.2 e
    omega
  · intro b0 rest hes hrest hN
    subst hes
    simp only [runExec] at h
    simp only [Option.bind_eq_some, Option.map_eq_some'] at h
    obtain ⟨r1, hr1, r2, hr2, heq⟩ := h
    subst heq
    dsimp only
    cases hs : setInput cv fuel b0 (initState ni) with
    | none =>
      rw [hs] at hr1
      exact absurd hr1 (by simp)
    | some ex =>
      cases ex with
      | ok rv =>
        simp only [hs] at hr1
        injection hr1 with hr1
        subst hr1
        have hx := setInput_ok hs
        have core := exec_core cv fuel _ _ _ hIi hx (fun _ => rfl)
        obtain ⟨kB, kA, kC⟩ := exec_cnt cv fuel _ _ _ hIi hx hvi
        obtain ⟨iB, iA, iC⟩ := runExec_cnt cv fuel rest _ _ (core.inv hIi)
          (by rw [core.netinfo_eq]; exact hvi) hr2
        constructor
        · intro e b
          rw [Step.messages_app, cntB_append]
          have k := kB e b
          have i := iB e b
          obtain ⟨p1, p2, p3⟩ := phi_init ni e b
          have hsl : slackB (Call.inputBody b0) (initState ni) e b = 0 := by
            have hcan : slackB (Call.inputBody b0) (initState ni) e b
                = if e = 0 ∧ b = b0 ∧ BinValues.none.contains b0 = true
                  then 1 else 0 := rfl
            rw [BinValues.none_contains] at hcan
            rw [hcan, if_neg]
            intro hc
            exact Bool.noConfusion hc.2.2
          have h2 := phiB_le_one r2.2 e b
          omega
        · intro e
          rw [Step.messages_app, cntA_append]
          have k := kA e
          have i := iA e
          obtain ⟨p1, p2, p3⟩ := phi_init ni e true
          have hsl : slackA (Call.inputBody b0) (initState ni) e = 0 := by
            have hcan : slackA (Call.inputBody b0) (initState ni) e
                = if ni.numNodes = 1 then 1 else 0 := rfl
            rw [hcan, if_neg (by omega)]
          have h2 := phiA_le_one r2.2 e
          omega
      | error err =>
        simp only [hs] at hr1
        injection hr1 with hr1
        subst hr1
        obtain ⟨iB, iA, iC⟩ := runExec_cnt cv fuel rest _ _ hIi hvi hr2
        constructor
        · intro e b
          rw [Step.messages_app, cntB_append]
          have h0 : cntB (Step.empty, initState ni).1.messages e b = 0 := rfl
          have i := iB e b
          obtain ⟨p1, p2, p3⟩ := phi_init ni e b
          have h2 := phiB_le_one r2.2 e b
          omega
        · intro e
          rw [Step.messages_app, cntA_append]
          have h0 : cntA (Step.empty, initState ni).1.messages e = 0 := rfl
          have i := iA e
          obtain ⟨p1, p2, p3⟩ := phi_init ni e true
          have h2 := phiA_le_one r2.2 e
          omega

/-- C5, witness: a fresh 4-node validator that receives a single input obeys
all the bounds, including the input-first single-shot refinement at a
concrete epoch and value. -/
theorem c5_single_shot_sends_witness :
    cntC ((runExec cvT 40 (initState ni4v) [Event.input true]).getD
      (Step.empty, initState ni4v)).1.messages 0 ≤ 1 ∧
    cntB ((runExec cvT 40 (initState ni4v) [Event.input true]).getD
      (Step.empty, initState ni4v)).1.messages 0 true
      ≤ 1 + countInputs [Event.input true] ∧
    cntA ((runExec cvT 40 (initState ni4v) [Event.input true]).getD
      (Step.empty, initState ni4v)).1.messages 0
      ≤ 1 + countInputs [Event.input true] ∧
    cntB ((runExec cvT 40 (initState ni4v) [Event.input true]).getD
      (Step.empty, initState ni4v)).1.messages 0 true ≤ 1 := by
  have h : runExec cvT 40 (initState ni4v) [Event.input true]
      = some ((runExec cvT 40 (initState ni4v) [Event.input true]).getD
        (Step.empty, initState ni4v)) := rfl
  have T := c5_single_shot_sends ni4v cvT 40 [Event.input true] _ rfl h
  exact ⟨T.1 0, T.2.1 0 true, T.2.2.1 0,
    (T.2.2.2 true [] rfl rfl (by decide)).1 0 true⟩

/-- C5, counterexample to the claim as stated: after relaying `BVal(true)` on
the `f + 1` threshold, a validator's own `input true` re-broadcasts
`BVal(true)` in the same epoch (two `BVal(true)` at epoch 0); and the
`N = 1` input short-circuit path emits two `Aux` messages tagged with
epoch 1 (one from the `handle_bval` cascade, one from `set_input`'s direct
`send_aux`). -/
theorem c5_single_shot_counterexample :
    cntB ((runExec cvT 40 (initState ni4v)
      [Event.deliver 1 (AgreementMessage.mk 0 (AgreementContent.bval true)),
       Event.deliver 2 (AgreementMessage.mk 0 (AgreementContent.bval true)),
       Event.input true]).getD (Step.empty, initState ni4v)).1.messages 0 true = 2 ∧
    cntA ((runExec cvT 40 (initState ni1v)
      [Event.input true]).getD (Step.empty, initState ni1v)).1.messages 1 = 2 := by
  exact ⟨rfl, rfl⟩

/-- C9: replay idempotence, corrected and restricted to messages that were
actually dispatched: for every reachable state and a message whose epoch is
at most the current one, handling it a second time right after the first
leaves the state exactly where the first handling left it, for all five
message variants (including a `Conf` received after the `N − f` threshold,
absorbed by the coin's input latch). Future-epoch messages are excluded: they
are re-queued, see the counterexample. -/
theorem c9_replay_idempotent (cv : Nat → Bool) (f1 f2 s : Nat)
    (m : AgreementMessage) (st : AgreementState) (r1 r2 : Step × AgreementState)
    (hR : Reachable cv st) (hE : m.epoch ≤ st.epoch)
    (h1 : exec cv f1 (Call.handleMessage s m) st = some r1)
    (h2 : exec cv f2 (Call.handleMessage s m) r1.2 = some r2) :
    r2.2 = r1.2 := by
  have hI : Inv st := hR.holdsInv
  have core1 := exec_core cv f1 _ _ _ hI h1 (fun _ => rfl)
  cases f1 with
  | zero => simp [exec] at h1
  | succ f1 =>
    rw [exec_succ] at h1
    simp only [execBody] at h1
    cases f2 with
    | zero => simp [exec] at h2
    | succ f2 =>
      rw [exec_succ] at h2
      simp only [execBody] at h2
      by_cases hg1 : (st.terminated || Decidable.decide (m.epoch < st.epoch)) = true
      · rw [if_pos hg1] at h1
        injection h1 with h1
        have hr1 : r1.2 = st := by rw [← h1]
        rw [hr1] at h2 ⊢
        rw [if_pos hg1] at h2
        injection h2 with h2
        rw [← h2]
      · rw [if_neg hg1] at h1
        have hterm0 : st.terminated = false := by
          revert hg1
          cases st.terminated <;> simp
        have hlt0 : ¬ m.epoch < st.epoch := by
          intro hc
          exact hg1 (by simp [hc])
        have heq0 : m.epoch = st.epoch := by omega
        rw [if_neg (by simp only [decide_eq_true_eq]; omega)] at h1
        by_cases hterm1 : r1.2.terminated = true
        · rw [if_pos (by simp [hterm1])] at h2
          injection h2 with h2
          rw [← h2]
        · by_cases hadv : st.epoch < r1.2.epoch
          · rw [if_pos (by
              simp only [Bool.or_eq_true, decide_eq_true_eq]
              right
              omega)] at h2
            injection h2 with h2
            rw [← h2]
          · have hE1 : r1.2.epoch = st.epoch := by
              have := core1.epoch_le
              omega
            rw [if_neg (by
              simp only [Bool.or_eq_true, decide_eq_true_eq]
              rintro (hh | hh)
              · exact hterm1 hh
              · omega)] at h2
            rw [if_neg (by simp only [decide_eq_true_eq]; omega)] at h2
            split at h1
            · next b hmc =>
              rw [hmc] at h2
              exact replay_bval cv f1 f2 s b st r1 r2 hI h1 h2 hE1
            · next b hmc =>
              rw [hmc] at h2
              exact replay_aux cv f1 f2 s b st r1 r2 hI hterm0 h1 h2 hE1
            · next v hmc =>
              rw [hmc] at h2
              exact replay_conf cv f1 f2 s v st r1 r2 hI hterm0 h1 h2 hE1
            · next b hmc =>
              rw [hmc] at h2
              injection h1 with h1
              have hr1 : r1.2 = (handleTerm s b st).2 := by rw [← h1]
              have htf : (handleTerm s b st).2.terminated = false := by
                rw [← hr1]
                revert hterm1
                cases r1.2.terminated <;> simp
              rw [hr1] at h2 ⊢
              injection h2 with h2
              rw [← h2]
              exact handleTerm_replay s b st hterm0 htf
            · next hmc =>
              rw [hmc] at h2
              exact replay_coin cv f1 f2 s st r1 r2 hI hterm0 h1 h2 hE1

/-- C9, witness: delivering `Term(true)` from peer 5 to a fresh 4-node
validator and replaying it leaves the state of the first delivery
unchanged. -/
theorem c9_replay_idempotent_witness :
    ((exec cvT 9 (Call.handleMessage 5 (AgreementMessage.mk 0
        (AgreementContent.term true)))
      (((exec cvT 9 (Call.handleMessage 5 (AgreementMessage.mk 0
          (AgreementContent.term true))) (initState ni4v)).getD
        (Step.empty, initState ni4v)).2)).getD
      (Step.empty, initState ni4v)).2
    = (((exec cvT 9 (Call.handleMessage 5 (AgreementMessage.mk 0
        (AgreementContent.term true))) (initState ni4v)).getD
      (Step.empty, initState ni4v)).2) := by
  exact c9_replay_idempotent cvT 9 9 5 (AgreementMessage.mk 0
    (AgreementContent.term true)) (initState ni4v) _ _
    (Reachable.init ni4v) (by decide) rfl rfl

/-- C9, counterexample to the claim as stated: a future-epoch message is
"handled" by being queued, and replaying it queues it a second time — the
state after the replay differs from the state after the first handling
(`incoming_queue` holds two copies instead of one). -/
theorem c9_replay_queue_counterexample :
    ((runExec cvT 9 (initState ni4v)
      [Event.deliver 1 (AgreementMessage.mk 5 (AgreementContent.bval true)),
       Event.deliver 1 (AgreementMessage.mk 5 (AgreementContent.bval true))]).getD
      (Step.empty, initState ni4v)).2.incomingQueue.length = 2 ∧
    ((runExec cvT 9 (initState ni4v)
      [Event.deliver 1 (AgreementMessage.mk 5 (AgreementContent.bval true))]).getD
      (Step.empty, initState ni4v)).2.incomingQueue.length = 1 := by
  exact ⟨rfl, rfl⟩

end Hbbft
